import Mathlib

/-!
# A shallow embedding of the `py_bitcask` storage engine

This file models `src/py_bitcask/bitcask.py`: a log-structured key-value
store in the Bitcask style.  Bytes are modelled as `List Nat` (each entry a
byte value), Python `dict`s as association lists with insert-or-update
semantics that preserve insertion order, the filesystem as a map from
directory ids to directory contents, and Python file objects as entries in
a world-level handle table (so that closing and leaking handles is
observable).  UUIDv7 values drawn from the process-wide generator are
modelled by a monotonically increasing clock counter; the textual stem of a
segment file is the decimal rendering of that counter, and segment file ids
are the CRC32 of that rendering, as in the source.
-/

set_option autoImplicit false
set_option maxRecDepth 100000

deriving instance DecidableEq for Except

namespace PyBitcask

/-- A byte string: a list of byte values. -/
abbrev Bytes := List Nat

/-! ## Python dict semantics over association lists -/

/-- `d[k] = v` on a Python dict: update in place if the key is present
(keeping its position), otherwise append at the end. -/
def dset {K V : Type} [DecidableEq K] (k : K) (v : V) : List (K × V) → List (K × V)
  | [] => [(k, v)]
  | (k', v') :: rest => if k' = k then (k, v) :: rest else (k', v') :: dset k v rest

/-- `d[k]` / `k in d` on a Python dict. -/
def dget {K V : Type} [DecidableEq K] (k : K) : List (K × V) → Option V
  | [] => none
  | (k', v') :: rest => if k' = k then some v' else dget k rest

/-- `del d[k]` on a Python dict. -/
def ddel {K V : Type} [DecidableEq K] (k : K) : List (K × V) → List (K × V)
  | [] => []
  | (k', v') :: rest => if k' = k then rest else (k', v') :: ddel k rest

/-! ## Big-endian integer coding (`struct.pack`/`unpack` with `>`) -/

/-- `w`-byte big-endian encoding of `n` (low `8*w` bits of `n`). -/
def beBytes : Nat → Nat → Bytes
  | 0, _ => []
  | w + 1, n => beBytes w (n / 256) ++ [n % 256]

/-- Big-endian decoding of a byte string. -/
def beToNat (bs : Bytes) : Nat :=
  bs.foldl (fun a b => a * 256 + b) 0

/-! ## CRC32 (zlib / IEEE polynomial) -/

/-- One shift step of the bitwise CRC32 computation. -/
def crc32Step (c : Nat) : Nat :=
  if c % 2 = 1 then (c / 2) ^^^ 0xEDB88320 else c / 2

/-- Iterate the CRC32 shift step. -/
def crc32Bits : Nat → Nat → Nat
  | 0, c => c
  | n + 1, c => crc32Bits n (crc32Step c)

/-- Absorb one byte into the running CRC32 state. -/
def crc32Byte (c b : Nat) : Nat :=
  crc32Bits 8 (c ^^^ b % 256)

/-- `zlib.crc32(data, value)`: the running value is complemented before and
after processing, so calls chain. -/
def crc32 (data : Bytes) (value : Nat := 0) : Nat :=
  (data.foldl crc32Byte (value ^^^ 0xFFFFFFFF)) ^^^ 0xFFFFFFFF

/-- Decimal ASCII rendering of a number: the model of `str(uuid7())`, a
string determined injectively by the generated uuid. -/
def stemBytes (n : Nat) : Bytes :=
  (Nat.toDigits 10 n).map Char.toNat

/-- `crc32(file_stem.encode("utf-8"))`: the file id of a segment stem. -/
def stemFid (n : Nat) : Nat :=
  crc32 (stemBytes n)

/-! ## Filesystem and file-object world

Directory names are modelled as absolute paths identified by a `Nat`; a
directory's contents map a file name (stem and extension) to its bytes, in
creation order (which is also the order `os.listdir` returns in the model;
the real `os.listdir` order is arbitrary, which is why recovery is also
stated over explicit listings below).  Python file objects live in a heap;
the world keeps a handle table so that closing (or failing to close) a file
object is observable even after the store drops its references. -/

/-- File extension: `.db` or `.hint`. -/
inductive FKind where
  | db
  | hint
deriving DecidableEq, Repr

/-- A file name inside a directory: stem and extension. -/
abbrev FName := Nat × FKind

/-- Directory contents, in creation order. -/
abbrev DirFS := List (FName × Bytes)

/-- What a Python file object refers to: a `BytesIO` buffer, or a disk file
(identified by directory and stem, always a `.db` segment) opened either in
`a+b` mode (`wmode = true`) or `rb` mode (`wmode = false`). -/
inductive HKind where
  | mem (buf : Bytes)
  | disk (dir stem : Nat) (wmode : Bool)
deriving DecidableEq, Repr

/-- A Python file object: its referent plus its closed flag. -/
structure HandleObj where
  kind : HKind
  closed : Bool
deriving DecidableEq, Repr

/-- The world outside one store: the filesystem, the heap of file objects,
the process-wide uuid7 generator (`clock`), and allocators for handle ids
and fresh directory ids. -/
structure World where
  dirs : List (Nat × DirFS)
  handles : List (Nat × HandleObj)
  clock : Nat
  hnext : Nat
  dnext : Nat
deriving DecidableEq, Repr

/-- `uuid.uuid7()`: monotonically increasing values from the generator. -/
def uuid7 (w : World) : Nat × World :=
  (w.clock, { w with clock := w.clock + 1 })

/-- Allocate a fresh file object in the heap. -/
def newHandle (w : World) (obj : HandleObj) : Nat × World :=
  (w.hnext, { w with handles := dset w.hnext obj w.handles, hnext := w.hnext + 1 })

/-- Look up a directory's contents. -/
def getDir (w : World) (d : Nat) : Option DirFS :=
  dget d w.dirs

/-- Look up a file's bytes. -/
def readFile (w : World) (d : Nat) (name : FName) : Option Bytes :=
  (getDir w d).bind (dget name)

/-- Overwrite (or create) a file. -/
def setFile (w : World) (d : Nat) (name : FName) (bs : Bytes) : World :=
  match getDir w d with
  | none => w
  | some fs => { w with dirs := dset d (dset name bs fs) w.dirs }

/-- `open(path, "a+b")` on a possibly missing file: creates it empty if
absent, keeps its contents otherwise. -/
def touchFile (w : World) (d : Nat) (name : FName) : World :=
  match readFile w d name with
  | some _ => w
  | none => setFile w d name []

/-- `os.remove`. -/
def removeFile (w : World) (d : Nat) (name : FName) : World :=
  match getDir w d with
  | none => w
  | some fs => { w with dirs := dset d (ddel name fs) w.dirs }

/-- Mark a file object closed (`file.close()`; idempotent). -/
def closeHandle (w : World) (hid : Nat) : World :=
  match dget hid w.handles with
  | none => w
  | some obj => { w with handles := dset hid { obj with closed := true } w.handles }

/-! ## Store state -/

/-- `KeyRec`: a keydir entry. -/
structure KeyRec where
  file_id : Nat
  value_sz : Nat
  value_pos : Nat
  tstamp : Nat
deriving DecidableEq, Repr

/-- `Hint`: one entry of a hint file. -/
structure Hint where
  tstamp : Nat
  key_sz : Nat
  value_sz : Nat
  value_pos : Nat
  key : Bytes
deriving DecidableEq, Repr

/-- The Python exceptions the source can raise. -/
inductive Err where
  /-- `NotADirectoryError` from `open`. -/
  | notADirectory
  /-- `RuntimeError("Bitcask is already open.")`. -/
  | alreadyOpen
  /-- `KeyError` (missing key, or missing dict entry such as
  `self.__datadir[None]`). -/
  | keyError
  /-- `ValueError` (empty value in `put`, or I/O on a closed file). -/
  | valueError
  /-- `struct.error` from `unpack` on a short read. -/
  | structError
  /-- `RuntimeError("Notsupported operation for type :memory.")`. -/
  | memUnsupported
  /-- `OSError`/`FileNotFoundError` and kin from the filesystem. -/
  | ioError
  /-- `TypeError` (e.g. `next(None)`). -/
  | typeError
  /-- `StopIteration` from `__next__`. -/
  | stopIteration
deriving DecidableEq, Repr

/-- The `Bitcask` object: `dirname` is `none` when closed, `some none`
for `":memory"`, `some (some d)` for a persistent directory; `datadir`
maps file ids to heap handle ids. -/
structure Cask where
  threshold : Nat
  dirname : Option (Option Nat)
  active : Option Nat
  keydir : List (Bytes × KeyRec)
  datadir : List (Nat × Nat)
  cur : Nat
  iterState : Option (List KeyRec)
deriving DecidableEq, Repr

/-- `_reset()`: clears dirname, active, keydir, datadir and the iterator
(the cursor and threshold are left as they are, as in the source). -/
def doReset (s : Cask) : Cask :=
  { s with dirname := none, active := none, keydir := [], datadir := [],
           iterState := none }

/-- `Bitcask(threshold)`: a fresh store (the cursor attribute does not
exist before the first `_reactivate` and is only read afterwards; we
represent it by 0). -/
def mkCask (threshold : Nat) : Cask :=
  doReset { threshold := threshold, dirname := none, active := none,
            keydir := [], datadir := [], cur := 0, iterState := none }

/-! ## File-object operations -/

/-- `BytesIO`-style positioned write: `seek(pos)` followed by writing
`data` (a gap past the end is zero-filled, a tail past the write is
kept). -/
def writeAt (buf : Bytes) (pos : Nat) (data : Bytes) : Bytes :=
  (buf.take pos ++ List.replicate (pos - buf.length) 0) ++ data ++
    buf.drop (pos + data.length)

/-- `readinto` a zero-initialised buffer of size `sz` after `seek(pos)`:
bytes past the end of the file stay zero. -/
def padRead (buf : Bytes) (pos sz : Nat) : Bytes :=
  let r := (buf.drop pos).take sz
  r ++ List.replicate (sz - r.length) 0

/-- The bytes a file object currently refers to. -/
def handleBytes (w : World) (obj : HandleObj) : Option Bytes :=
  match obj.kind with
  | .mem buf => some buf
  | .disk d stem _ => readFile w d (stem, .db)

/-- `seek(pos); readinto(bytearray(sz))` through a handle id. -/
def handleReadAt (w : World) (hid : Nat) (pos sz : Nat) : Except Err Bytes :=
  match dget hid w.handles with
  | none => .error .ioError
  | some obj =>
    if obj.closed then .error .valueError
    else
      match handleBytes w obj with
      | none => .error .ioError
      | some buf => .ok (padRead buf pos sz)

/-- `seek(pos)` followed by writing `data` through a handle id.  A
`BytesIO` honours the position; a disk file opened `a+b` appends at the
end of the file regardless of the seek (POSIX append mode). -/
def handleWriteAt (w : World) (hid : Nat) (pos : Nat) (data : Bytes) :
    Except Err World :=
  match dget hid w.handles with
  | none => .error .ioError
  | some obj =>
    if obj.closed then .error .valueError
    else
      match obj.kind with
      | .mem buf =>
        .ok { w with
              handles := dset hid ⟨.mem (writeAt buf pos data), false⟩ w.handles }
      | .disk d stem wmode =>
        if wmode then
          match readFile w d (stem, .db) with
          | none => .error .ioError
          | some buf => .ok (setFile w d (stem, .db) (buf ++ data))
        else .error .ioError

/-! ## Recovery: `_read_hints` -/

/-- The `KeyState` namedtuple of `_read_hints` (its `file_id` field holds
the file *stem*, as in the source where `file_id, ext =
os.path.splitext(file)`). -/
structure KeyState where
  tstamp : Nat
  deleted : Bool
  file_id : Nat
  hint : Hint
deriving DecidableEq, Repr

/-- The loop of `read_data_file`, with an explicit iteration budget
(each loop iteration advances the position by at least a full header, 28
bytes, so a budget of `bytes.length + 1` is never exhausted; structural
recursion on the budget keeps the definition kernel-reducible): scan the
record at byte offset `pos`.  An empty read ends the loop; a short header
is a `struct.error` (the source unpacks whatever non-empty prefix was
read); the stored CRC is unpacked into `_` and ignored; `value_pos` is
`tell()` after reading the key; the candidate replaces an earlier one only
when its timestamp is strictly larger. -/
def readDataGo (stem : Nat) (bytes : Bytes) :
    Nat → Nat → List (Bytes × KeyState) → Except Err (List (Bytes × KeyState))
  | 0, _, keys => .ok keys
  | fuel + 1, pos, keys =>
    let data := (bytes.drop pos).take 28
    if data.length = 0 then .ok keys
    else if data.length < 28 then .error .structError
    else
      let tstamp := beToNat ((data.drop 4).take 16)
      let key_sz := beToNat ((data.drop 20).take 4)
      let value_sz := beToNat ((data.drop 24).take 4)
      let key := (bytes.drop (pos + 28)).take key_sz
      let value_pos := min (pos + 28 + key_sz) bytes.length
      let hint : Hint := ⟨tstamp, key_sz, value_sz, value_pos, key⟩
      let keep : Bool :=
        match dget key keys with
        | none => true
        | some st => st.tstamp < tstamp
      let keys' :=
        if keep then dset key ⟨tstamp, value_sz == 0, stem, hint⟩ keys else keys
      readDataGo stem bytes fuel (value_pos + value_sz) keys'

/-- `read_data_file` on the bytes of one data file. -/
def readDataLoop (stem : Nat) (bytes : Bytes) (pos : Nat)
    (keys : List (Bytes × KeyState)) : Except Err (List (Bytes × KeyState)) :=
  readDataGo stem bytes (bytes.length + 1) pos keys

/-- The loop of `read_hint_file` (same iteration budget as
`readDataGo`): decode hint entries; each entry unconditionally overwrites
the accumulated state for its key. -/
def readHintGo (stem : Nat) (bytes : Bytes) :
    Nat → Nat → List (Bytes × KeyState) → Except Err (List (Bytes × KeyState))
  | 0, _, keys => .ok keys
  | fuel + 1, pos, keys =>
    let data := (bytes.drop pos).take 28
    if data.length = 0 then .ok keys
    else if data.length < 28 then .error .structError
    else
      let tstamp := beToNat (data.take 16)
      let key_sz := beToNat ((data.drop 16).take 4)
      let value_sz := beToNat ((data.drop 20).take 4)
      let value_pos := beToNat ((data.drop 24).take 4)
      let key := (bytes.drop (pos + 28)).take key_sz
      let hint : Hint := ⟨tstamp, key_sz, value_sz, value_pos, key⟩
      readHintGo stem bytes fuel (min (pos + 28 + key_sz) bytes.length)
        (dset key ⟨tstamp, false, stem, hint⟩ keys)

/-- `read_hint_file` on the bytes of one hint file. -/
def readHintLoop (stem : Nat) (bytes : Bytes) (pos : Nat)
    (keys : List (Bytes × KeyState)) : Except Err (List (Bytes × KeyState)) :=
  readHintGo stem bytes (bytes.length + 1) pos keys

/-- Scan one `.db` data file if it is at least a header long. -/
def readOneData (fs : DirFS) (stem : Nat) (keys : List (Bytes × KeyState)) :
    Except Err (List (Bytes × KeyState)) :=
  match dget (stem, FKind.db) fs with
  | some bs => if 28 ≤ bs.length then readDataLoop stem bs 0 keys else .ok keys
  | none => .ok keys

/-- Process one directory entry `stem.db`: prefer `stem.hint` when it
exists and is at least one hint entry long, otherwise scan the data
file. -/
def readOneFile (fs : DirFS) (stem : Nat) (keys : List (Bytes × KeyState)) :
    Except Err (List (Bytes × KeyState)) :=
  match dget (stem, FKind.hint) fs with
  | some hbs =>
    if 28 ≤ hbs.length then readHintLoop stem hbs 0 keys
    else readOneData fs stem keys
  | none => readOneData fs stem keys

/-- The file loop of `_read_hints`, over an explicit directory listing
(`os.listdir` returns the entries in an arbitrary order; the model world
stores them in creation order, and recovery claims about arbitrary orders
quantify over the listing).  Entries whose extension is not `.db` are
skipped. -/
def readHintsList (fs : DirFS) :
    List FName → List (Bytes × KeyState) → Except Err (List (Bytes × KeyState))
  | [], keys => .ok keys
  | (stem, ext) :: rest, keys =>
    if ext = FKind.db then
      match readOneFile fs stem keys with
      | .error e => .error e
      | .ok keys' => readHintsList fs rest keys'
    else readHintsList fs rest keys

/-- The final grouping loop of `_read_hints`: drop deleted winners and
group the surviving hints by file stem, in first-occurrence order. -/
def groupHints (keys : List (Bytes × KeyState)) : List (Nat × List Hint) :=
  keys.foldl
    (fun acc kv =>
      if kv.2.deleted then acc
      else
        match dget kv.2.file_id acc with
        | none => acc ++ [(kv.2.file_id, [kv.2.hint])]
        | some hs => dset kv.2.file_id (hs ++ [kv.2.hint]) acc)
    []

/-- `_read_hints()`: `none` for a `:memory` store, otherwise the grouped
hints of the data directory (scanned in the directory's listing order). -/
def readHintsOp (s : Cask) (w : World) :
    Except Err (Option (List (Nat × List Hint))) :=
  match s.dirname with
  | some none => .ok none
  | some (some d) =>
    match getDir w d with
    | none => .error .ioError
    | some fs =>
      match readHintsList fs (fs.map Prod.fst) [] with
      | .error e => .error e
      | .ok keys => .ok (some (groupHints keys))
  | none => .error .typeError

/-- `_open_with_hints`: open each mentioned data file read-only, register
it in `datadir` under `crc32(stem)`, and install every hint into the
keydir. -/
def openWithHints (s : Cask) (w : World) :
    List (Nat × List Hint) → Except Err (Cask × World)
  | [] => .ok (s, w)
  | (stem, hints) :: rest =>
    match s.dirname with
    | some (some d) =>
      match readFile w d (stem, FKind.db) with
      | none => .error .ioError
      | some _ =>
        let fid := stemFid stem
        let (hid, w') := newHandle w ⟨.disk d stem false, false⟩
        let kd := hints.foldl
          (fun kd h => dset h.key ⟨fid, h.value_sz, h.value_pos, h.tstamp⟩ kd)
          s.keydir
        openWithHints
          { s with datadir := dset fid hid s.datadir, keydir := kd } w' rest
    | _ => .error .typeError

/-- `_open()`: nothing to do for `:memory`, otherwise recover from the
directory (`_read_hints` cannot return `None` here). -/
def openInner (s : Cask) (w : World) : Except Err (Cask × World) :=
  if s.dirname = some none then .ok (s, w)
  else
    match readHintsOp s w with
    | .error e => .error e
    | .ok none => .error .typeError
    | .ok (some hintFiles) => openWithHints s w hintFiles

/-- Does the `open` argument pass the directory check?  The argument
`none` models the string `":memory"`; `some d` models a path, which is an
existing directory exactly when the world has a directory `d`. -/
def isDirArg (w : World) (dataDir : Option Nat) : Bool :=
  match dataDir with
  | none => true
  | some d => (getDir w d).isSome

/-- `open(dataDir)`: the directory check runs first, then the
already-open check, then recovery. -/
def openOp (s : Cask) (w : World) (dataDir : Option Nat) :
    Except Err (Bool × Cask × World) :=
  if isDirArg w dataDir = false then .error .notADirectory
  else if s.dirname ≠ none then .error .alreadyOpen
  else
    match openInner { s with dirname := some dataDir } w with
    | .error e => .error e
    | .ok (s', w') => .ok (true, s', w')

/-! ## Rotation, reads and writes -/

/-- The rotate-the-previous-active step of `_reactivate`: flush and close
the previous active file object and reopen its path read-only under the
same file id. -/
def reopenPrev (s : Cask) (w : World) : Except Err (Cask × World) :=
  match s.active with
  | none => .ok (s, w)
  | some a =>
    match dget a s.datadir with
    | none => .error .keyError
    | some hidOld =>
      match dget hidOld w.handles with
      | none => .error .ioError
      | some obj =>
        let w := closeHandle w hidOld
        match obj.kind with
        | .mem _ => .error .ioError
        | .disk hd hstem _ =>
          match readFile w hd (hstem, FKind.db) with
          | none => .error .ioError
          | some _ =>
            let (hid2, w') := newHandle w ⟨.disk hd hstem false, false⟩
            .ok ({ s with datadir := dset a hid2 s.datadir }, w')

/-- `_reactivate()`: draw a fresh stem from the generator, downgrade the
previous active segment, create the new active segment (a fresh `BytesIO`
for `:memory`, a fresh `stem.db` opened `a+b` otherwise) and reset the
cursor. -/
def reactivate (s : Cask) (w : World) : Except Err (Cask × World) :=
  let (uid, w) := uuid7 w
  match s.dirname with
  | some none =>
    let (hid, w') := newHandle w ⟨.mem [], false⟩
    .ok ({ s with active := some (stemFid uid),
                  datadir := dset (stemFid uid) hid s.datadir, cur := 0 }, w')
  | some (some d) =>
    match reopenPrev s w with
    | .error e => .error e
    | .ok (s, w) =>
      match getDir w d with
      | none => .error .ioError
      | some _ =>
        let w := touchFile w d (uid, FKind.db)
        let (hid, w') := newHandle w ⟨.disk d uid true, false⟩
        .ok ({ s with active := some (stemFid uid),
                      datadir := dset (stemFid uid) hid s.datadir, cur := 0 }, w')
  | none => .error .typeError

/-- `_get(keyrec)`: positioned read of `value_sz` bytes at `value_pos`
from the referenced segment. -/
def getRec (s : Cask) (w : World) (kr : KeyRec) : Except Err Bytes :=
  match dget kr.file_id s.datadir with
  | none => .error .keyError
  | some hid => handleReadAt w hid kr.value_pos kr.value_sz

/-- `get(key)`. -/
def getOp (s : Cask) (w : World) (key : Bytes) : Except Err Bytes :=
  match dget key s.keydir with
  | none => .error .keyError
  | some kr => getRec s w kr

/-- The append phase of `_put` (everything after the rotation check):
draw a timestamp, build `crc ‖ header ‖ key ‖ value`, write it at the
cursor through the active segment's file object, advance the cursor and
point the keydir at the value's offset. -/
def putAppend (s : Cask) (w : World) (key value : Bytes) :
    Except Err (Cask × World) :=
  let (tstamp, w) := uuid7 w
  let head := beBytes 16 tstamp ++ beBytes 4 key.length ++ beBytes 4 value.length
  let crcB := beBytes 4 (crc32 value (crc32 key (crc32 head)))
  match s.active with
  | none => .error .keyError
  | some a =>
    match dget a s.datadir with
    | none => .error .keyError
    | some hid =>
      match handleWriteAt w hid s.cur (crcB ++ head ++ key ++ value) with
      | .error e => .error e
      | .ok w' =>
        let cur' := s.cur + crcB.length + head.length + key.length + value.length
        .ok ({ s with cur := cur',
                      keydir := dset key ⟨a, value.length, cur' - value.length, tstamp⟩
                        s.keydir }, w')

/-- `_put(key, value)`: rotate if there is no active segment or the cursor
exceeds the threshold, then append. -/
def putRaw (s : Cask) (w : World) (key value : Bytes) :
    Except Err (Cask × World) :=
  match (if s.active = none ∨ s.threshold < s.cur then reactivate s w
         else .ok (s, w) : Except Err (Cask × World)) with
  | .error e => .error e
  | .ok (s, w) => putAppend s w key value

/-- `put(key, value)`: rejects the empty value, then `_put`. -/
def putOp (s : Cask) (w : World) (key value : Bytes) :
    Except Err (Cask × World) :=
  if value.length = 0 then .error .valueError else putRaw s w key value

/-- `delete(key)`: a missing key is a `KeyError`; otherwise append a
tombstone through `_put` and remove the key from the keydir. -/
def deleteOp (s : Cask) (w : World) (key : Bytes) :
    Except Err (Bool × Cask × World) :=
  match dget key s.keydir with
  | none => .error .keyError
  | some _ =>
    match putRaw s w key [] with
    | .error e => .error e
    | .ok (s, w) => .ok (true, { s with keydir := ddel key s.keydir }, w)

/-- `list_keys()`. -/
def listKeys (s : Cask) : List Bytes :=
  s.keydir.map Prod.fst

/-- `__iter__()`: stores a fresh iterator over the keydir values *on the
engine* and returns the engine itself. -/
def iterOp (s : Cask) : Cask :=
  { s with iterState := some (s.keydir.map Prod.snd) }

/-- `__next__()`: pops the engine's single iterator. -/
def nextOp (s : Cask) (w : World) : Except Err (Bytes × Cask) :=
  match s.iterState with
  | none => .error .typeError
  | some [] => .error .stopIteration
  | some (kr :: rest) =>
    match getRec s w kr with
    | .error e => .error e
    | .ok v => .ok (v, { s with iterState := some rest })

/-- The value sequence consumed by `reduce(fun, self, acc)` once
`__iter__` has installed the snapshot. -/
def foldLoop {α : Type} (s : Cask) (w : World) (f : α → Bytes → α) :
    α → List KeyRec → Except Err α
  | acc, [] => .ok acc
  | acc, kr :: rest =>
    match getRec s w kr with
    | .error e => .error e
    | .ok v => foldLoop s w f (f acc v) rest

/-- `fold(fun, acc)`: `reduce` over the engine's iterator; on success the
engine's iterator is left exhausted. -/
def foldOp {α : Type} (s : Cask) (w : World) (f : α → Bytes → α) (acc : α) :
    Except Err (α × Cask) :=
  match foldLoop (iterOp s) w f acc ((iterOp s).iterState.getD []) with
  | .error e => .error e
  | .ok r => .ok (r, { s with iterState := some [] })

/-- `sync()`: rejected for `:memory`; otherwise flush
`self.__datadir[self.__active]` — when no put has happened yet the active
id is `None` and the dictionary lookup itself fails. -/
def syncOp (s : Cask) (w : World) : Except Err Bool :=
  match s.dirname with
  | some none => .error .memUnsupported
  | _ =>
    match s.active with
    | none => .error .keyError
    | some a =>
      match dget a s.datadir with
      | none => .error .keyError
      | some hid =>
        match dget hid w.handles with
        | none => .error .ioError
        | some obj => if obj.closed then .error .valueError else .ok true

/-- `close()`: with no active segment, reset and report success;
otherwise close the active file object (only it), reset, and report its
closed flag. -/
def closeOp (s : Cask) (w : World) : Except Err (Bool × Cask × World) :=
  match s.active with
  | none => .ok (true, doReset s, w)
  | some a =>
    match dget a s.datadir with
    | none => .error .keyError
    | some hid =>
      match dget hid w.handles with
      | none => .error .ioError
      | some _ => .ok (true, doReset s, closeHandle w hid)

/-! ## Merge -/

/-- The first loop of `merge()`: replay every keydir entry whose backing
segment is not the source's active segment into the merge store (`int !=
None` is true in Python, so with no active segment every entry is
replayed). -/
def mergePuts (src : Cask) :
    World → Cask → List (Bytes × KeyRec) → Except Err (Cask × World)
  | w, mc, [] => .ok (mc, w)
  | w, mc, (k, kr) :: rest =>
    if some kr.file_id = src.active then mergePuts src w mc rest
    else
      match getRec src w kr with
      | .error e => .error e
      | .ok v =>
        match putOp mc w k v with
        | .error e => .error e
        | .ok (mc, w) => mergePuts src w mc rest

/-- One hint entry as written by `merge()`. -/
def encodeHint (h : Hint) : Bytes :=
  beBytes 16 h.tstamp ++ beBytes 4 h.key_sz ++ beBytes 4 h.value_sz ++
    beBytes 4 h.value_pos ++ h.key

/-- The hint-building loop of `merge()`: append every group's entries to
`merge/stem.hint`. -/
def writeHintFiles (w : World) (md : Nat) :
    List (Nat × List Hint) → World
  | [] => w
  | (stem, hints) :: rest =>
    let w := touchFile w md (stem, FKind.hint)
    let w :=
      match readFile w md (stem, FKind.hint) with
      | none => w
      | some buf =>
        setFile w md (stem, FKind.hint)
          (buf ++ (hints.map encodeHint).foldl (· ++ ·) [])
    writeHintFiles w md rest

/-- `shutil.move` of every file of the merge directory into the data
directory (the merge directory itself is removed wholesale afterwards). -/
def moveFiles (w : World) (d : Nat) : List (FName × Bytes) → World
  | [] => w
  | (name, bs) :: rest => moveFiles (setFile w d name bs) d rest

/-- The keydir sweep of `merge()`: keep only entries backed by the active
segment. -/
def dropMerged (act : Option Nat) (kd : List (Bytes × KeyRec)) :
    List (Bytes × KeyRec) :=
  kd.filter (fun kv => some kv.2.file_id == act)

/-- The datadir sweep of `merge()`: close every non-active segment file
object, delete its file, and drop it from the datadir (`os.path.join` of
the data directory with the file object's absolute path yields the file's
own path). -/
def dropFiles (act : Option Nat) :
    World → List (Nat × Nat) → Except Err (List (Nat × Nat) × World)
  | w, [] => .ok ([], w)
  | w, (fid, hid) :: rest =>
    if some fid = act then
      match dropFiles act w rest with
      | .error e => .error e
      | .ok (dd, w) => .ok ((fid, hid) :: dd, w)
    else
      match dget hid w.handles with
      | none => .error .ioError
      | some obj =>
        let w := closeHandle w hid
        match obj.kind with
        | .mem _ => .error .ioError
        | .disk hd hstem _ =>
          match readFile w hd (hstem, FKind.db) with
          | none => .error .ioError
          | some _ => dropFiles act (removeFile w hd (hstem, FKind.db)) rest

/-- `merge()`: build a compacted copy of the non-active live records in a
fresh sibling directory through a scratch store, emit hint files, move the
result over, delete the old sealed segments, and re-open the merged
segments through `_open_with_hints`. -/
def mergeOp (s : Cask) (w : World) : Except Err (Bool × Cask × World) :=
  match s.dirname with
  | some none => .error .memUnsupported
  | none => .error .typeError
  | some (some d) =>
    let md := w.dnext
    let w := { w with dirs := dset md [] w.dirs, dnext := w.dnext + 1 }
    match openOp (mkCask s.threshold) w (some md) with
    | .error e => .error e
    | .ok (_, mc, w) =>
      match mergePuts s w mc s.keydir with
      | .error e => .error e
      | .ok (mc, w) =>
        match reactivate mc w with
        | .error e => .error e
        | .ok (mc, w) =>
          match readHintsOp mc w with
          | .error e => .error e
          | .ok none => .error .typeError
          | .ok (some hintFiles) =>
            let w := writeHintFiles w md hintFiles
            match closeOp mc w with
            | .error e => .error e
            | .ok (_, _, w) =>
              match getDir w md with
              | none => .error .ioError
              | some mfs =>
                let w := moveFiles w d mfs
                let w := { w with dirs := ddel md w.dirs }
                let s := { s with keydir := dropMerged s.active s.keydir }
                match dropFiles s.active w s.datadir with
                | .error e => .error e
                | .ok (dd, w) =>
                  match openWithHints { s with datadir := dd } w hintFiles with
                  | .error e => .error e
                  | .ok (s, w) => .ok (true, s, w)

/-- The number of `.db` files in a directory listing. -/
def dbCount (fs : DirFS) : Nat :=
  (fs.filter (fun f => f.1.2 == FKind.db)).length

/-! ## Dictionary lemmas -/

theorem dget_dset_self {K V : Type} [DecidableEq K] (k : K) (v : V)
    (l : List (K × V)) : dget k (dset k v l) = some v := by
  induction l with
  | nil => simp [dset, dget]
  | cons p rest ih =>
    by_cases h : p.1 = k
    · simp [dset, dget, h]
    · simp [dset, dget, h, ih]

theorem dget_dset_ne {K V : Type} [DecidableEq K] {k k' : K} (v : V)
    (l : List (K × V)) (h : k' ≠ k) : dget k' (dset k v l) = dget k' l := by
  induction l with
  | nil => simp [dset, dget, h, Ne.symm h]
  | cons p rest ih =>
    by_cases hp : p.1 = k
    · simp [dset, dget, hp, Ne.symm h, h]
    · simp [dset, dget, hp, ih]

theorem dset_absent {K V : Type} [DecidableEq K] {k : K} (v : V)
    {l : List (K × V)} (h : dget k l = none) : dset k v l = l ++ [(k, v)] := by
  induction l with
  | nil => simp [dset]
  | cons p rest ih =>
    by_cases hp : p.1 = k
    · simp [dget, hp] at h
    · simp [dget, hp] at h
      simp [dset, hp, ih h]

theorem dget_append_left {K V : Type} [DecidableEq K] {k : K} {v : V}
    {l₁ : List (K × V)} (l₂ : List (K × V)) (h : dget k l₁ = some v) :
    dget k (l₁ ++ l₂) = some v := by
  induction l₁ with
  | nil => simp [dget] at h
  | cons p rest ih =>
    by_cases hp : p.1 = k
    · simp [dget, hp] at h ⊢; exact h
    · simp [dget, hp] at h ⊢; exact ih h

theorem dget_append_right {K V : Type} [DecidableEq K] {k : K}
    {l₁ : List (K × V)} (l₂ : List (K × V)) (h : dget k l₁ = none) :
    dget k (l₁ ++ l₂) = dget k l₂ := by
  induction l₁ with
  | nil => simp
  | cons p rest ih =>
    by_cases hp : p.1 = k
    · simp [dget, hp] at h
    · simp [dget, hp] at h ⊢; exact ih h

theorem map_fst_dset {K V : Type} [DecidableEq K] (k : K) (v : V)
    (l : List (K × V)) :
    (dset k v l).map Prod.fst =
      if k ∈ l.map Prod.fst then l.map Prod.fst else l.map Prod.fst ++ [k] := by
  induction l with
  | nil => simp [dset]
  | cons p rest ih =>
    by_cases hp : p.1 = k
    · simp [dset, hp]
    · simp [dset, hp, ih, Ne.symm hp]
      by_cases hm : k ∈ rest.map Prod.fst <;> simp [hm, Ne.symm hp]

/-! ## Big-endian coding lemmas -/

theorem length_beBytes (w n : Nat) : (beBytes w n).length = w := by
  induction w generalizing n with
  | zero => simp [beBytes]
  | succ w ih => simp [beBytes, ih]

theorem beToNat_append_singleton (bs : Bytes) (b : Nat) :
    beToNat (bs ++ [b]) = beToNat bs * 256 + b := by
  simp [beToNat, List.foldl_append]

theorem beToNat_beBytes (w n : Nat) : beToNat (beBytes w n) = n % 256 ^ w := by
  induction w generalizing n with
  | zero => simp [beBytes, beToNat, Nat.mod_one]
  | succ w ih =>
    rw [beBytes, beToNat_append_singleton, ih, pow_succ, Nat.mul_comm (256 ^ w) 256,
      Nat.mod_mul]
    omega

/-! ## Concrete scenario material

A world with a single empty data directory `0`; the uuid7 generator starts
at 100 so that generated stems and timestamps are recognisable. -/

/-- A base world: one empty directory `0`, empty heap, clock 100. -/
def baseWorld : World := ⟨[(0, [])], [], 100, 0, 1⟩

/-- Unpack a successful run, with an inert fallback (all runs below are
proved to succeed, so the fallback is never reached). -/
def runOut {α : Type} (r : Except Err α) (fallback : α) : α :=
  match r with
  | .ok a => a
  | .error _ => fallback

/-! ## C10: `sync` on a freshly opened persistent store -/

/-- C10: on any store opened on a persistent directory in which no put has
happened yet (`active` is `None`), `sync()` does not succeed: the
dictionary lookup `self.__datadir[self.__active]` raises a `KeyError`. -/
theorem c10_sync_without_active_is_keyerror (s : Cask) (w : World) (d : Nat)
    (hdir : s.dirname = some (some d)) (hact : s.active = none) :
    syncOp s w = .error .keyError := by
  simp [syncOp, hdir, hact]

/-- The store produced by `open` on the empty persistent directory `0`:
recovery finds no files, so the keydir stays empty and no active segment
exists. -/
def c10Cask : Cask :=
  { threshold := 1024, dirname := some (some 0), active := none,
    keydir := [], datadir := [], cur := 0, iterState := none }

theorem c10_witness :
    openOp (mkCask 1024) baseWorld (some 0) = .ok (true, c10Cask, baseWorld) ∧
    c10Cask.dirname = some (some 0) ∧ c10Cask.active = none ∧
    syncOp c10Cask baseWorld = .error .keyError :=
  ⟨by decide, rfl, rfl, c10_sync_without_active_is_keyerror c10Cask baseWorld 0 rfl rfl⟩

/-! ## C3: `open` on an already-open store -/

/-- An open persistent store (the result of `open` on directory `0`). -/
def c3Cask : Cask :=
  { threshold := 1024, dirname := some (some 0), active := none,
    keydir := [], datadir := [], cur := 0, iterState := none }

/-- C3 counterexample: calling `open` again on an open store with an
argument that is not an existing directory raises `NotADirectoryError`,
not *AlreadyOpen* — the directory check precedes the already-open check
(the repository's own test `test_open_invalid_dir` exercises exactly
this). -/
theorem c3_counterexample :
    c3Cask.dirname ≠ none ∧
    openOp c3Cask baseWorld (some 5) = .error .notADirectory ∧
    Err.notADirectory ≠ Err.alreadyOpen := by
  refine ⟨by decide, by decide, by decide⟩

/-- C3 amended: a second `open` on an open store fails with *AlreadyOpen*
whenever the argument passes the directory check (it is `":memory"` or an
existing directory); with an invalid path it fails with *NotADirectory*
instead. -/
theorem c3_amended_already_open (s : Cask) (w : World) (dataDir : Option Nat)
    (hopen : s.dirname ≠ none) (hdir : isDirArg w dataDir = true) :
    openOp s w dataDir = .error .alreadyOpen := by
  simp [openOp, hdir, hopen]

theorem c3_amended_witness :
    c3Cask.dirname ≠ none ∧ isDirArg baseWorld (some 0) = true ∧
    openOp c3Cask baseWorld (some 0) = .error .alreadyOpen :=
  ⟨by decide, by decide,
    c3_amended_already_open c3Cask baseWorld (some 0) (by decide) (by decide)⟩

/-! ## C8: iterator state lives on the engine -/

/-- A `:memory` store holding `[1] ↦ [10]` and `[2] ↦ [20]` (built by
`open(":memory")`, `put([1],[10])`, `put([2],[20])`). -/
def c8State : Cask × World :=
  runOut
    (do
      let (_, s, w) ← openOp (mkCask 1024) baseWorld none
      let (s, w) ← putOp s w [1] [10]
      let (s, w) ← putOp s w [2] [20]
      pure (s, w))
    (mkCask 0, baseWorld)

/-- C8: iteration state is stored on the engine, and iterations do
interfere.  On the two-key store, the first iteration yields `[10]` and —
left alone — would next yield `[20]`; but starting a second iteration
after the first `next` makes the first iteration's next call yield `[10]`
again (the engine's single iterator was reset).  This contradicts the
claimed per-iterator state. -/
theorem c8_iterations_interfere :
    (nextOp (iterOp c8State.1) c8State.2).map Prod.fst = .ok [10] ∧
    (do
      let (_, s1) ← nextOp (iterOp c8State.1) c8State.2
      (nextOp s1 c8State.2).map Prod.fst) = Except.ok [20] ∧
    (do
      let (_, s1) ← nextOp (iterOp c8State.1) c8State.2
      (nextOp (iterOp s1) c8State.2).map Prod.fst) = Except.ok [10] ∧
    ([10] : Bytes) ≠ [20] := by
  refine ⟨by decide, by decide, by decide, by decide⟩

/-! ## C9: `close` -/

/-- A persistent store with one sealed segment and one active segment:
`open` on directory `0` with threshold 10, then two puts (the second one
rotates).  In its world heap, handle 0 is the first incarnation of segment
100 (closed at rotation), handle 1 is segment 100 reopened read-only
(sealed, open), handle 2 is the active segment 102 (open). -/
def c9State : Cask × World :=
  runOut
    (do
      let (_, s, w) ← openOp (mkCask 10) baseWorld (some 0)
      let (s, w) ← putOp s w [1] [11, 11]
      let (s, w) ← putOp s w [2] [22, 22]
      pure (s, w))
    (mkCask 0, baseWorld)

/-- C9 counterexample: `close()` succeeds, but it does *not* close every
open segment file object: the sealed segment's handle (heap id 1) is still
open after `close()`; only the active segment's handle (heap id 2) was
closed.  The references are dropped by `_reset`, not closed. -/
theorem c9_counterexample :
    dget 1 c9State.2.handles = some ⟨.disk 0 100 false, false⟩ ∧
    (closeOp c9State.1 c9State.2).map
        (fun r => (r.1, dget 1 r.2.2.handles, dget 2 r.2.2.handles)) =
      .ok (true, some ⟨.disk 0 100 false, false⟩,
        some ⟨.disk 0 102 true, true⟩) := by
  refine ⟨by decide, by decide⟩

/-- C9 amended: `close()` returns success and resets the state, closing
*only* the active segment's file object; every other file object (in
particular every sealed segment's) is left untouched, hence still open;
and `close()` on a never-opened store succeeds without touching the
world. -/
theorem c9_close_active_only :
    (∀ t w, closeOp (mkCask t) w = .ok (true, mkCask t, w)) ∧
    (∀ (s : Cask) (w : World) (a hid : Nat) (obj : HandleObj),
      s.active = some a → dget a s.datadir = some hid →
      dget hid w.handles = some obj →
      closeOp s w = .ok (true, doReset s, closeHandle w hid) ∧
      dget hid (closeHandle w hid).handles = some { obj with closed := true } ∧
      (∀ hid', hid' ≠ hid →
        dget hid' (closeHandle w hid).handles = dget hid' w.handles)) := by
  constructor
  · intro t w
    simp [closeOp, mkCask, doReset]
  · intro s w a hid obj hact hdd hh
    refine ⟨by simp [closeOp, hact, hdd, hh], ?_, ?_⟩
    · simp [closeHandle, hh, dget_dset_self]
    · intro hid' hne
      simp [closeHandle, hh, dget_dset_ne _ _ hne]

theorem c9_close_witness :
    c9State.1.active = some 3447271878 ∧
    dget 3447271878 c9State.1.datadir = some 2 ∧
    dget 2 c9State.2.handles = some ⟨.disk 0 102 true, false⟩ ∧
    closeOp c9State.1 c9State.2 =
      .ok (true, doReset c9State.1, closeHandle c9State.2 2) ∧
    closeOp (mkCask 7) baseWorld = .ok (true, mkCask 7, baseWorld) :=
  ⟨by decide, by decide, by decide,
    (c9_close_active_only.2 c9State.1 c9State.2 3447271878 2
      ⟨.disk 0 102 true, false⟩ (by decide) (by decide) (by decide)).1,
    c9_close_active_only.1 7 baseWorld⟩

/-! ## C2: the stored CRC is never verified during recovery -/

/-- A store built by `open` on directory `0`, one `put([5], [7,7,7,7])`,
then `close`; its single segment file is `100.db`. -/
def c2Closed : Cask × World :=
  runOut
    (do
      let (_, s, w) ← openOp (mkCask 1024) baseWorld (some 0)
      let (s, w) ← putOp s w [5] [7, 7, 7, 7]
      let (_, s, w) ← closeOp s w
      pure (s, w))
    (mkCask 0, baseWorld)

/-- The bytes of the stored segment file `100.db`. -/
def c2File : Bytes := (readFile c2Closed.2 0 (100, FKind.db)).getD []

/-- The same file with a single bit flipped in the last payload byte
(byte 32, the tail of the value, `7 = 0b111 ↦ 6 = 0b110`). -/
def c2Flipped : Bytes := c2File.set 32 6

/-- The world after the on-disk corruption. -/
def c2World : World := setFile c2Closed.2 0 (100, FKind.db) c2Flipped

/-- C2: `read_data_file` unpacks the stored CRC into `_` and never
recomputes it.  The intact file's stored CRC matches its payload; after
flipping one bit of the value the stored CRC no longer matches the
recomputed one — yet recovery on the corrupted directory does not treat
the record (the tail record of its file) as absent: the key survives with
the corrupted bytes, and `get` returns them. -/
theorem c2_crc_mismatch_not_detected :
    c2File.getD 32 0 = 7 ∧ c2Flipped = c2File.set 32 6 ∧ (7 ^^^ 6) = 1 ∧
    beToNat (c2File.take 4) = crc32 (c2File.drop 4) ∧
    beToNat (c2Flipped.take 4) ≠ crc32 (c2Flipped.drop 4) ∧
    (do
      let (_, s, w) ← openOp c2Closed.1 c2World (some 0)
      let g ← getOp s w [5]
      pure (listKeys s, g)) = Except.ok ([[5]], [7, 7, 7, 6]) ∧
    ([7, 7, 7, 6] : Bytes) ≠ [7, 7, 7, 7] := by
  refine ⟨by decide, rfl, by decide, by decide, by decide, by decide, by decide⟩

/-! ## C1: duplicate resolution during recovery is order-dependent -/

/-- A closed store whose directory holds, after a realistic history:
the old active segment `102.db` (record for key `[8]`), the merged
segment `104.db` with its hint `104.hint` (key `[7]` with value `[1,1,1]`
at timestamp 105), the empty rotation leftover `106.db`, and the newest
segment `107.db` (key `[7]` with value `[2,2,2]` at timestamp 108).
History: `open`, `put([7],[1,1,1])`, `put([8],[9,9])` (rotates),
`merge()` (compacts `[7]` into `104.db` and writes its hint), then
`put([7],[2,2,2])` (rotates into `107.db`) and `close()`. -/
def c1Closed : Cask × World :=
  runOut
    (do
      let (_, s, w) ← openOp (mkCask 10) baseWorld (some 0)
      let (s, w) ← putOp s w [7] [1, 1, 1]
      let (s, w) ← putOp s w [8] [9, 9]
      let (_, s, w) ← mergeOp s w
      let (s, w) ← putOp s w [7] [2, 2, 2]
      let (_, s, w) ← closeOp s w
      pure (s, w))
    (mkCask 0, baseWorld)

/-- The data directory contents after the C1 history. -/
def c1Fs : DirFS := (getDir c1Closed.2 0).getD []

/-- One named entry of the C1 directory. -/
def c1Pick (n : FName) : DirFS :=
  match dget n c1Fs with
  | some b => [(n, b)]
  | none => []

/-- The same directory contents in another listing order (`os.listdir`
order is arbitrary): the hint-carrying merged segment `104.db` listed
after the newest segment `107.db`. -/
def c1BadFs : DirFS :=
  c1Pick (102, FKind.db) ++ c1Pick (106, FKind.db) ++ c1Pick (107, FKind.db) ++
    c1Pick (104, FKind.db) ++ c1Pick (104, FKind.hint)

/-- The world with the same directory in the other listing order. -/
def c1BadWorld : World :=
  { c1Closed.2 with dirs := dset 0 c1BadFs c1Closed.2.dirs }

/-- C1: `read_hint_file` installs its entries unconditionally (no
timestamp comparison), so the keydir entry kept for a duplicated key
depends on the file-processing order.  The directory above holds two
candidates for key `[7]`: timestamp 105 (hint of the merged segment,
value `[1,1,1]`) and timestamp 108 (data record in `107.db`, value
`[2,2,2]`).  In one listing order recovery keeps timestamp 108, but in the
permuted order it keeps timestamp 105 — not the largest — and a
`close`+`open` then flips `get([7])` from `[2,2,2]` to the stale
`[1,1,1]`. -/
theorem c1_hint_overwrites_newer_candidate :
    c1BadFs.Perm c1Fs ∧
    (do
      let (_, s, w) ← openOp c1Closed.1 c1Closed.2 (some 0)
      let g ← getOp s w [7]
      pure ((dget [7] s.keydir).map KeyRec.tstamp, g)) =
      Except.ok (some 108, [2, 2, 2]) ∧
    (do
      let (_, s, w) ← openOp c1Closed.1 c1BadWorld (some 0)
      let g ← getOp s w [7]
      pure ((dget [7] s.keydir).map KeyRec.tstamp, g)) =
      Except.ok (some 105, [1, 1, 1]) ∧
    (105 : Nat) < 108 ∧ ([1, 1, 1] : Bytes) ≠ [2, 2, 2] := by
  refine ⟨by decide, by decide, by decide, by decide, by decide⟩

/-! ## Symbolic facts about writing and reading records -/

/-- The bytes `_put` appends for one record:
`crc ‖ timestamp ‖ key_sz ‖ value_sz ‖ key ‖ value`. -/
def encRec (ts : Nat) (k v : Bytes) : Bytes :=
  beBytes 4 (crc32 v (crc32 k (crc32 (beBytes 16 ts ++ beBytes 4 k.length ++ beBytes 4 v.length)))) ++
    (beBytes 16 ts ++ beBytes 4 k.length ++ beBytes 4 v.length) ++ k ++ v

theorem encRec_length (ts : Nat) (k v : Bytes) :
    (encRec ts k v).length = 28 + k.length + v.length := by
  simp [encRec, length_beBytes]
  omega

/-- Writing at the end of a buffer appends. -/
theorem writeAt_append (buf data : Bytes) :
    writeAt buf buf.length data = buf ++ data := by
  simp [writeAt, List.drop_eq_nil_of_le]

/-- A positioned read of exactly the bytes that are there. -/
theorem padRead_of_drop {buf : Bytes} {pos : Nat} {v suf : Bytes}
    (h : buf.drop pos = v ++ suf) : padRead buf pos v.length = v := by
  unfold padRead
  rw [h, List.take_left]
  simp

/-- The value of a record sits `28 + key_sz` bytes past the start of the
record. -/
theorem drop_encRec (pre : Bytes) (ts : Nat) (k v : Bytes) :
    (pre ++ encRec ts k v).drop (pre.length + (28 + k.length)) = v := by
  have h : pre ++ encRec ts k v =
      (pre ++ (beBytes 4 (crc32 v (crc32 k (crc32 (beBytes 16 ts ++ beBytes 4 k.length ++ beBytes 4 v.length)))) ++
        (beBytes 16 ts ++ beBytes 4 k.length ++ beBytes 4 v.length) ++ k)) ++ v := by
    simp [encRec]
  have hlen : (pre ++ (beBytes 4 (crc32 v (crc32 k (crc32 (beBytes 16 ts ++ beBytes 4 k.length ++ beBytes 4 v.length)))) ++
      (beBytes 16 ts ++ beBytes 4 k.length ++ beBytes 4 v.length) ++ k)).length =
      pre.length + (28 + k.length) := by
    simp [length_beBytes]
    omega
  rw [h, ← hlen, List.drop_left]

/-- The active segment is ready to append: the chain from the cask's
active id through the datadir and the handle table reaches an open,
writable backing store whose current size equals the cursor. -/
def ActiveReady (s : Cask) (w : World) : Prop :=
  ∃ a hid obj, s.active = some a ∧ dget a s.datadir = some hid ∧
    dget hid w.handles = some obj ∧ obj.closed = false ∧
    ((∃ buf, obj.kind = .mem buf ∧ buf.length = s.cur) ∨
     (∃ d stem f, obj.kind = .disk d stem true ∧
        readFile w d (stem, FKind.db) = some f ∧ f.length = s.cur))

/-- Effect of the append phase on a ready `BytesIO` active segment. -/
theorem putAppend_spec_mem (s : Cask) (w : World) (k v : Bytes)
    (a hid : Nat) (buf : Bytes)
    (ha : s.active = some a) (hdd : dget a s.datadir = some hid)
    (hh : dget hid w.handles = some ⟨.mem buf, false⟩)
    (hlen : buf.length = s.cur) :
    putAppend s w k v =
      .ok ({ s with cur := s.cur + 28 + k.length + v.length,
                    keydir := dset k ⟨a, v.length, s.cur + 28 + k.length, w.clock⟩
                      s.keydir },
           { w with clock := w.clock + 1,
                    handles := dset hid ⟨.mem (buf ++ encRec w.clock k v), false⟩
                      w.handles }) := by
  rw [putAppend]
  simp only [uuid7, ha, hdd, handleWriteAt, hh]
  rw [← hlen, writeAt_append]
  simp only [encRec, length_beBytes, List.length_append]
  have h1 : buf.length + 4 + (16 + 4 + 4) + k.length + v.length - v.length =
      buf.length + 28 + k.length := by omega
  have h2 : buf.length + 4 + (16 + 4 + 4) + k.length + v.length =
      buf.length + 28 + k.length + v.length := by omega
  rw [h1, h2]
  rfl

/-- Effect of the append phase on a ready on-disk active segment (opened
`a+b`, so the write lands at the end of the file). -/
theorem putAppend_spec_disk (s : Cask) (w : World) (k v : Bytes)
    (a hid d stem : Nat) (fs : DirFS) (f : Bytes)
    (ha : s.active = some a) (hdd : dget a s.datadir = some hid)
    (hh : dget hid w.handles = some ⟨.disk d stem true, false⟩)
    (hgd : dget d w.dirs = some fs)
    (hff : dget (stem, FKind.db) fs = some f)
    (hlen : f.length = s.cur) :
    putAppend s w k v =
      .ok ({ s with cur := s.cur + 28 + k.length + v.length,
                    keydir := dset k ⟨a, v.length, s.cur + 28 + k.length, w.clock⟩
                      s.keydir },
           { w with clock := w.clock + 1,
                    dirs := dset d (dset (stem, FKind.db) (f ++ encRec w.clock k v) fs)
                      w.dirs }) := by
  rw [putAppend]
  simp only [uuid7, ha, hdd, handleWriteAt, hh, readFile, getDir, hgd, hff,
    Option.bind, setFile]
  rw [← hlen]
  simp only [encRec, length_beBytes, List.length_append]
  have h1 : f.length + 4 + (16 + 4 + 4) + k.length + v.length - v.length =
      f.length + 28 + k.length := by omega
  have h2 : f.length + 4 + (16 + 4 + 4) + k.length + v.length =
      f.length + 28 + k.length + v.length := by omega
  rw [h1, h2]
  rfl

/-- Effect of `_reactivate` on a `:memory` store. -/
theorem reactivate_spec_mem (s : Cask) (w : World)
    (hdir : s.dirname = some none) :
    reactivate s w =
      .ok ({ s with active := some (stemFid w.clock),
                    datadir := dset (stemFid w.clock) w.hnext s.datadir, cur := 0 },
           { w with clock := w.clock + 1,
                    handles := dset w.hnext ⟨.mem [], false⟩ w.handles,
                    hnext := w.hnext + 1 }) := by
  rw [reactivate]
  simp only [uuid7, hdir, newHandle]

/-- Effect of `_reactivate` on a persistent store with no previous active
segment and a fresh stem. -/
theorem reactivate_spec_disk_fresh (s : Cask) (w : World) (d : Nat) (fs : DirFS)
    (hdir : s.dirname = some (some d)) (hact : s.active = none)
    (hgd : dget d w.dirs = some fs)
    (hfresh : dget (w.clock, FKind.db) fs = none) :
    reactivate s w =
      .ok ({ s with active := some (stemFid w.clock),
                    datadir := dset (stemFid w.clock) w.hnext s.datadir, cur := 0 },
           { w with clock := w.clock + 1,
                    dirs := dset d (dset (w.clock, FKind.db) [] fs) w.dirs,
                    handles := dset w.hnext ⟨.disk d w.clock true, false⟩ w.handles,
                    hnext := w.hnext + 1 }) := by
  rw [reactivate]
  simp only [uuid7, hdir, reopenPrev, hact, getDir, hgd, touchFile, readFile,
    hfresh, Option.bind, setFile, newHandle, dget_dset_self]

/-- Effect of `_reactivate` on a persistent store with a previous active
segment: the previous file object is closed and reopened read-only under
the same file id, a fresh stem becomes the active segment. -/
theorem reactivate_spec_disk_roll (s : Cask) (w : World) (d : Nat) (fs : DirFS)
    (a hid hd stem0 : Nat) (fs0 : DirFS) (f0 : Bytes)
    (hdir : s.dirname = some (some d)) (hact : s.active = some a)
    (hdd : dget a s.datadir = some hid)
    (hh : dget hid w.handles = some ⟨.disk hd stem0 true, false⟩)
    (hgd0 : dget hd w.dirs = some fs0)
    (hf0 : dget (stem0, FKind.db) fs0 = some f0)
    (hgd : dget d w.dirs = some fs)
    (hfresh : dget (w.clock, FKind.db) fs = none) :
    reactivate s w =
      .ok ({ s with active := some (stemFid w.clock),
                    datadir := dset (stemFid w.clock) (w.hnext + 1)
                      (dset a w.hnext s.datadir),
                    cur := 0 },
           { w with clock := w.clock + 1,
                    dirs := dset d (dset (w.clock, FKind.db) [] fs) w.dirs,
                    handles := dset (w.hnext + 1) ⟨.disk d w.clock true, false⟩
                      (dset w.hnext ⟨.disk hd stem0 false, false⟩
                        (dset hid ⟨.disk hd stem0 true, true⟩ w.handles)),
                    hnext := w.hnext + 2 }) := by
  rw [reactivate]
  simp only [uuid7, hdir, reopenPrev, hact, hdd, closeHandle, hh, readFile,
    getDir, hgd0, hf0, Option.bind, newHandle, dget_dset_self, hgd, touchFile,
    hfresh, setFile]

/-- Reading a record's value back: `padRead` at the value's offset inside
an appended record returns exactly the value. -/
theorem padRead_encRec (pre : Bytes) (ts : Nat) (k v : Bytes) (pos : Nat)
    (hpos : pos = pre.length + (28 + k.length)) :
    padRead (pre ++ encRec ts k v) pos v.length = v := by
  subst hpos
  exact @padRead_of_drop (pre ++ encRec ts k v) (pre.length + (28 + k.length)) v
    [] (by simpa using drop_encRec pre ts k v)

/-- `get` through explicit pointer-chasing facts. -/
theorem getOp_eq_padRead (s' : Cask) (w' : World) (k : Bytes) (kr : KeyRec)
    (hid : Nat) (obj : HandleObj) (buf : Bytes)
    (h1 : dget k s'.keydir = some kr)
    (h2 : dget kr.file_id s'.datadir = some hid)
    (h3 : dget hid w'.handles = some obj) (h4 : obj.closed = false)
    (h5 : handleBytes w' obj = some buf) :
    getOp s' w' k = .ok (padRead buf kr.value_pos kr.value_sz) := by
  simp [getOp, h1, getRec, h2, handleReadAt, h3, h4, h5]

/-! ## The well-formedness invariant of an open store -/

/-- The active segment, when present, is backed by an open writable store
matching the store's mode, whose size equals the cursor. -/
def ActiveOk (s : Cask) (w : World) : Prop :=
  ∀ a, s.active = some a →
    ∃ hid obj, dget a s.datadir = some hid ∧ dget hid w.handles = some obj ∧
      obj.closed = false ∧
      ((s.dirname = some none ∧ ∃ buf, obj.kind = .mem buf ∧ buf.length = s.cur) ∨
       (∃ d fs stem f, s.dirname = some (some d) ∧ dget d w.dirs = some fs ∧
          obj.kind = .disk d stem true ∧ dget (stem, FKind.db) fs = some f ∧
          f.length = s.cur))

/-- Well-formedness of an open store: the store is open, its directory
exists, the active segment (if any) is ready, every keydir entry points at
an open readable segment and a live (non-tombstone) value, and keydir keys
are unique (they are Python dict keys). -/
structure Inv (s : Cask) (w : World) : Prop where
  dirSome : s.dirname ≠ none
  dirEx : ∀ d, s.dirname = some (some d) → ∃ fs, dget d w.dirs = some fs
  activeOk : ActiveOk s w
  keyOk : ∀ p ∈ s.keydir, ∃ hid obj, dget p.2.file_id s.datadir = some hid ∧
    dget hid w.handles = some obj ∧ obj.closed = false ∧
    (handleBytes w obj).isSome ∧ 0 < p.2.value_sz
  nodupKeys : (s.keydir.map Prod.fst).Nodup

/-- `_put` in the rotation case reduces to the append phase on the
rotated state. -/
theorem putRaw_rot (s : Cask) (w : World) (k v : Bytes) (s1 : Cask) (w1 : World)
    (hrot : s.active = none ∨ s.threshold < s.cur)
    (hre : reactivate s w = .ok (s1, w1)) :
    putRaw s w k v = putAppend s1 w1 k v := by
  rw [putRaw, if_pos hrot, hre]

/-- `_put` without rotation is just the append phase. -/
theorem putRaw_norot (s : Cask) (w : World) (k v : Bytes)
    (hrot : ¬(s.active = none ∨ s.threshold < s.cur)) :
    putRaw s w k v = putAppend s w k v := by
  rw [putRaw, if_neg hrot]

/-! ## C6: put/get round trip -/

/-- On any well-formed open store, `put(K,V)` with non-empty V succeeds
and an immediately following `get(K)` returns exactly V — both when the
active segment absorbs the write and when the put triggers rotation (the
fresh-stem hypothesis says the rotation's new uuid7 stem does not collide
with an existing file, which is what uuid uniqueness provides). -/
theorem put_roundtrip_aux (s : Cask) (w : World) (k v : Bytes)
    (hInv : Inv s w) (hk : k ≠ []) (hv : v ≠ [])
    (hfresh : ∀ d fs, s.dirname = some (some d) → dget d w.dirs = some fs →
      dget (w.clock, FKind.db) fs = none) :
    ∃ s' w', putOp s w k v = .ok (s', w') ∧ getOp s' w' k = .ok v := by
  have hv0 : v.length ≠ 0 := by simpa using hv
  rw [putOp, if_neg hv0]
  by_cases hrot : s.active = none ∨ s.threshold < s.cur
  · -- rotation; three shapes of `_reactivate`
    match hdir : s.dirname with
    | none => exact absurd hdir hInv.dirSome
    | some none =>
      rw [putRaw_rot s w k v _ _ hrot (reactivate_spec_mem s w hdir)]
      rw [putAppend_spec_mem _ _ k v (stemFid w.clock) w.hnext []
        rfl (dget_dset_self _ _ _) (by simp [dget_dset_self]) rfl]
      refine ⟨_, _, rfl, ?_⟩
      rw [getOp_eq_padRead _ _ k ⟨stemFid w.clock, v.length, 0 + 28 + k.length,
          (w.clock + 1 : Nat)⟩ w.hnext ⟨.mem ([] ++ encRec (w.clock + 1) k v), false⟩
          ([] ++ encRec (w.clock + 1) k v) ?_ ?_ ?_ rfl ?_]
      · rw [padRead_encRec _ (w.clock + 1) k v _ (by simp)]
      · simp [dget_dset_self]
      · simp [dget_dset_self]
      · simp [dget_dset_self]
      · rfl
    | some (some d) =>
      obtain ⟨fs, hgd⟩ := hInv.dirEx d hdir
      have hfr := hfresh d fs hdir hgd
      match hact : s.active with
      | none =>
        rw [putRaw_rot s w k v _ _ hrot (reactivate_spec_disk_fresh s w d fs hdir hact hgd hfr)]
        rw [putAppend_spec_disk _ _ k v (stemFid w.clock) w.hnext d w.clock
          (dset (w.clock, FKind.db) [] fs) []
          rfl (dget_dset_self _ _ _) (by simp [dget_dset_self])
          (by simp [dget_dset_self]) (dget_dset_self _ _ _) rfl]
        refine ⟨_, _, rfl, ?_⟩
        rw [getOp_eq_padRead _ _ k ⟨stemFid w.clock, v.length, 0 + 28 + k.length,
            (w.clock + 1 : Nat)⟩ w.hnext ⟨.disk d w.clock true, false⟩
            ([] ++ encRec (w.clock + 1) k v) ?_ ?_ ?_ rfl ?_]
        · rw [padRead_encRec _ (w.clock + 1) k v _ (by simp)]
        · simp [dget_dset_self]
        · simp [dget_dset_self]
        · simp [dget_dset_self]
        · simp [handleBytes, readFile, getDir, dget_dset_self]
      | some a =>
        obtain ⟨hid, obj, hdd, hh, hcl, hmode⟩ := hInv.activeOk a hact
        rcases hmode with ⟨hmem, _⟩ | ⟨hd, fs0, stem0, f0, hdir', hgd0, hkind, hf0, _⟩
        · rw [hdir] at hmem; exact absurd hmem (by simp)
        · have hdeq : hd = d := by
            rw [hdir] at hdir'
            exact (Option.some.inj (Option.some.inj hdir')).symm
          subst hdeq
          have hobj : dget hid w.handles = some ⟨.disk hd stem0 true, false⟩ := by
            rw [hh]; congr 1; cases obj with
            | mk kind closed => cases hkind; cases hcl; rfl
          rw [putRaw_rot s w k v _ _ hrot (reactivate_spec_disk_roll s w hd fs a hid hd
            stem0 fs0 f0 hdir hact hdd hobj hgd0 hf0 hgd hfr)]
          rw [putAppend_spec_disk _ _ k v (stemFid w.clock) (w.hnext + 1) hd w.clock
            (dset (w.clock, FKind.db) [] fs) []
            rfl (dget_dset_self _ _ _) (by simp [dget_dset_self])
            (by simp [dget_dset_self]) (dget_dset_self _ _ _) rfl]
          refine ⟨_, _, rfl, ?_⟩
          rw [getOp_eq_padRead _ _ k ⟨stemFid w.clock, v.length, 0 + 28 + k.length,
              (w.clock + 1 : Nat)⟩ (w.hnext + 1) ⟨.disk hd w.clock true, false⟩
              ([] ++ encRec (w.clock + 1) k v) ?_ ?_ ?_ rfl ?_]
          · rw [padRead_encRec _ (w.clock + 1) k v _ (by simp)]
          · simp [dget_dset_self]
          · simp [dget_dset_self]
          · simp [dget_dset_self]
          · simp [handleBytes, readFile, getDir, dget_dset_self]
  · rw [putRaw_norot s w k v hrot]
    push_neg at hrot
    obtain ⟨hact', _⟩ := hrot
    match hact : s.active with
    | none => exact absurd hact hact'
    | some a =>
      obtain ⟨hid, obj, hdd, hh, hcl, hmode⟩ := hInv.activeOk a hact
      rcases hmode with ⟨hdir, buf, hkind, hblen⟩ |
        ⟨d, fs, stem, f, hdir, hgd, hkind, hff, hflen⟩
      · have hobj : dget hid w.handles = some ⟨.mem buf, false⟩ := by
          rw [hh]; congr 1; cases obj with
          | mk kind closed => cases hkind; cases hcl; rfl
        rw [putAppend_spec_mem s w k v a hid buf hact hdd hobj hblen]
        refine ⟨_, _, rfl, ?_⟩
        rw [getOp_eq_padRead _ _ k ⟨a, v.length, s.cur + 28 + k.length, w.clock⟩
            hid ⟨.mem (buf ++ encRec w.clock k v), false⟩
            (buf ++ encRec w.clock k v) ?_ ?_ ?_ rfl ?_]
        · rw [padRead_encRec _ w.clock k v _ (by show s.cur + 28 + k.length = buf.length + (28 + k.length); omega)]
        · simp [dget_dset_self]
        · simpa using hdd
        · simp [dget_dset_self]
        · rfl
      · have hobj : dget hid w.handles = some ⟨.disk d stem true, false⟩ := by
          rw [hh]; congr 1; cases obj with
          | mk kind closed => cases hkind; cases hcl; rfl
        rw [putAppend_spec_disk s w k v a hid d stem fs f hact hdd hobj hgd hff hflen]
        refine ⟨_, _, rfl, ?_⟩
        rw [getOp_eq_padRead _ _ k ⟨a, v.length, s.cur + 28 + k.length, w.clock⟩
            hid ⟨.disk d stem true, false⟩ (f ++ encRec w.clock k v) ?_ ?_ ?_ rfl ?_]
        · rw [padRead_encRec _ w.clock k v _ (by show s.cur + 28 + k.length = f.length + (28 + k.length); omega)]
        · simp [dget_dset_self]
        · simpa using hdd
        · simpa using hobj
        · simp [handleBytes, readFile, getDir, dget_dset_self]

/-- The active `BytesIO` buffer of the two-key `:memory` store. -/
def c8Buf : Bytes :=
  match dget 0 c8State.2.handles with
  | some ⟨.mem b, _⟩ => b
  | _ => []

/-- The C6 witness store (the two-key `:memory` store) is well-formed. -/
theorem c6_inv_c8State : Inv c8State.1 c8State.2 := by
  refine ⟨by decide, ?_, ?_, ?_, by decide⟩
  · intro d h
    rw [show c8State.1.dirname = some none from by decide] at h
    simp at h
  · intro a ha
    rw [show c8State.1.active = some 595022058 from by decide] at ha
    obtain rfl : 595022058 = a := Option.some.inj ha
    exact ⟨0, ⟨.mem c8Buf, false⟩, by decide, by decide, rfl,
      Or.inl ⟨by decide, c8Buf, rfl, by decide⟩⟩
  · intro p hp
    rw [show c8State.1.keydir =
      [([1], ⟨595022058, 1, 29, 101⟩), ([2], ⟨595022058, 1, 59, 102⟩)] from by decide] at hp
    simp only [List.mem_cons, List.not_mem_nil, or_false] at hp
    rcases hp with h | h
    · subst h
      exact ⟨0, ⟨.mem c8Buf, false⟩, by decide, by decide, rfl, by decide, by decide⟩
    · subst h
      exact ⟨0, ⟨.mem c8Buf, false⟩, by decide, by decide, rfl, by decide, by decide⟩

/-- C6: for every well-formed open store, every non-empty key K and every
non-empty value V, `put(K,V)` succeeds and an immediately following
`get(K)` returns exactly V, including when the put triggers rotation of
the active segment. -/
theorem c6_put_then_get (s : Cask) (w : World) (k v : Bytes)
    (hInv : Inv s w) (hk : k ≠ []) (hv : v ≠ [])
    (hfresh : ∀ d fs, s.dirname = some (some d) → dget d w.dirs = some fs →
      dget (w.clock, FKind.db) fs = none) :
    ∃ s' w', putOp s w k v = .ok (s', w') ∧ getOp s' w' k = .ok v :=
  put_roundtrip_aux s w k v hInv hk hv hfresh

theorem c6_witness :
    ([3] : Bytes) ≠ [] ∧ ([4, 5] : Bytes) ≠ [] ∧
    ∃ s' w', putOp c8State.1 c8State.2 [3] [4, 5] = .ok (s', w') ∧
      getOp s' w' [3] = .ok [4, 5] :=
  ⟨by decide, by decide,
    c6_put_then_get c8State.1 c8State.2 [3] [4, 5] c6_inv_c8State
      (by decide) (by decide)
      (fun d fs h _ => by rw [show c8State.1.dirname = some none from by decide] at h; simp at h)⟩

/-! ## C7: keydir ordering -/

/-- `reopenPrev` only swaps a datadir entry. -/
theorem reopenPrev_keydir (s : Cask) (w : World) (s1 : Cask) (w1 : World)
    (h : reopenPrev s w = .ok (s1, w1)) : s1.keydir = s.keydir := by
  rw [reopenPrev] at h
  cases hA : s.active with
  | none =>
    simp only [hA] at h
    obtain ⟨h1, h2⟩ : s = s1 ∧ w = w1 := by simpa using h
    rw [← h1]
  | some a =>
    simp only [hA] at h
    cases hD : dget a s.datadir with
    | none => simp [hD] at h
    | some hid =>
      simp only [hD] at h
      cases hH : dget hid w.handles with
      | none => simp [hH] at h
      | some obj =>
        simp only [hH] at h
        cases hK : obj.kind with
        | mem buf => simp [hK] at h
        | disk hd hstem wm =>
          simp only [hK] at h
          cases hR : readFile (closeHandle w hid) hd (hstem, FKind.db) with
          | none => simp [hR] at h
          | some f =>
            simp only [hR, Except.ok.injEq, Prod.mk.injEq] at h
            obtain ⟨h1, h2⟩ := h
            rw [← h1]

/-- `_reactivate` never touches the keydir. -/
theorem reactivate_keydir (s : Cask) (w : World) (s1 : Cask) (w1 : World)
    (h : reactivate s w = .ok (s1, w1)) : s1.keydir = s.keydir := by
  rw [reactivate] at h
  simp only [uuid7] at h
  cases hdn : s.dirname with
  | none => simp [hdn] at h
  | some dopt =>
    cases dopt with
    | none =>
      simp only [hdn, newHandle, Except.ok.injEq, Prod.mk.injEq] at h
      obtain ⟨h1, h2⟩ := h
      rw [← h1]
    | some d =>
      simp only [hdn] at h
      cases hre : reopenPrev s { w with clock := w.clock + 1 } with
      | error e => simp [hre] at h
      | ok sw =>
        obtain ⟨sa, wa⟩ := sw
        have hkd := reopenPrev_keydir s _ sa wa hre
        simp only [hre] at h
        cases hgd : getDir wa d with
        | none => simp [hgd] at h
        | some fs =>
          simp only [hgd, newHandle, Except.ok.injEq, Prod.mk.injEq] at h
          obtain ⟨h1, h2⟩ := h
          rw [← h1, hkd]

/-- The append phase updates the keydir with exactly one `dset` on the
written key. -/
theorem putAppend_keydir (s : Cask) (w : World) (k v : Bytes)
    (s' : Cask) (w' : World) (h : putAppend s w k v = .ok (s', w')) :
    ∃ kr, s'.keydir = dset k kr s.keydir := by
  rw [putAppend] at h
  simp only [uuid7] at h
  cases hA : s.active with
  | none => simp [hA] at h
  | some a =>
    simp only [hA] at h
    cases hD : dget a s.datadir with
    | none => simp [hD] at h
    | some hid =>
      simp only [hD] at h
      split at h
      · simp at h
      · simp only [Except.ok.injEq, Prod.mk.injEq] at h
        obtain ⟨h1, h2⟩ := h
        rw [← h1]
        exact ⟨_, rfl⟩

/-- `put` updates the keydir with exactly one `dset` on the written
key. -/
theorem putOp_keydir (s : Cask) (w : World) (k v : Bytes)
    (s' : Cask) (w' : World) (h : putOp s w k v = .ok (s', w')) :
    ∃ kr, s'.keydir = dset k kr s.keydir := by
  rw [putOp] at h
  split at h
  · simp at h
  · rw [putRaw] at h
    split at h
    · simp at h
    · next s1w1 s1 w1 heq =>
      obtain ⟨kr, hkr⟩ := putAppend_keydir s1 w1 k v s' w' h
      split at heq
      · rw [hkr, reactivate_keydir s w s1 w1 heq]
        exact ⟨kr, rfl⟩
      · obtain ⟨rfl, rfl⟩ : s = s1 ∧ w = w1 := by
          simpa using heq
        exact ⟨kr, hkr⟩

/-- `list_keys` after `put`: the key is appended on first insertion and
left in place on update. -/
theorem putOp_listKeys (s : Cask) (w : World) (k v : Bytes)
    (s' : Cask) (w' : World) (h : putOp s w k v = .ok (s', w')) :
    listKeys s' =
      if k ∈ listKeys s then listKeys s else listKeys s ++ [k] := by
  obtain ⟨kr, hkr⟩ := putOp_keydir s w k v s' w' h
  simp only [listKeys, hkr, map_fst_dset]
  by_cases hm : k ∈ List.map Prod.fst s.keydir <;> simp [hm]

/-- A sequence of `put`s. -/
def runPuts (s : Cask) (w : World) : List (Bytes × Bytes) → Except Err (Cask × World)
  | [] => .ok (s, w)
  | (k, v) :: ps =>
    match putOp s w k v with
    | .error e => .error e
    | .ok (s', w') => runPuts s' w' ps

/-- The keys of a put sequence in order of first occurrence. -/
def firstPuts (ks : List Bytes) : List Bytes :=
  ks.foldl (fun acc k => if k ∈ acc then acc else acc ++ [k]) []

/-- The general step of the first-put ordering argument. -/
theorem runPuts_listKeys (ps : List (Bytes × Bytes)) (s : Cask) (w : World)
    (s' : Cask) (w' : World) (h : runPuts s w ps = .ok (s', w')) :
    listKeys s' =
      (ps.map Prod.fst).foldl (fun acc k => if k ∈ acc then acc else acc ++ [k])
        (listKeys s) := by
  induction ps generalizing s w with
  | nil =>
    obtain ⟨rfl, rfl⟩ : s = s' ∧ w = w' := by simpa [runPuts] using h
    simp
  | cons p ps ih =>
    rw [runPuts] at h
    split at h
    · simp at h
    · next s1 w1 heq =>
      rw [ih s1 w1 h, putOp_listKeys s w p.1 p.2 s1 w1 heq]
      simp

/-- `k` is among the keys after `d[k] = v`. -/
theorem mem_fst_dset {K V : Type} [DecidableEq K] (k : K) (v : V)
    (l : List (K × V)) : k ∈ (dset k v l).map Prod.fst := by
  rw [map_fst_dset]
  by_cases hm : k ∈ l.map Prod.fst <;> simp [hm]

/-- `d[k] = v` preserves distinctness of the keys. -/
theorem nodup_dset {K V : Type} [DecidableEq K] (k : K) (v : V)
    (l : List (K × V)) (h : (l.map Prod.fst).Nodup) :
    ((dset k v l).map Prod.fst).Nodup := by
  rw [map_fst_dset]
  by_cases hm : k ∈ l.map Prod.fst
  · simpa [hm] using h
  · simp only [hm, if_false]
    exact h.append (List.nodup_singleton k)
      (fun x hx hxk => hm ((List.mem_singleton.mp hxk) ▸ hx))

/-- The number of occurrences of a key in a key list. -/
def occurrences (k : Bytes) (ks : List Bytes) : Nat :=
  (ks.filter (fun x => x == k)).length

theorem occurrences_eq_one {k : Bytes} {ks : List Bytes}
    (hnd : ks.Nodup) (hm : k ∈ ks) : occurrences k ks = 1 := by
  induction ks with
  | nil => cases hm
  | cons a t ih =>
    rw [List.nodup_cons] at hnd
    rcases List.mem_cons.mp hm with rfl | hmt
    · have hzero : t.filter (fun x => x == k) = [] := by
        rw [List.filter_eq_nil]
        intro x hx
        simp only [beq_iff_eq]
        intro hxk
        exact hnd.1 (hxk ▸ hx)
      simp [occurrences, List.filter_cons, hzero]
    · have hak : (a == k) = false := by
        simp only [beq_eq_false_iff_ne]
        intro hak
        exact hnd.1 (hak ▸ hmt)
      have := ih hnd.2 hmt
      simp only [occurrences, List.filter_cons, hak] at this ⊢
      simpa using this

/-- C7: within one open session without deletes, `list_keys()` returns
keys in the order of their first `put` (for any put sequence on a store
with an empty keydir); and re-putting an existing key K — `put(K,V1)`
then `put(K,V2)` on a well-formed store — leaves K in `list_keys()`
exactly once with `get(K) = V2`. -/
theorem c7_insertion_order_and_lww :
    (∀ (s : Cask) (w : World) (ps : List (Bytes × Bytes)) (s' : Cask) (w' : World),
      s.keydir = [] → runPuts s w ps = .ok (s', w') →
      listKeys s' = firstPuts (ps.map Prod.fst)) ∧
    (∀ (s : Cask) (w : World) (k v1 v2 : Bytes) (s1 : Cask) (w1 : World),
      putOp s w k v1 = .ok (s1, w1) → Inv s1 w1 → k ≠ [] → v2 ≠ [] →
      (∀ d fs, s1.dirname = some (some d) → dget d w1.dirs = some fs →
        dget (w1.clock, FKind.db) fs = none) →
      ∃ s2 w2, putOp s1 w1 k v2 = .ok (s2, w2) ∧ getOp s2 w2 k = .ok v2 ∧
        occurrences k (listKeys s2) = 1) := by
  constructor
  · intro s w ps s' w' h0 h
    rw [runPuts_listKeys ps s w s' w' h, firstPuts]
    simp [listKeys, h0]
  · intro s w k v1 v2 s1 w1 hput1 hInv1 hk hv2 hfresh
    obtain ⟨s2, w2, hput2, hget2⟩ :=
      put_roundtrip_aux s1 w1 k v2 hInv1 hk hv2 hfresh
    refine ⟨s2, w2, hput2, hget2, ?_⟩
    obtain ⟨kr2, hkr2⟩ := putOp_keydir s1 w1 k v2 s2 w2 hput2
    have hnd : (listKeys s2).Nodup := by
      rw [listKeys, hkr2]
      exact nodup_dset k kr2 s1.keydir hInv1.nodupKeys
    have hmem : k ∈ listKeys s2 := by
      rw [listKeys, hkr2]
      exact mem_fst_dset k kr2 s1.keydir
    exact occurrences_eq_one hnd hmem

/-- A freshly opened `:memory` store. -/
def c7Open : Cask × World :=
  runOut
    (do
      let (_, s, w) ← openOp (mkCask 1024) baseWorld none
      pure (s, w))
    (mkCask 0, baseWorld)

/-- The store after `put([1],[10]); put([2],[20]); put([1],[30])`. -/
def c7End : Cask × World :=
  runOut (runPuts c7Open.1 c7Open.2 [([1], [10]), ([2], [20]), ([1], [30])])
    (mkCask 0, baseWorld)

/-- The store after the single `put([1],[10])`. -/
def c7Mid : Cask × World :=
  runOut (putOp c7Open.1 c7Open.2 [1] [10]) (mkCask 0, baseWorld)

/-- The active buffer of `c7Mid`. -/
def c7MidBuf : Bytes :=
  match dget 0 c7Mid.2.handles with
  | some ⟨.mem b, _⟩ => b
  | _ => []

/-- The C7 witness store is well-formed. -/
theorem c7_inv_mid : Inv c7Mid.1 c7Mid.2 := by
  refine ⟨by decide, ?_, ?_, ?_, by decide⟩
  · intro d h
    rw [show c7Mid.1.dirname = some none from by decide] at h
    simp at h
  · intro a ha
    rw [show c7Mid.1.active = some 595022058 from by decide] at ha
    obtain rfl : 595022058 = a := Option.some.inj ha
    exact ⟨0, ⟨.mem c7MidBuf, false⟩, by decide, by decide, rfl,
      Or.inl ⟨by decide, c7MidBuf, rfl, by decide⟩⟩
  · intro p hp
    rw [show c7Mid.1.keydir = [([1], ⟨595022058, 1, 29, 101⟩)] from by decide] at hp
    simp only [List.mem_cons, List.not_mem_nil, or_false] at hp
    subst hp
    exact ⟨0, ⟨.mem c7MidBuf, false⟩, by decide, by decide, rfl, by decide, by decide⟩

theorem c7_witness :
    c7Open.1.keydir = [] ∧
    runPuts c7Open.1 c7Open.2 [([1], [10]), ([2], [20]), ([1], [30])] =
      .ok (c7End.1, c7End.2) ∧
    listKeys c7End.1 =
      firstPuts ([([1], [10]), ([2], [20]), ([1], [30])].map Prod.fst) ∧
    putOp c7Open.1 c7Open.2 [1] [10] = .ok (c7Mid.1, c7Mid.2) ∧
    (∃ s2 w2, putOp c7Mid.1 c7Mid.2 [1] [31] = .ok (s2, w2) ∧
      getOp s2 w2 [1] = .ok [31] ∧ occurrences [1] (listKeys s2) = 1) :=
  ⟨by decide, by decide,
   c7_insertion_order_and_lww.1 c7Open.1 c7Open.2 _ c7End.1 c7End.2
     (by decide) (by decide),
   by decide,
   c7_insertion_order_and_lww.2 c7Open.1 c7Open.2 [1] [10] [31] c7Mid.1 c7Mid.2
     (by decide) c7_inv_mid (by decide) (by decide)
     (fun d fs h _ => by
       rw [show c7Mid.1.dirname = some none from by decide] at h
       simp at h)⟩

/-! ## C4: merge and the number of `.db` files -/

theorem dset_dset {K V : Type} [DecidableEq K] (k : K) (v1 v2 : V)
    (l : List (K × V)) : dset k v1 (dset k v2 l) = dset k v1 l := by
  induction l with
  | nil => simp [dset]
  | cons p rest ih =>
    by_cases hp : p.1 = k <;> simp [dset, hp, ih]

/-- Looking up another key is unaffected by `del`. -/
theorem dget_ddel {K V : Type} [DecidableEq K] {k k' : K}
    (l : List (K × V)) (h : k ≠ k') :
    dget k (ddel k' l) = dget k l := by
  induction l with
  | nil => simp [ddel]
  | cons p rest ih =>
    by_cases hp : p.1 = k'
    · simp [ddel, dget, hp, Ne.symm h]
    · by_cases hk : p.1 = k
      · simp [ddel, dget, hp, hk, h]
      · simp [ddel, dget, hp, hk, ih]

/-- Appending one `.db` file raises the `.db` count by one. -/
theorem dbCount_append_db (fs : DirFS) (n : Nat) (bs : Bytes) :
    dbCount (fs ++ [((n, FKind.db), bs)]) = dbCount fs + 1 := by
  simp [dbCount, List.filter_append]

/-- When every keydir entry points at the active segment, the merge-put
loop replays nothing. -/
theorem mergePuts_skip (src : Cask) (w : World) (mc : Cask)
    (kd : List (Bytes × KeyRec))
    (h : ∀ p ∈ kd, some p.2.file_id = src.active) :
    mergePuts src w mc kd = .ok (mc, w) := by
  induction kd with
  | nil => rfl
  | cons p rest ih =>
    rw [mergePuts, if_pos (h p (by simp))]
    exact ih (fun q hq => h q (by simp [hq]))

/-- When every keydir entry points at the active segment, the keydir
sweep keeps everything. -/
theorem dropMerged_all (act : Option Nat) (kd : List (Bytes × KeyRec))
    (h : ∀ p ∈ kd, some p.2.file_id = act) :
    dropMerged act kd = kd := by
  rw [dropMerged, List.filter_eq_self]
  intro p hp
  simp [h p hp]

/-- The datadir sweep keeps the single active entry. -/
theorem dropFiles_active (a hid : Nat) (w : World) :
    dropFiles (some a) w [(a, hid)] = .ok ([(a, hid)], w) := by
  rw [dropFiles, if_pos rfl]
  rfl

/-- `open` on an empty directory only records the directory name. -/
theorem openOp_empty_dir (t : Nat) (w : World) (md : Nat)
    (hmd : dget md w.dirs = some []) :
    openOp (mkCask t) w (some md) =
      .ok (true, { mkCask t with dirname := some (some md) }, w) := by
  rw [openOp]
  simp [isDirArg, getDir, hmd, mkCask, doReset, openInner, readHintsOp,
    readHintsList, groupHints, openWithHints]

/-- `_read_hints` on a directory holding one empty `.db` file finds
nothing (the file is shorter than a header). -/
theorem readHints_one_empty (mc1 : Cask) (w2 : World) (md stem : Nat)
    (hdir : mc1.dirname = some (some md))
    (hgd : dget md w2.dirs = some [((stem, FKind.db), [])]) :
    readHintsOp mc1 w2 = .ok (some []) := by
  rw [readHintsOp]
  simp [hdir, getDir, hgd, readHintsList, readOneFile, readOneData, dget,
    groupHints]

/-- Evaluating `close()` when the active chain is intact. -/
theorem closeOp_spec (s : Cask) (w : World) (a hid : Nat) (obj : HandleObj)
    (hact : s.active = some a) (hdd : dget a s.datadir = some hid)
    (hh : dget hid w.handles = some obj) :
    closeOp s w = .ok (true, doReset s, closeHandle w hid) := by
  simp [closeOp, hact, hdd, hh]

/-- C4 amended: `merge()` leaves one extra empty `.db` file behind (the
forced final rotation of the merge store), so on a store whose keydir
entries all point at the active segment and whose only open segment is
the active one, the number of `.db` files strictly *increases* by one. -/
theorem c4_merge_no_sealed_increases (s : Cask) (w : World)
    (d a hid : Nat) (fs : DirFS)
    (hdir : s.dirname = some (some d))
    (hgd : dget d w.dirs = some fs)
    (hact : s.active = some a)
    (hdd : s.datadir = [(a, hid)])
    (hkd : ∀ p ∈ s.keydir, some p.2.file_id = s.active)
    (hmd : dget w.dnext w.dirs = none)
    (hfreshd : dget (w.clock, FKind.db) fs = none) :
    ∃ s' w', mergeOp s w = .ok (true, s', w') ∧
      dget d w'.dirs = some (fs ++ [((w.clock, FKind.db), [])]) ∧
      dbCount (fs ++ [((w.clock, FKind.db), [])]) = dbCount fs + 1 := by
  have hdne : d ≠ w.dnext := by
    intro he
    rw [he, hmd] at hgd
    cases hgd
  refine ⟨{ s with dirname := some (some d), active := some a, datadir := [(a, hid)] },
    { dirs := ddel w.dnext (dset d (dset (w.clock, FKind.db) [] fs)
        (dset w.dnext (dset (w.clock, FKind.db) [] []) w.dirs)),
      handles := dset w.hnext ⟨.disk w.dnext w.clock true, true⟩ w.handles,
      clock := w.clock + 1, hnext := w.hnext + 1, dnext := w.dnext + 1 },
    ?_, ?_, dbCount_append_db fs w.clock []⟩
  · rw [mergeOp]
    simp only [hdir]
    rw [openOp_empty_dir s.threshold _ w.dnext (by simp [dget_dset_self])]
    simp only []
    rw [mergePuts_skip s _ _ s.keydir hkd]
    simp only []
    rw [reactivate_spec_disk_fresh _ _ w.dnext [] rfl rfl
      (by simp [dget_dset_self]) rfl]
    simp only []
    rw [readHints_one_empty _ _ w.dnext w.clock rfl
      (by simp [dget_dset_self, dset])]
    simp only [writeHintFiles]
    rw [closeOp_spec _ _ (stemFid w.clock) w.hnext ⟨.disk w.dnext w.clock true, false⟩
      rfl (dget_dset_self _ _ _) (dget_dset_self _ _ _)]
    simp only [closeHandle, dget_dset_self, doReset, getDir, moveFiles, setFile]
    rw [show dget d (dset w.dnext (dset (w.clock, FKind.db) [] [])
        (dset w.dnext [] w.dirs)) = some fs from by
      rw [dget_dset_ne _ _ hdne, dget_dset_ne _ _ hdne, hgd]]
    simp only [dset_dset]
    rw [dropMerged_all s.active s.keydir hkd, hact, hdd, dropFiles_active]
    simp only [openWithHints]
  · rw [dget_ddel _ hdne, dget_dset_self, dset_absent _ hfreshd]

/-- A persistent store holding one key in its active segment and nothing
else (`open` on directory `0`, one `put([1],[10])`). -/
def c4State : Cask × World :=
  runOut
    (do
      let (_, s, w) ← openOp (mkCask 1024) baseWorld (some 0)
      putOp s w [1] [10])
    (mkCask 0, baseWorld)

/-- The data directory of `c4State`. -/
def c4Fs : DirFS := (getDir c4State.2 0).getD []

/-- C4 counterexample: on the one-segment store, `merge()` *increases*
the number of `.db` files from 1 to 2 (the forced rotation of the merge
store leaves an empty segment file that is moved into the data directory
and never cleaned up), contradicting "does not increase the number of
`.db` files". -/
theorem c4_counterexample :
    (getDir c4State.2 0).map dbCount = some 1 ∧
    (do
      let (_, _, w') ← mergeOp c4State.1 c4State.2
      pure ((getDir w' 0).map dbCount)) = Except.ok (some 2) ∧
    ¬ (2 : Nat) ≤ 1 := by
  refine ⟨by decide, by decide, by decide⟩

theorem c4_witness :
    c4State.1.dirname = some (some 0) ∧
    dget 0 c4State.2.dirs = some c4Fs ∧
    c4State.1.active = some 595022058 ∧
    c4State.1.datadir = [(595022058, 0)] ∧
    (∀ p ∈ c4State.1.keydir, some p.2.file_id = c4State.1.active) ∧
    dget c4State.2.dnext c4State.2.dirs = none ∧
    dget (c4State.2.clock, FKind.db) c4Fs = none ∧
    (∃ s' w', mergeOp c4State.1 c4State.2 = .ok (true, s', w') ∧
      dget 0 w'.dirs = some (c4Fs ++ [((c4State.2.clock, FKind.db), [])]) ∧
      dbCount (c4Fs ++ [((c4State.2.clock, FKind.db), [])]) = dbCount c4Fs + 1) :=
  ⟨by decide, by decide, by decide, by decide, by decide, by decide, by decide,
    c4_merge_no_sealed_increases c4State.1 c4State.2 0 595022058 0 c4Fs
      (by decide) (by decide) (by decide) (by decide) (by decide) (by decide)
      (by decide)⟩

/-! ## C5: merge preserves `get`

The proof builds up: (1) what a sequence of `_put`s writes to a fresh
store's files (the merge store), (2) that `read_data_file` decodes those
files back exactly, (3) that the surrounding `merge()` bookkeeping
preserves the reads of active-backed keys while rebinding merged keys to
the fresh segments. -/

/-- The byte image of a list of records, in append order. -/
def encAll : List (Nat × Bytes × Bytes) → Bytes
  | [] => []
  | (ts, k, v) :: rs => encRec ts k v ++ encAll rs

/-- The `keys` entries `read_data_file` accumulates for a file whose
bytes are `encAll rs`, scanning from absolute offset `L`, when every key
is fresh. -/
def entriesAt (st : Nat) : Nat → List (Nat × Bytes × Bytes) → List (Bytes × KeyState)
  | _, [] => []
  | L, (ts, k, v) :: rs =>
    (k, ⟨ts, false, st, ⟨ts, k.length, v.length, L + 28 + k.length, k⟩⟩) ::
      entriesAt st (L + (28 + k.length + v.length)) rs

/-- `take n (l₁ ++ l₂) = l₁` when `n` is the length of `l₁`. -/
theorem take_len_append {n : Nat} (a b : Bytes) (h : a.length = n) :
    (a ++ b).take n = a := by
  subst h
  exact List.take_left a b

/-- `drop n (l₁ ++ l₂) = l₂` when `n` is the length of `l₁`. -/
theorem drop_len_append {n : Nat} (a b : Bytes) (h : a.length = n) :
    (a ++ b).drop n = b := by
  subst h
  exact List.drop_left a b

/-- Record fields decode back (well-formedness bounds as in
`struct.pack`). -/
theorem encRec_decode (ts : Nat) (k v : Bytes) (suf : Bytes)
    (hts : ts < 2 ^ 128) (hk : k.length < 2 ^ 32) (hv : v.length < 2 ^ 32) :
    let data := (encRec ts k v ++ suf).take 28
    data.length = 28 ∧
    beToNat ((data.drop 4).take 16) = ts ∧
    beToNat ((data.drop 20).take 4) = k.length ∧
    beToNat ((data.drop 24).take 4) = v.length ∧
    (encRec ts k v ++ suf).drop 28 = k ++ (v ++ suf) := by
  have hdata : (encRec ts k v ++ suf).take 28 =
      beBytes 4 (crc32 v (crc32 k (crc32 (beBytes 16 ts ++ beBytes 4 k.length ++ beBytes 4 v.length)))) ++
      (beBytes 16 ts ++ beBytes 4 k.length ++ beBytes 4 v.length) := by
    rw [show encRec ts k v ++ suf =
      (beBytes 4 (crc32 v (crc32 k (crc32 (beBytes 16 ts ++ beBytes 4 k.length ++ beBytes 4 v.length)))) ++
        (beBytes 16 ts ++ beBytes 4 k.length ++ beBytes 4 v.length)) ++ (k ++ (v ++ suf)) from by
      simp [encRec]]
    exact take_len_append _ _ (by simp [length_beBytes])
  refine ⟨?_, ?_, ?_, ?_, ?_⟩
  · simp only [hdata]
    simp [length_beBytes]
  · simp only [hdata]
    rw [drop_len_append (beBytes 4 _) _ (length_beBytes 4 _), List.append_assoc,
      take_len_append (beBytes 16 ts) _ (length_beBytes 16 ts)]
    · rw [beToNat_beBytes]
      exact Nat.mod_eq_of_lt (by exact_mod_cast hts)
  · simp only [hdata]
    rw [show (beBytes 4 (crc32 v (crc32 k (crc32 (beBytes 16 ts ++ beBytes 4 k.length ++ beBytes 4 v.length)))) ++
        (beBytes 16 ts ++ beBytes 4 k.length ++ beBytes 4 v.length)) =
      (beBytes 4 (crc32 v (crc32 k (crc32 (beBytes 16 ts ++ beBytes 4 k.length ++ beBytes 4 v.length)))) ++
        beBytes 16 ts) ++ (beBytes 4 k.length ++ beBytes 4 v.length) from by simp]
    rw [drop_len_append _ _ (by simp [length_beBytes]),
      take_len_append _ _ (length_beBytes 4 _), beToNat_beBytes]
    exact Nat.mod_eq_of_lt (by exact_mod_cast hk)
  · simp only [hdata]
    rw [show (beBytes 4 (crc32 v (crc32 k (crc32 (beBytes 16 ts ++ beBytes 4 k.length ++ beBytes 4 v.length)))) ++
        (beBytes 16 ts ++ beBytes 4 k.length ++ beBytes 4 v.length)) =
      (beBytes 4 (crc32 v (crc32 k (crc32 (beBytes 16 ts ++ beBytes 4 k.length ++ beBytes 4 v.length)))) ++
        beBytes 16 ts ++ beBytes 4 k.length) ++ beBytes 4 v.length from by simp]
    rw [drop_len_append _ _ (by simp [length_beBytes]),
      List.take_of_length_le (by simp [length_beBytes]), beToNat_beBytes]
    exact Nat.mod_eq_of_lt (by exact_mod_cast hv)
  · rw [show encRec ts k v ++ suf =
      (beBytes 4 (crc32 v (crc32 k (crc32 (beBytes 16 ts ++ beBytes 4 k.length ++ beBytes 4 v.length)))) ++
        (beBytes 16 ts ++ beBytes 4 k.length ++ beBytes 4 v.length)) ++ (k ++ (v ++ suf)) from by
      simp [encRec]]
    exact drop_len_append _ _ (by simp [length_beBytes])

/-- Each record contributes at least one byte. -/
theorem length_le_encAll (rs : List (Nat × Bytes × Bytes)) :
    rs.length ≤ (encAll rs).length := by
  induction rs with
  | nil => simp [encAll]
  | cons t rest ih =>
    obtain ⟨ts, k, v⟩ := t
    simp only [encAll, List.length_cons, List.length_append, encRec_length]
    omega

/-- Scanning a file image built out of fresh-keyed records recovers
exactly one `keys` entry per record, with the value position of each
record's payload. -/
theorem readDataGo_encAll (st : Nat) (rs : List (Nat × Bytes × Bytes)) :
    ∀ (pre : Bytes) (keys : List (Bytes × KeyState)) (fuel : Nat),
    rs.length < fuel →
    (∀ t ∈ rs, t.1 < 2 ^ 128 ∧ t.2.1.length < 2 ^ 32 ∧
      0 < t.2.2.length ∧ t.2.2.length < 2 ^ 32) →
    (∀ t ∈ rs, dget t.2.1 keys = none) →
    (rs.map (fun t => t.2.1)).Nodup →
    readDataGo st (pre ++ encAll rs) fuel pre.length keys =
      .ok (keys ++ entriesAt st pre.length rs) := by
  induction rs with
  | nil =>
    intro pre keys fuel hfuel _ _ _
    cases fuel with
    | zero => omega
    | succ f =>
      rw [readDataGo]
      simp [encAll, entriesAt]
  | cons t rest ih =>
    intro pre keys fuel hfuel hwf hnew hnd
    obtain ⟨ts, k, v⟩ := t
    obtain ⟨hts, hk, hv0, hv⟩ := hwf _ (List.mem_cons_self _ _)
    dsimp only at hts hk hv0 hv
    cases fuel with
    | zero => omega
    | succ f =>
      rw [readDataGo]
      have hbytes : pre ++ encAll ((ts, k, v) :: rest) =
          pre ++ (encRec ts k v ++ encAll rest) := by
        simp [encAll]
      obtain ⟨hd28, hdts, hdk, hdv, hdrop⟩ :=
        encRec_decode ts k v (encAll rest) hts hk hv
      have hdata : ((pre ++ encAll ((ts, k, v) :: rest)).drop pre.length).take 28 =
          (encRec ts k v ++ encAll rest).take 28 := by
        rw [hbytes, drop_len_append pre _ rfl]
      have hlen : (pre ++ encAll ((ts, k, v) :: rest)).length =
          pre.length + (28 + k.length + v.length) + (encAll rest).length := by
        rw [hbytes]
        simp [encRec_length]
        omega
      simp only [hdata, hd28]
      rw [if_neg (by omega), if_neg (by omega)]
      simp only [hdts, hdk, hdv]
      have hkey : (List.drop (pre.length + 28) (pre ++ encAll ((ts, k, v) :: rest))).take k.length
          = k := by
        rw [hbytes, ← List.drop_drop, drop_len_append pre _ rfl, hdrop]
        exact take_len_append _ _ rfl
      have hmin : min (pre.length + 28 + k.length)
          (pre ++ encAll ((ts, k, v) :: rest)).length = pre.length + 28 + k.length := by
        rw [hlen]
        omega
      simp only [hkey, hmin]
      rw [show dget k keys = none from hnew _ (List.mem_cons_self _ _)]
      simp only [if_pos rfl]
      have hvz : (v.length == 0) = false := by
        simp only [beq_eq_false_iff_ne]
        omega
      rw [hvz, dset_absent _ (hnew _ (List.mem_cons_self _ _))]
      have hpos : pre.length + 28 + k.length + v.length =
          (pre ++ encRec ts k v).length := by
        simp [encRec_length]
        omega
      rw [hpos]
      have hrw : pre ++ encAll ((ts, k, v) :: rest) =
          (pre ++ encRec ts k v) ++ encAll rest := by
        rw [hbytes, List.append_assoc]
      rw [hrw]
      simp only [if_true]
      have hnew2 : ∀ t ∈ rest, dget t.2.1
          (keys ++ [(k, ⟨ts, false, st, ⟨ts, k.length, v.length,
            pre.length + 28 + k.length, k⟩⟩)]) = none := by
        intro t ht
        rw [dget_append_right _ (hnew t (List.mem_cons_of_mem _ ht))]
        have hne : t.2.1 ≠ k := by
          intro he
          rw [List.map_cons, List.nodup_cons] at hnd
          exact hnd.1 (List.mem_map.mpr ⟨t, ht, he⟩)
        have hne' : ¬(k = t.2.1) := fun he => hne he.symm
        simp [dget, hne']
      refine Eq.trans (ih (pre ++ encRec ts k v)
        (keys ++ [(k, ⟨ts, false, st, ⟨ts, k.length, v.length, pre.length + 28 + k.length, k⟩⟩)])
        f (by simp at hfuel; omega)
        (fun t ht => hwf t (List.mem_cons_of_mem _ ht))
        hnew2 (by simpa using hnd.of_cons)) ?_
      rw [entriesAt]
      simp only [List.append_assoc, List.singleton_append]
      rw [show (pre ++ encRec ts k v).length = pre.length + (28 + k.length + v.length) from by
        simp [encRec_length]]

/-- A key is absent exactly when it is not among the stored keys. -/
theorem dget_eq_none_iff {K V : Type} [DecidableEq K] (k : K)
    (l : List (K × V)) : dget k l = none ↔ k ∉ l.map Prod.fst := by
  induction l with
  | nil => simp [dget]
  | cons p rest ih =>
    by_cases hp : p.1 = k
    · simp [dget, hp]
    · simp [dget, hp, ih, Ne.symm hp]

/-- A successful lookup comes from a stored pair. -/
theorem dget_mem {K V : Type} [DecidableEq K] {k : K} {v : V}
    {l : List (K × V)} (h : dget k l = some v) : (k, v) ∈ l := by
  induction l with
  | nil => simp [dget] at h
  | cons p rest ih =>
    by_cases hp : p.1 = k
    · rw [dget, if_pos hp] at h
      obtain ⟨p1, p2⟩ := p
      cases hp
      cases h
      simp
    · rw [dget, if_neg hp] at h
      simp [ih h]

/-- Updating the single trailing binding of a key in place. -/
theorem dset_last {K V : Type} [DecidableEq K] (k : K) (v old : V)
    {l : List (K × V)} (h : dget k l = none) :
    dset k v (l ++ [(k, old)]) = l ++ [(k, v)] := by
  induction l with
  | nil => simp [dset]
  | cons p rest ih =>
    rw [dget] at h
    by_cases hp : p.1 = k
    · simp [hp] at h
    · rw [if_neg hp] at h
      simp [dset, hp, ih h]

/-- Distinct list elements have distinct images when the mapped list has
no duplicates. -/
theorem nodup_map_ne {α β : Type} {f : α → β} {l : List α}
    (h : (l.map f).Nodup) {a b : α} (ha : a ∈ l) (hb : b ∈ l)
    (hne : a ≠ b) : f a ≠ f b := by
  induction l with
  | nil => simp at ha
  | cons p rest ih =>
    rw [List.map_cons, List.nodup_cons] at h
    rcases List.mem_cons.1 ha with ha0 | ha1 <;>
      rcases List.mem_cons.1 hb with hb0 | hb1
    · exact absurd (ha0.trans hb0.symm) hne
    · subst ha0
      intro he
      exact h.1 (he ▸ List.mem_map_of_mem f hb1)
    · subst hb0
      intro he
      exact h.1 (he.symm ▸ List.mem_map_of_mem f ha1)
    · exact ih h.2 ha1 hb1

/-- A lookup that satisfies the filter survives filtering (with unique
keys). -/
theorem dget_filter {K V : Type} [DecidableEq K] (p : K × V → Bool)
    {k : K} {v : V} : ∀ {l : List (K × V)}, (l.map Prod.fst).Nodup →
    dget k l = some v → p (k, v) = true → dget k (l.filter p) = some v := by
  intro l
  induction l with
  | nil => intro _ h; simp [dget] at h
  | cons q rest ih =>
    intro hnd h hp
    rw [List.map_cons, List.nodup_cons] at hnd
    by_cases hq : q.1 = k
    · rw [dget, if_pos hq] at h
      obtain ⟨q1, q2⟩ := q
      cases hq
      cases h
      rw [List.filter_cons, if_pos hp, dget, if_pos rfl]
    · rw [dget, if_neg hq] at h
      rw [List.filter_cons]
      by_cases hpq : p q = true
      · rw [if_pos hpq, dget, if_neg hq]
        exact ih hnd.2 h hp
      · rw [if_neg hpq]
        exact ih hnd.2 h hp

/-- A filtered-out key disappears when its key is unique. -/
theorem dget_filter_none {K V : Type} [DecidableEq K] (p : K × V → Bool)
    {k : K} {v : V} : ∀ {l : List (K × V)}, (l.map Prod.fst).Nodup →
    dget k l = some v → p (k, v) = false → dget k (l.filter p) = none := by
  intro l
  induction l with
  | nil => intro _ h; simp [dget] at h
  | cons q rest ih =>
    intro hnd h hp
    rw [List.map_cons, List.nodup_cons] at hnd
    by_cases hq : q.1 = k
    · rw [dget, if_pos hq] at h
      obtain ⟨q1, q2⟩ := q
      cases hq
      cases h
      rw [List.filter_cons, hp]
      rw [dget_eq_none_iff]
      intro hmem
      obtain ⟨⟨a, b⟩, hab, he⟩ := List.mem_map.1 hmem
      exact hnd.1 (he ▸ List.mem_map_of_mem Prod.fst (List.mem_of_mem_filter hab))
    · rw [dget, if_neg hq] at h
      rw [List.filter_cons]
      by_cases hpq : p q = true
      · rw [if_pos hpq, dget, if_neg hq]
        exact ih hnd.2 h hp
      · rw [if_neg hpq]
        exact ih hnd.2 h hp

/-- The byte image of concatenated record lists. -/
theorem encAll_append (l1 l2 : List (Nat × Bytes × Bytes)) :
    encAll (l1 ++ l2) = encAll l1 ++ encAll l2 := by
  induction l1 with
  | nil => simp [encAll]
  | cons t rest ih =>
    obtain ⟨ts, k, v⟩ := t
    simp [encAll, ih]

/-- A nonempty record list yields at least one full header. -/
theorem encAll_ne_length (tr : List (Nat × Bytes × Bytes)) (h : tr ≠ []) :
    28 ≤ (encAll tr).length := by
  cases tr with
  | nil => exact absurd rfl h
  | cons t rest =>
    obtain ⟨ts, k, v⟩ := t
    simp [encAll, encRec_length]
    omega

/-- The record lists of a built merge directory, flattened in file
order. -/
def flatTr : List (Nat × List (Nat × Bytes × Bytes)) →
    List (Nat × Bytes × Bytes) → List (Nat × Bytes × Bytes)
  | [], atr => atr
  | (_, tr) :: rest, atr => tr ++ flatTr rest atr

theorem flatTr_mem {done : List (Nat × List (Nat × Bytes × Bytes))}
    {atr : List (Nat × Bytes × Bytes)} {t : Nat × Bytes × Bytes} :
    t ∈ flatTr done atr ↔ ((∃ p ∈ done, t ∈ p.2) ∨ t ∈ atr) := by
  induction done with
  | nil => simp [flatTr]
  | cons p rest ih =>
    obtain ⟨st, tr⟩ := p
    simp [flatTr, ih, or_assoc]

theorem flatTr_snoc_atr (done : List (Nat × List (Nat × Bytes × Bytes)))
    (atr : List (Nat × Bytes × Bytes)) (t : Nat × Bytes × Bytes) :
    flatTr done (atr ++ [t]) = flatTr done atr ++ [t] := by
  induction done with
  | nil => simp [flatTr]
  | cons p rest ih =>
    obtain ⟨st, tr⟩ := p
    simp [flatTr, ih]

theorem flatTr_seal (done : List (Nat × List (Nat × Bytes × Bytes)))
    (ast : Nat) (atr tr2 : List (Nat × Bytes × Bytes)) :
    flatTr (done ++ [(ast, atr)]) tr2 = flatTr done atr ++ tr2 := by
  induction done with
  | nil => simp [flatTr]
  | cons p rest ih =>
    obtain ⟨st, tr⟩ := p
    simp [flatTr, ih]

/-- The merge directory image during the replay: the sealed segment
files in creation order, then the active segment file. -/
def mkMfs (done : List (Nat × List (Nat × Bytes × Bytes))) (ast : Nat)
    (atr : List (Nat × Bytes × Bytes)) : DirFS :=
  done.map (fun p => ((p.1, FKind.db), encAll p.2)) ++
    [((ast, FKind.db), encAll atr)]

/-- The merge directory holds no hint files while being built. -/
theorem mkMfs_no_hints (done : List (Nat × List (Nat × Bytes × Bytes)))
    (ast : Nat) (atr : List (Nat × Bytes × Bytes)) (st : Nat) :
    dget (st, FKind.hint) (mkMfs done ast atr) = none := by
  induction done with
  | nil => simp [mkMfs, dget]
  | cons p rest ih =>
    obtain ⟨st0, tr0⟩ := p
    simpa [mkMfs, dget] using ih

/-- Looking up an absent stem in the built merge directory. -/
theorem mkMfs_get_none (done : List (Nat × List (Nat × Bytes × Bytes)))
    (ast : Nat) (atr : List (Nat × Bytes × Bytes)) (st : Nat)
    (hd : ∀ st' ∈ done.map Prod.fst, st ≠ st') (ha : st ≠ ast) :
    dget (st, FKind.db) (mkMfs done ast atr) = none := by
  induction done with
  | nil => simp [mkMfs, dget, Ne.symm ha]
  | cons p rest ih =>
    obtain ⟨st0, tr0⟩ := p
    have h0 : st ≠ st0 := hd st0 (by simp)
    simpa [mkMfs, dget, Ne.symm h0] using ih (fun st' h' => hd st' (by simp [h']))

/-- Looking up the active stem in the built merge directory. -/
theorem mkMfs_get_active (done : List (Nat × List (Nat × Bytes × Bytes)))
    (ast : Nat) (atr : List (Nat × Bytes × Bytes))
    (hd : ∀ st' ∈ done.map Prod.fst, ast ≠ st') :
    dget (ast, FKind.db) (mkMfs done ast atr) = some (encAll atr) := by
  induction done with
  | nil => simp [mkMfs, dget]
  | cons p rest ih =>
    obtain ⟨st0, tr0⟩ := p
    have h0 : ast ≠ st0 := hd st0 (by simp)
    simpa [mkMfs, dget, Ne.symm h0] using ih (fun st' h' => hd st' (by simp [h']))

/-- Looking up a sealed stem in the built merge directory. -/
theorem mkMfs_get_done (done : List (Nat × List (Nat × Bytes × Bytes)))
    (ast : Nat) (atr : List (Nat × Bytes × Bytes))
    (p : Nat × List (Nat × Bytes × Bytes)) (hp : p ∈ done)
    (hnd : (done.map Prod.fst).Nodup) (ha : ∀ st' ∈ done.map Prod.fst, ast ≠ st') :
    dget (p.1, FKind.db) (mkMfs done ast atr) = some (encAll p.2) := by
  induction done with
  | nil => simp at hp
  | cons q rest ih =>
    obtain ⟨st0, tr0⟩ := q
    rw [List.map_cons, List.nodup_cons] at hnd
    rcases List.mem_cons.1 hp with hp0 | hp1
    · subst hp0
      simp [mkMfs, dget]
    · have h0 : p.1 ≠ st0 := by
        intro he
        exact hnd.1 (List.mem_map.mpr ⟨p, hp1, he⟩)
      simpa [mkMfs, dget, Ne.symm h0] using
        ih hp1 hnd.2 (fun st' h' => ha st' (by simp [h']))

/-- Appending a record to the active file of the built merge
directory. -/
theorem mkMfs_append_rec (done : List (Nat × List (Nat × Bytes × Bytes)))
    (ast : Nat) (atr : List (Nat × Bytes × Bytes)) (ts : Nat) (k v : Bytes)
    (ha : ∀ st' ∈ done.map Prod.fst, ast ≠ st') :
    dset (ast, FKind.db) (encAll atr ++ encRec ts k v) (mkMfs done ast atr) =
      mkMfs done ast (atr ++ [(ts, k, v)]) := by
  have hd : dget (ast, FKind.db)
      (done.map (fun p => ((p.1, FKind.db), encAll p.2))) = none := by
    rw [dget_eq_none_iff]
    intro hm
    obtain ⟨q, hq, he⟩ := List.mem_map.1 hm
    obtain ⟨q', hq', he'⟩ := List.mem_map.1 hq
    apply ha q'.1 (List.mem_map_of_mem Prod.fst hq')
    rw [← he'] at he
    exact (congrArg Prod.fst he).symm
  rw [mkMfs, dset_last _ _ _ hd, mkMfs, encAll_append]
  simp [encAll]

/-- Sealing the active file and opening a fresh empty one. -/
theorem mkMfs_seal (done : List (Nat × List (Nat × Bytes × Bytes)))
    (ast c : Nat) (atr : List (Nat × Bytes × Bytes))
    (hc : ∀ st' ∈ done.map Prod.fst ++ [ast], st' ≠ c) :
    dset (c, FKind.db) [] (mkMfs done ast atr) =
      mkMfs (done ++ [(ast, atr)]) c [] := by
  have hd : dget (c, FKind.db) (mkMfs done ast atr) = none :=
    mkMfs_get_none done ast atr c
      (fun st' h' => (hc st' (by simp [h'])).symm)
      ((hc ast (by simp)).symm)
  rw [dset_absent _ hd, mkMfs, mkMfs]
  simp [encAll]

/-- The value of a record inside a larger file image, with a suffix. -/
theorem drop_encRec_suffix (pre : Bytes) (ts : Nat) (k v suf : Bytes) :
    (pre ++ encRec ts k v ++ suf).drop (pre.length + 28 + k.length) =
      v ++ suf := by
  have h : pre ++ encRec ts k v ++ suf =
      (pre ++ (beBytes 4 (crc32 v (crc32 k (crc32 (beBytes 16 ts ++ beBytes 4 k.length ++ beBytes 4 v.length)))) ++
        (beBytes 16 ts ++ beBytes 4 k.length ++ beBytes 4 v.length) ++ k)) ++ (v ++ suf) := by
    simp [encRec]
  rw [h]
  exact drop_len_append _ _ (by simp [length_beBytes]; omega)

/-- The keys recorded by `entriesAt`, in record order. -/
theorem entriesAt_map_fst (st : Nat) :
    ∀ (tr : List (Nat × Bytes × Bytes)) (L : Nat),
    (entriesAt st L tr).map Prod.fst = tr.map (fun t => t.2.1) := by
  intro tr
  induction tr with
  | nil => intro L; simp [entriesAt]
  | cons t rest ih =>
    intro L
    obtain ⟨ts, k, v⟩ := t
    simp [entriesAt, ih]

/-- Finding a record's key in the scan result of its file, together with
the positioned read of its value. -/
theorem entriesAt_lookup (st : Nat) :
    ∀ (tr : List (Nat × Bytes × Bytes)) (pre : Bytes) (ts : Nat) (k v : Bytes),
    (ts, k, v) ∈ tr → (tr.map (fun t => t.2.1)).Nodup →
    ∃ pos, dget k (entriesAt st pre.length tr) =
        some ⟨ts, false, st, ⟨ts, k.length, v.length, pos, k⟩⟩ ∧
      padRead (pre ++ encAll tr) pos v.length = v := by
  intro tr
  induction tr with
  | nil => intro pre ts k v hm; simp at hm
  | cons t rest ih =>
    intro pre ts k v hm hnd
    obtain ⟨ts0, k0, v0⟩ := t
    rw [List.map_cons, List.nodup_cons] at hnd
    rcases List.mem_cons.1 hm with hm0 | hm1
    · injection hm0 with h1 h2
      injection h2 with h2 h3
      subst h1; subst h2; subst h3
      refine ⟨pre.length + 28 + k.length, ?_, ?_⟩
      · rw [entriesAt, dget, if_pos rfl]
      · refine @padRead_of_drop (pre ++ encAll ((ts, k, v) :: rest))
          (pre.length + 28 + k.length) v (encAll rest) ?_
        have := drop_encRec_suffix pre ts k v (encAll rest)
        rw [show pre ++ encRec ts k v ++ encAll rest =
          pre ++ (encRec ts k v ++ encAll rest) from by simp] at this
        simpa [encAll] using this
    · have hkne : k ≠ k0 := by
        intro he
        exact hnd.1 (he ▸ List.mem_map.mpr ⟨(ts, k, v), hm1, rfl⟩)
      have hpre : pre.length + (28 + k0.length + v0.length) =
          (pre ++ encRec ts0 k0 v0).length := by
        simp [encRec_length]
      obtain ⟨pos, hget, hread⟩ :=
        ih (pre ++ encRec ts0 k0 v0) ts k v hm1 hnd.2
      refine ⟨pos, ?_, ?_⟩
      · rw [entriesAt, dget, if_neg (by simpa using Ne.symm hkne), hpre]
        exact hget
      · rw [show pre ++ encAll ((ts0, k0, v0) :: rest) =
          (pre ++ encRec ts0 k0 v0) ++ encAll rest from by simp [encAll]]
        exact hread

/-- The scan results of the sealed merge files, concatenated in
directory order. -/
def blocksOf : List (Nat × List (Nat × Bytes × Bytes)) →
    List (Bytes × KeyState)
  | [] => []
  | (st, tr) :: rest => entriesAt st 0 tr ++ blocksOf rest

theorem blocksOf_map_fst (done : List (Nat × List (Nat × Bytes × Bytes))) :
    (blocksOf done).map Prod.fst =
      (flatTr done []).map (fun t => t.2.1) := by
  induction done with
  | nil => simp [blocksOf, flatTr]
  | cons p rest ih =>
    obtain ⟨st, tr⟩ := p
    simp [blocksOf, flatTr, entriesAt_map_fst, ih]

/-- One step of the grouping loop of `_read_hints`. -/
def gstep (acc : List (Nat × List Hint)) (kv : Bytes × KeyState) :
    List (Nat × List Hint) :=
  if kv.2.deleted then acc
  else
    match dget kv.2.file_id acc with
    | none => acc ++ [(kv.2.file_id, [kv.2.hint])]
    | some hs => dset kv.2.file_id (hs ++ [kv.2.hint]) acc

theorem groupHints_eq_foldl (keys : List (Bytes × KeyState)) :
    groupHints keys = keys.foldl gstep [] := rfl

/-- Every scan entry of one file is live and names that file's stem. -/
theorem entriesAt_fields (st : Nat) :
    ∀ (tr : List (Nat × Bytes × Bytes)) (L : Nat),
    ∀ e ∈ entriesAt st L tr, e.2.deleted = false ∧ e.2.file_id = st := by
  intro tr
  induction tr with
  | nil => intro L e he; simp [entriesAt] at he
  | cons t rest ih =>
    intro L e he
    obtain ⟨ts, k, v⟩ := t
    rw [entriesAt] at he
    rcases List.mem_cons.1 he with he0 | he1
    · subst he0; exact ⟨rfl, rfl⟩
    · exact ih _ e he1

/-- The grouping loop keeps appending to an existing trailing group. -/
theorem gstep_block_more (st : Nat) :
    ∀ (block : List (Bytes × KeyState)) (pre : List (Nat × List Hint))
      (hs : List Hint),
    (∀ e ∈ block, e.2.deleted = false ∧ e.2.file_id = st) →
    dget st pre = none →
    block.foldl gstep (pre ++ [(st, hs)]) =
      pre ++ [(st, hs ++ block.map (fun e => e.2.hint))] := by
  intro block
  induction block with
  | nil => intro pre hs _ _; simp
  | cons e btail ih =>
    intro pre hs hwf hfresh
    obtain ⟨hdel, hfid⟩ := hwf e (by simp)
    rw [List.foldl_cons]
    rw [show gstep (pre ++ [(st, hs)]) e =
        pre ++ [(st, hs ++ [e.2.hint])] from by
      rw [gstep, if_neg (by simp [hdel]), hfid,
        dget_append_right _ hfresh]
      simp only [dget, if_pos rfl]
      exact dset_last st _ _ hfresh]
    rw [ih pre _ (fun e' he' => hwf e' (by simp [he'])) hfresh]
    simp

/-- The grouping loop turns one file's scan block into one group. -/
theorem gstep_block (st : Nat) (e : Bytes × KeyState)
    (btail : List (Bytes × KeyState)) (acc : List (Nat × List Hint))
    (hwf : ∀ x ∈ e :: btail, x.2.deleted = false ∧ x.2.file_id = st)
    (hfresh : dget st acc = none) :
    (e :: btail).foldl gstep acc =
      acc ++ [(st, (e :: btail).map (fun x => x.2.hint))] := by
  obtain ⟨hdel, hfid⟩ := hwf e (by simp)
  rw [List.foldl_cons]
  rw [show gstep acc e = acc ++ [(st, [e.2.hint])] from by
    rw [gstep, if_neg (by simp [hdel]), hfid, hfresh]]
  rw [gstep_block_more st btail acc _ (fun e' he' => hwf e' (by simp [he'])) hfresh]
  simp

/-- The grouping loop over the concatenated scan blocks of the sealed
merge files produces one group per file, in file order. -/
theorem gstep_blocks :
    ∀ (done : List (Nat × List (Nat × Bytes × Bytes)))
      (acc : List (Nat × List Hint)),
    (∀ p ∈ done, p.2 ≠ []) →
    (∀ p ∈ done, dget p.1 acc = none) →
    (done.map Prod.fst).Nodup →
    (blocksOf done).foldl gstep acc =
      acc ++ done.map
        (fun p => (p.1, (entriesAt p.1 0 p.2).map (fun e => e.2.hint))) := by
  intro done
  induction done with
  | nil => intro acc _ _ _; simp [blocksOf]
  | cons p rest ih =>
    intro acc hne hfresh hnd
    obtain ⟨st, tr⟩ := p
    rw [List.map_cons, List.nodup_cons] at hnd
    rw [blocksOf, List.foldl_append]
    cases tr with
    | nil => exact absurd rfl (hne (st, []) (by simp))
    | cons t tr' =>
      obtain ⟨ts, k, v⟩ := t
      rw [show entriesAt st 0 ((ts, k, v) :: tr') =
          (k, ⟨ts, false, st, ⟨ts, k.length, v.length, 0 + 28 + k.length, k⟩⟩) ::
            entriesAt st (0 + (28 + k.length + v.length)) tr' from rfl]
      rw [gstep_block st _ _ acc
        (by
          intro x hx
          exact entriesAt_fields st ((ts, k, v) :: tr') 0 x hx)
        (hfresh (st, (ts, k, v) :: tr') (by simp))]
      rw [ih (acc ++ [(st, _)])
        (fun q hq => hne q (by simp [hq]))
        (by
          intro q hq
          have hqs : q.1 ≠ st := by
            intro he
            exact hnd.1 (he ▸ List.mem_map.mpr ⟨q, hq, rfl⟩)
          rw [dget_append_right _ (hfresh q (by simp [hq]))]
          simp [dget, Ne.symm hqs])
        hnd.2]
      simp [entriesAt]

/-- Recovery's file loop over the built merge directory: each sealed
file's scan appends that file's entries; the empty active file is
skipped. -/
theorem readHintsList_mfs (fsAll : DirFS) :
    ∀ (rest : List (Nat × List (Nat × Bytes × Bytes)))
      (keys : List (Bytes × KeyState)) (astF : Nat),
    (∀ p ∈ rest, dget (p.1, FKind.db) fsAll = some (encAll p.2) ∧ p.2 ≠ []) →
    dget (astF, FKind.db) fsAll = some [] →
    (∀ st, dget (st, FKind.hint) fsAll = none) →
    (∀ p ∈ rest, ∀ t ∈ p.2, t.1 < 2 ^ 128 ∧ t.2.1.length < 2 ^ 32 ∧
      0 < t.2.2.length ∧ t.2.2.length < 2 ^ 32) →
    (∀ p ∈ rest, ∀ t ∈ p.2, dget t.2.1 keys = none) →
    ((flatTr rest []).map (fun t => t.2.1)).Nodup →
    readHintsList fsAll
        (rest.map (fun p => (p.1, FKind.db)) ++ [(astF, FKind.db)]) keys =
      .ok (keys ++ blocksOf rest) := by
  intro rest
  induction rest with
  | nil =>
    intro keys astF hfiles hact hnoh _ _ _
    rw [List.map_nil, List.nil_append, readHintsList, if_pos rfl,
      readOneFile, hnoh astF]
    simp only []
    rw [readOneData, hact]
    simp only []
    rw [if_neg (by simp)]
    simp [readHintsList, blocksOf]
  | cons p rest' ih =>
    intro keys astF hfiles hact hnoh hwf hnew hnd
    obtain ⟨st, tr⟩ := p
    obtain ⟨hf, htr⟩ := hfiles (st, tr) (by simp)
    rw [show flatTr ((st, tr) :: rest') [] = tr ++ flatTr rest' [] from rfl,
      List.map_append, List.nodup_append] at hnd
    obtain ⟨hnd1, hnd2, hdisj⟩ := hnd
    rw [List.map_cons, List.cons_append, readHintsList, if_pos rfl,
      readOneFile, hnoh st]
    simp only []
    rw [readOneData, hf]
    simp only []
    rw [if_pos (encAll_ne_length tr htr), readDataLoop]
    have hscan := readDataGo_encAll st tr [] keys ((encAll tr).length + 1)
      (by have := length_le_encAll tr; omega)
      (fun t ht => hwf (st, tr) (by simp) t ht)
      (fun t ht => hnew (st, tr) (by simp) t ht)
      hnd1
    simp only [List.nil_append, List.length_nil] at hscan
    rw [hscan]
    simp only []
    rw [ih (keys ++ entriesAt st 0 tr) astF
      (fun q hq => hfiles q (by simp [hq])) hact hnoh
      (fun q hq t ht => hwf q (by simp [hq]) t ht)
      (by
        intro q hq t ht
        rw [dget_append_right _ (hnew q (by simp [hq]) t ht),
          dget_eq_none_iff, entriesAt_map_fst]
        intro hmem
        refine hdisj hmem ?_
        refine List.mem_map.mpr ⟨t, ?_, rfl⟩
        rw [flatTr_mem]
        exact Or.inl ⟨q, hq, ht⟩)
      hnd2]
    rw [blocksOf]
    simp

/-- The keydir after `_open_with_hints` installs every group's hints. -/
def owhKeys : List (Nat × List Hint) → List (Bytes × KeyRec) →
    List (Bytes × KeyRec)
  | [], kd => kd
  | g :: rest, kd =>
    owhKeys rest
      (g.2.foldl
        (fun kd h => dset h.key ⟨stemFid g.1, h.value_sz, h.value_pos, h.tstamp⟩ kd)
        kd)

/-- The datadir after `_open_with_hints` registers one fresh handle per
group. -/
def owhData (h0 : Nat) : List (Nat × List Hint) → List (Nat × Nat) →
    List (Nat × Nat)
  | [], dd => dd
  | g :: rest, dd => owhData (h0 + 1) rest (dset (stemFid g.1) h0 dd)

/-- The handle heap after `_open_with_hints` opens each group's data
file read-only. -/
def owhHandles (d : Nat) (h0 : Nat) : List (Nat × List Hint) →
    List (Nat × HandleObj) → List (Nat × HandleObj)
  | [], hs => hs
  | g :: rest, hs =>
    owhHandles d (h0 + 1) rest (dset h0 ⟨.disk d g.1 false, false⟩ hs)

/-- Evaluation of `_open_with_hints` when every group's data file
exists. -/
theorem openWithHints_spec (d : Nat) :
    ∀ (groups : List (Nat × List Hint)) (s : Cask) (w : World),
    s.dirname = some (some d) →
    (∀ g ∈ groups, (readFile w d (g.1, FKind.db)).isSome) →
    openWithHints s w groups = .ok
      ({ s with keydir := owhKeys groups s.keydir,
                datadir := owhData w.hnext groups s.datadir },
       { w with handles := owhHandles d w.hnext groups w.handles,
                hnext := w.hnext + groups.length }) := by
  intro groups
  induction groups with
  | nil => intro s w hdir _; simp [openWithHints, owhKeys, owhData, owhHandles]
  | cons g rest ih =>
    intro s w hdir hfiles
    obtain ⟨st, hints⟩ := g
    obtain ⟨bs, hbs⟩ := Option.isSome_iff_exists.1 (hfiles (st, hints) (by simp))
    rw [openWithHints, hdir]
    simp only []
    rw [hbs]
    simp only [newHandle]
    rw [ih _ _ rfl (by
      intro g' hg'
      simpa [readFile, getDir] using hfiles g' (by simp [hg']))]
    rw [owhKeys, owhData, owhHandles]
    simp only [List.length_cons]
    rw [show w.hnext + (rest.length + 1) = w.hnext + 1 + rest.length from by omega]

/-- Folding one group's hints leaves other keys' bindings alone. -/
theorem foldl_hint_other (fid : Nat) (k : Bytes) :
    ∀ (hints : List Hint) (kd : List (Bytes × KeyRec)),
    (∀ h ∈ hints, h.key ≠ k) →
    dget k (hints.foldl
      (fun kd h => dset h.key ⟨fid, h.value_sz, h.value_pos, h.tstamp⟩ kd)
      kd) = dget k kd := by
  intro hints
  induction hints with
  | nil => intro kd _; rfl
  | cons h hrest ih =>
    intro kd hne
    rw [List.foldl_cons, ih _ (fun h' hh' => hne h' (by simp [hh'])),
      dget_dset_ne _ _ (Ne.symm (hne h (by simp)))]

/-- Keys not named by any hint keep their keydir binding. -/
theorem owhKeys_other (k : Bytes) :
    ∀ (groups : List (Nat × List Hint)) (kd : List (Bytes × KeyRec)),
    (∀ g ∈ groups, ∀ h ∈ g.2, h.key ≠ k) →
    dget k (owhKeys groups kd) = dget k kd := by
  intro groups
  induction groups with
  | nil => intro kd _; rfl
  | cons g rest ih =>
    intro kd hne
    rw [owhKeys, ih _ (fun g' hg' => hne g' (by simp [hg'])),
      foldl_hint_other _ _ _ _ (fun h hh => hne g (by simp) h hh)]

/-- The hint keys of a group list, in installation order. -/
def hintKeysOf (groups : List (Nat × List Hint)) : List Bytes :=
  groups.foldr (fun g acc => g.2.map (fun h => h.key) ++ acc) []

theorem mem_hintKeysOf {groups : List (Nat × List Hint)} {g : Nat × List Hint}
    {h : Hint} (hg : g ∈ groups) (hh : h ∈ g.2) : h.key ∈ hintKeysOf groups := by
  induction groups with
  | nil => simp at hg
  | cons g0 rest ih =>
    rw [hintKeysOf, List.foldr_cons, List.mem_append]
    rcases List.mem_cons.1 hg with hg0 | hg1
    · subst hg0
      exact Or.inl (List.mem_map.mpr ⟨h, hh, rfl⟩)
    · exact Or.inr (ih hg1)

/-- Folding one group's hints binds each of its (uniquely named) keys to
that hint's record. -/
theorem foldl_hint_hit (fid : Nat) :
    ∀ (hints : List Hint) (kd : List (Bytes × KeyRec)) (h : Hint),
    h ∈ hints → (hints.map (fun h' => h'.key)).Nodup →
    dget h.key (hints.foldl
      (fun kd h' => dset h'.key ⟨fid, h'.value_sz, h'.value_pos, h'.tstamp⟩ kd)
      kd) = some ⟨fid, h.value_sz, h.value_pos, h.tstamp⟩ := by
  intro hints
  induction hints with
  | nil => intro kd h hm; simp at hm
  | cons h0 hrest ih =>
    intro kd h hm hnd
    rw [List.map_cons, List.nodup_cons] at hnd
    rw [List.foldl_cons]
    rcases List.mem_cons.1 hm with hm0 | hm1
    · subst hm0
      rw [foldl_hint_other fid h.key hrest _
        (fun h' hh' he => hnd.1 (List.mem_map.mpr ⟨h', hh', he⟩)),
        dget_dset_self]
    · exact ih _ h hm1 hnd.2

/-- A hint's key, unique across all groups, ends bound to that hint's
record in that group's file. -/
theorem owhKeys_hit :
    ∀ (groups : List (Nat × List Hint)) (kd : List (Bytes × KeyRec))
      (g : Nat × List Hint) (h : Hint),
    g ∈ groups → h ∈ g.2 → (hintKeysOf groups).Nodup →
    dget h.key (owhKeys groups kd) =
      some ⟨stemFid g.1, h.value_sz, h.value_pos, h.tstamp⟩ := by
  intro groups
  induction groups with
  | nil => intro kd g h hg; simp at hg
  | cons g0 rest ih =>
    intro kd g h hg hh hnd
    rw [hintKeysOf, List.foldr_cons, List.nodup_append] at hnd
    obtain ⟨hnd1, hnd2, hdisj⟩ := hnd
    rcases List.mem_cons.1 hg with hg0 | hg1
    · subst hg0
      rw [owhKeys,
        owhKeys_other h.key rest _ (by
          intro g' hg' h' hh' he
          refine hdisj (List.mem_map.mpr ⟨h, hh, rfl⟩) ?_
          rw [← he]
          exact mem_hintKeysOf hg' hh'),
        foldl_hint_hit _ _ _ _ hh hnd1]
    · exact ih _ g h hg1 hh hnd2

/-- File ids other than the fresh segments' keep their datadir binding. -/
theorem owhData_other (fid : Nat) :
    ∀ (groups : List (Nat × List Hint)) (h0 : Nat) (dd : List (Nat × Nat)),
    (∀ g ∈ groups, stemFid g.1 ≠ fid) →
    dget fid (owhData h0 groups dd) = dget fid dd := by
  intro groups
  induction groups with
  | nil => intro h0 dd _; rfl
  | cons g rest ih =>
    intro h0 dd hne
    rw [owhData, ih _ _ (fun g' hg' => hne g' (by simp [hg'])),
      dget_dset_ne _ _ (Ne.symm (hne g (by simp)))]

/-- Handle ids below the allocation floor keep their heap binding. -/
theorem owhHandles_lt (d : Nat) :
    ∀ (groups : List (Nat × List Hint)) (h0 hid : Nat)
      (hs : List (Nat × HandleObj)), hid < h0 →
    dget hid (owhHandles d h0 groups hs) = dget hid hs := by
  intro groups
  induction groups with
  | nil => intro h0 hid hs _; rfl
  | cons g rest ih =>
    intro h0 hid hs hlt
    rw [owhHandles, ih _ _ _ (by omega),
      dget_dset_ne _ _ (by omega)]

/-- Each fresh segment's file id resolves to its own freshly opened
read-only handle. -/
theorem owhData_hit (d : Nat) :
    ∀ (groups : List (Nat × List Hint)) (h0 : Nat) (dd : List (Nat × Nat))
      (g : Nat × List Hint), g ∈ groups →
    (groups.map (fun x => stemFid x.1)).Nodup →
    ∃ j, dget (stemFid g.1) (owhData h0 groups dd) = some (h0 + j) ∧
      ∀ hs : List (Nat × HandleObj),
        dget (h0 + j) (owhHandles d h0 groups hs) =
          some ⟨.disk d g.1 false, false⟩ := by
  intro groups
  induction groups with
  | nil => intro h0 dd g hg; simp at hg
  | cons g0 rest ih =>
    intro h0 dd g hg hnd
    rw [List.map_cons, List.nodup_cons] at hnd
    rcases List.mem_cons.1 hg with hg0 | hg1
    · subst hg0
      refine ⟨0, ?_, ?_⟩
      · rw [owhData,
          owhData_other _ rest _ _ (by
            intro g' hg' he
            exact hnd.1 (he ▸ List.mem_map.mpr ⟨g', hg', rfl⟩)),
          Nat.add_zero, dget_dset_self]
      · intro hs
        rw [owhHandles, owhHandles_lt d rest _ _ _ (by omega),
          Nat.add_zero, dget_dset_self]
    · obtain ⟨j, hdata, hhand⟩ := ih (h0 + 1) (dset (stemFid g0.1) h0 dd) g hg1 hnd.2
      refine ⟨j + 1, ?_, ?_⟩
      · rw [owhData, show h0 + (j + 1) = h0 + 1 + j from by omega]
        exact hdata
      · intro hs
        rw [owhHandles, show h0 + (j + 1) = h0 + 1 + j from by omega]
        exact hhand _

/-- `open(..., "a+b")` of a possibly missing file only touches the named
directory. -/
theorem touchFile_stable (md : Nat) (w : World) (nm : FName) :
    (touchFile w md nm).handles = w.handles ∧
    (touchFile w md nm).clock = w.clock ∧
    (touchFile w md nm).hnext = w.hnext ∧
    (touchFile w md nm).dnext = w.dnext ∧
    ∀ d', d' ≠ md → dget d' (touchFile w md nm).dirs = dget d' w.dirs := by
  rw [touchFile]
  cases hr : readFile w md nm
  · rw [setFile]
    cases hg : getDir w md
    · exact ⟨rfl, rfl, rfl, rfl, fun _ _ => rfl⟩
    · exact ⟨rfl, rfl, rfl, rfl, fun d' hd' => dget_dset_ne _ _ hd'⟩
  · exact ⟨rfl, rfl, rfl, rfl, fun _ _ => rfl⟩

/-- Overwriting a file only touches the named directory. -/
theorem setFile_stable (md : Nat) (w : World) (nm : FName) (bs : Bytes) :
    (setFile w md nm bs).handles = w.handles ∧
    (setFile w md nm bs).clock = w.clock ∧
    (setFile w md nm bs).hnext = w.hnext ∧
    (setFile w md nm bs).dnext = w.dnext ∧
    ∀ d', d' ≠ md → dget d' (setFile w md nm bs).dirs = dget d' w.dirs := by
  rw [setFile]
  cases hg : getDir w md
  · exact ⟨rfl, rfl, rfl, rfl, fun _ _ => rfl⟩
  · exact ⟨rfl, rfl, rfl, rfl, fun d' hd' => dget_dset_ne _ _ hd'⟩

/-- Writing the hint files only touches the merge directory; the heap,
the generators and every other directory are unchanged. -/
theorem writeHintFiles_stable (md : Nat) :
    ∀ (groups : List (Nat × List Hint)) (w : World),
    (writeHintFiles w md groups).handles = w.handles ∧
    (writeHintFiles w md groups).clock = w.clock ∧
    (writeHintFiles w md groups).hnext = w.hnext ∧
    (writeHintFiles w md groups).dnext = w.dnext ∧
    ∀ d', d' ≠ md → dget d' (writeHintFiles w md groups).dirs = dget d' w.dirs := by
  intro groups
  induction groups with
  | nil => intro w; exact ⟨rfl, rfl, rfl, rfl, fun _ _ => rfl⟩
  | cons g rest ih =>
    intro w
    obtain ⟨st, hints⟩ := g
    simp only [writeHintFiles]
    obtain ⟨t1, t2, t3, t4, t5⟩ := touchFile_stable md w (st, FKind.hint)
    cases hr : readFile (touchFile w md (st, FKind.hint)) md (st, FKind.hint) with
    | none =>
      obtain ⟨i1, i2, i3, i4, i5⟩ := ih (touchFile w md (st, FKind.hint))
      exact ⟨i1.trans t1, i2.trans t2, i3.trans t3, i4.trans t4,
        fun d' hd' => (i5 d' hd').trans (t5 d' hd')⟩
    | some buf =>
      obtain ⟨s1, s2, s3, s4, s5⟩ :=
        setFile_stable md (touchFile w md (st, FKind.hint)) (st, FKind.hint)
          (buf ++ (hints.map encodeHint).foldl (· ++ ·) [])
      obtain ⟨i1, i2, i3, i4, i5⟩ :=
        ih (setFile (touchFile w md (st, FKind.hint)) md (st, FKind.hint)
          (buf ++ (hints.map encodeHint).foldl (· ++ ·) []))
      exact ⟨i1.trans (s1.trans t1), i2.trans (s2.trans t2),
        i3.trans (s3.trans t3), i4.trans (s4.trans t4),
        fun d' hd' => ((i5 d' hd').trans (s5 d' hd')).trans (t5 d' hd')⟩

/-- The bytes `merge()` writes into one stem's hint file. -/
def hintImage (g : Nat × List Hint) : Bytes :=
  (g.2.map encodeHint).foldl (· ++ ·) []

/-- Writing the hint files appends one `.hint` file per group to the
merge directory. -/
theorem writeHintFiles_dir (md : Nat) :
    ∀ (groups : List (Nat × List Hint)) (w : World) (fs : DirFS),
    getDir w md = some fs →
    (∀ g ∈ groups, dget (g.1, FKind.hint) fs = none) →
    (groups.map Prod.fst).Nodup →
    getDir (writeHintFiles w md groups) md =
      some (fs ++ groups.map (fun g => ((g.1, FKind.hint), hintImage g))) := by
  intro groups
  induction groups with
  | nil => intro w fs hfs _ _; simpa [writeHintFiles] using hfs
  | cons g rest ih =>
    intro w fs hfs habs hnd
    obtain ⟨st, hints⟩ := g
    rw [List.map_cons, List.nodup_cons] at hnd
    have habs' : dget (st, FKind.hint) fs = none := habs (st, hints) (by simp)
    simp only [writeHintFiles]
    have ht : touchFile w md (st, FKind.hint) =
        setFile w md (st, FKind.hint) [] := by
      rw [touchFile, readFile, hfs]
      simp only [Option.bind]
      rw [habs']
    have hset : getDir (setFile w md (st, FKind.hint) []) md =
        some (fs ++ [((st, FKind.hint), [])]) := by
      rw [setFile, hfs]
      simp only [getDir]
      rw [dget_dset_self, dset_absent _ habs']
    rw [ht]
    rw [show readFile (setFile w md (st, FKind.hint) []) md (st, FKind.hint) =
        some [] from by
      rw [readFile, hset]
      simp only [Option.bind]
      rw [dget_append_right _ habs']
      simp [dget]]
    have hset2 : getDir (setFile (setFile w md (st, FKind.hint) []) md
        (st, FKind.hint) ([] ++ (hints.map encodeHint).foldl (· ++ ·) [])) md =
        some (fs ++ [((st, FKind.hint), hintImage (st, hints))]) := by
      rw [setFile, hset]
      simp only [getDir]
      rw [dget_dset_self, dset_last _ _ _ habs']
      simp [hintImage]
    rw [ih _ _ hset2
      (by
        intro g' hg'
        rw [dget_append_right _ (habs g' (by simp [hg']))]
        have : g'.1 ≠ st := by
          intro he
          exact hnd.1 (he ▸ List.mem_map.mpr ⟨g', hg', rfl⟩)
        simp [dget, Ne.symm this])
      hnd.2]
    simp

/-- Moving the merge output into the data directory appends those files
there; nothing else changes. -/
theorem moveFiles_spec (d : Nat) :
    ∀ (lst : List (FName × Bytes)) (w : World) (cur : DirFS),
    getDir w d = some cur →
    (∀ nm ∈ lst.map Prod.fst, dget nm cur = none) →
    (lst.map Prod.fst).Nodup →
    getDir (moveFiles w d lst) d = some (cur ++ lst) ∧
    (moveFiles w d lst).handles = w.handles ∧
    (moveFiles w d lst).clock = w.clock ∧
    (moveFiles w d lst).hnext = w.hnext ∧
    ∀ d', d' ≠ d → dget d' (moveFiles w d lst).dirs = dget d' w.dirs := by
  intro lst
  induction lst with
  | nil =>
    intro w cur hcur _ _
    exact ⟨by simpa [moveFiles] using hcur, rfl, rfl, rfl, fun _ _ => rfl⟩
  | cons p rest ih =>
    intro w cur hcur habs hnd
    obtain ⟨nm, bs⟩ := p
    rw [List.map_cons, List.nodup_cons] at hnd
    rw [moveFiles]
    have hset : getDir (setFile w d nm bs) d = some (cur ++ [(nm, bs)]) := by
      rw [setFile, hcur]
      simp only [getDir]
      rw [dget_dset_self, dset_absent _ (habs nm (by simp))]
    obtain ⟨i1, i2, i3, i4, i5⟩ := ih (setFile w d nm bs) (cur ++ [(nm, bs)]) hset
      (by
        intro nm' hnm'
        rw [dget_append_right _ (habs nm' (by simp [hnm']))]
        have : nm' ≠ nm := by
          intro he
          exact hnd.1 (he ▸ hnm')
        simp [dget, Ne.symm this])
      hnd.2
    have hsf : ∀ d', d' ≠ d → dget d' (setFile w d nm bs).dirs = dget d' w.dirs := by
      intro d' hd'
      rw [setFile]
      cases getDir w d
      · rfl
      · exact dget_dset_ne _ _ hd'
    have hsh : (setFile w d nm bs).handles = w.handles ∧
        (setFile w d nm bs).clock = w.clock ∧
        (setFile w d nm bs).hnext = w.hnext := by
      rw [setFile]
      cases getDir w d
      · exact ⟨rfl, rfl, rfl⟩
      · exact ⟨rfl, rfl, rfl⟩
    refine ⟨by simpa using i1, i2.trans hsh.1, i3.trans hsh.2.1, i4.trans hsh.2.2,
      fun d' hd' => (i5 d' hd').trans (hsf d' hd')⟩

/-- The datadir sweep of `merge()`: it keeps exactly the active entries,
closes every sealed segment's handle and deletes its file, and leaves
every other file, directory and handle alone. -/
theorem dropFiles_spec (d : Nat) (act : Option Nat) (stemOf : Nat → Nat)
    (wmOf : Nat → Bool) :
    ∀ (dd : List (Nat × Nat)) (w : World),
    (∀ q ∈ dd, ¬(some q.1 = act) →
      dget q.2 w.handles = some ⟨.disk d (stemOf q.1) (wmOf q.1), false⟩ ∧
      (readFile w d (stemOf q.1, FKind.db)).isSome) →
    (dd.map Prod.snd).Nodup →
    (dd.map (fun q => stemOf q.1)).Nodup →
    ∃ w', dropFiles act w dd = .ok (dd.filter (fun q => some q.1 == act), w') ∧
      (∀ nm : FName, (∀ q ∈ dd, ¬(some q.1 = act) → nm.1 ≠ stemOf q.1) →
        readFile w' d nm = readFile w d nm) ∧
      (∀ d', d' ≠ d → dget d' w'.dirs = dget d' w.dirs) ∧
      (∀ hid, (∀ q ∈ dd, ¬(some q.1 = act) → hid ≠ q.2) →
        dget hid w'.handles = dget hid w.handles) ∧
      w'.clock = w.clock ∧ w'.hnext = w.hnext ∧ w'.dnext = w.dnext := by
  intro dd
  induction dd with
  | nil =>
    intro w _ _ _
    exact ⟨w, rfl, fun _ _ => rfl, fun _ _ => rfl, fun _ _ => rfl, rfl, rfl, rfl⟩
  | cons q rest ih =>
    intro w hq hnh hns
    obtain ⟨fid, hid⟩ := q
    rw [List.map_cons, List.nodup_cons] at hnh
    rw [List.map_cons, List.nodup_cons] at hns
    by_cases hact : some fid = act
    · obtain ⟨w', h1, h2, h3, h4, h5, h6, h7⟩ := ih w
        (fun q' hq' hs => hq q' (by simp [hq']) hs) hnh.2 hns.2
      refine ⟨w', ?_, ?_, h3, ?_, h5, h6, h7⟩
      · rw [dropFiles, if_pos hact, h1]
        simp [List.filter_cons, hact]
      · intro nm hnm
        exact h2 nm (fun q' hq' hs => hnm q' (by simp [hq']) hs)
      · intro hid' hnm
        exact h4 hid' (fun q' hq' hs => hnm q' (by simp [hq']) hs)
    · obtain ⟨hh, hrf⟩ := hq (fid, hid) (by simp) hact
      obtain ⟨bs, hbs⟩ := Option.isSome_iff_exists.1 hrf
      have hfs : ∃ fs, getDir w d = some fs ∧
          dget (stemOf fid, FKind.db) fs = some bs := by
        rw [readFile] at hbs
        cases hgd : getDir w d
        · rw [hgd] at hbs; cases hbs
        · rw [hgd] at hbs
          exact ⟨_, rfl, hbs⟩
      obtain ⟨fs, hgd, hdf⟩ := hfs
      rw [dropFiles, if_neg hact, hh]
      simp only []
      set w1 : World := { w with handles := dset hid ⟨.disk d (stemOf fid) (wmOf fid), true⟩ w.handles } with hw1d
      have hw1 : closeHandle w hid = w1 := by
        rw [closeHandle, hh, hw1d]
      rw [hw1]
      rw [show readFile w1 d (stemOf fid, FKind.db) = some bs from by
        rw [hw1d, readFile, getDir]
        simp only []
        rw [show dget d w.dirs = some fs from hgd]
        exact hdf]
      simp only []
      set w2 : World := { w1 with dirs := dset d (ddel (stemOf fid, FKind.db) fs) w.dirs } with hw2
      have hrm : removeFile w1 d (stemOf fid, FKind.db) = w2 := by
        rw [removeFile, getDir, hw1d]
        simp only []
        rw [show dget d w.dirs = some fs from hgd, hw2, hw1d]
      rw [hrm]
      have hread2 : ∀ nm : FName, nm.1 ≠ stemOf fid →
          readFile w2 d nm = readFile w d nm := by
        intro nm hnm
        rw [readFile, readFile, getDir, getDir, hw2]
        simp only []
        rw [dget_dset_self, show dget d w.dirs = some fs from hgd]
        simp only [Option.bind]
        rw [dget_ddel _ (by
          intro he
          exact hnm (by rw [he]))]
      obtain ⟨w', h1, h2, h3, h4, h5, h6, h7⟩ := ih w2
        (by
          intro q' hq' hs
          obtain ⟨hh', hrf'⟩ := hq q' (by simp [hq']) hs
          constructor
          · rw [hw2, hw1d]
            simp only []
            rw [dget_dset_ne _ _ (by
              intro he
              exact hnh.1 (he ▸ List.mem_map.mpr ⟨q', hq', rfl⟩))]
            exact hh'
          · rw [hread2 (stemOf q'.1, FKind.db) (by
              intro he
              exact hns.1 (he ▸ List.mem_map.mpr ⟨q', hq', rfl⟩))]
            exact hrf')
        hnh.2 hns.2
      refine ⟨w', ?_, ?_, ?_, ?_, h5, h6, h7⟩
      · rw [h1]
        simp [List.filter_cons, hact]
      · intro nm hnm
        rw [h2 nm (fun q' hq' hs => hnm q' (by simp [hq']) hs)]
        exact hread2 nm (hnm (fid, hid) (by simp) hact)
      · intro d' hd'
        rw [h3 d' hd', hw2]
        simp only []
        exact dget_dset_ne _ _ hd'
      · intro hid' hnm
        rw [h4 hid' (fun q' hq' hs => hnm q' (by simp [hq']) hs), hw2, hw1d]
        simp only []
        exact dget_dset_ne _ _ (hnm (fid, hid) (by simp) hact)

/-- Ghost description of the merge store's segments: the sealed files
(stem and decoded records), the active stem, the active records. -/
abbrev MGhost :=
  List (Nat × List (Nat × Bytes × Bytes)) × Nat × List (Nat × Bytes × Bytes)

/-- The replay loop of `merge()` only allocates fresh handles and only
writes inside the merge directory: everything the source store can reach
is as it was at loop entry (`wb`). -/
structure WStab (md : Nat) (wb w : World) : Prop where
  hstab : ∀ hid, hid < wb.hnext → dget hid w.handles = dget hid wb.handles
  dstab : ∀ d', d' ≠ md → dget d' w.dirs = dget d' wb.dirs
  hmono : wb.hnext ≤ w.hnext
  cmono : wb.clock ≤ w.clock

/-- Invariant of the merge store after at least one replayed `put`: the
ghost `done`/`ast`/`atr` describe its directory image and active
segment exactly. -/
structure MInv (wb : World) (md T : Nat)
    (done : List (Nat × List (Nat × Bytes × Bytes))) (ast : Nat)
    (atr : List (Nat × Bytes × Bytes)) (mc : Cask) (w : World) : Prop where
  stab : WStab md wb w
  dirname : mc.dirname = some (some md)
  thr : mc.threshold = T
  act : mc.active = some (stemFid ast)
  cur : mc.cur = (encAll atr).length
  handle : ∃ hid, dget (stemFid ast) mc.datadir = some hid ∧ wb.hnext ≤ hid ∧
    dget hid w.handles = some ⟨.disk md ast true, false⟩
  mdir : getDir w md = some (mkMfs done ast atr)
  stemsNd : (done.map Prod.fst ++ [ast]).Nodup
  stemsLt : ∀ st ∈ done.map Prod.fst ++ [ast], st < w.clock
  stemsGe : ∀ st ∈ done.map Prod.fst ++ [ast], wb.clock ≤ st
  wfTr : ∀ t ∈ flatTr done atr, t.1 < w.clock ∧ t.2.1.length < 2 ^ 32 ∧
    0 < t.2.2.length ∧ t.2.2.length < 2 ^ 32
  trNe : ∀ p ∈ done, p.2 ≠ []
  atrNe : atr ≠ []

/-- State of the merge store during the replay: no ghost before the
first replayed key (merge store still empty), the full invariant
afterwards. -/
def MPre (wb : World) (md T : Nat) (gh : Option MGhost) (mc : Cask)
    (w : World) : Prop :=
  match gh with
  | none => WStab md wb w ∧ mc.dirname = some (some md) ∧ mc.threshold = T ∧
      mc.active = none ∧ getDir w md = some []
  | some (done, ast, atr) => MInv wb md T done ast atr mc w

/-- The key/value pairs replayed so far, in replay order. -/
def trKV : Option MGhost → List (Bytes × Bytes)
  | none => []
  | some (done, _, atr) => (flatTr done atr).map (fun t => (t.2.1, t.2.2))

/-- What the replay loop needs from the source about one sealed keydir
entry: its backing handle predates the merge, is an open disk handle on
the data directory, and its positioned read produces `V` at that key. -/
def SrcRead (src : Cask) (d : Nat) (wb : World) (V : Bytes → Bytes)
    (p : Bytes × KeyRec) : Prop :=
  ∃ hid stem wm bs, dget p.2.file_id src.datadir = some hid ∧ hid < wb.hnext ∧
    dget hid wb.handles = some ⟨.disk d stem wm, false⟩ ∧
    readFile wb d (stem, FKind.db) = some bs ∧
    padRead bs p.2.value_pos p.2.value_sz = V p.1 ∧
    0 < (V p.1).length ∧ (V p.1).length < 2 ^ 32 ∧ p.1.length < 2 ^ 32

/-- Under the loop stability facts, the source's positioned reads are
what they were at loop entry. -/
theorem getRec_stable (src : Cask) (d md : Nat) (wb w : World)
    (V : Bytes → Bytes) (p : Bytes × KeyRec) (hst : WStab md wb w)
    (hdmd : d ≠ md) (h : SrcRead src d wb V p) :
    getRec src w p.2 = .ok (V p.1) := by
  obtain ⟨hid, stem, wm, bs, h1, h2, h3, h4, h5, _⟩ := h
  have hgd : readFile w d (stem, FKind.db) = some bs := by
    rw [readFile, getDir, hst.dstab d hdmd]
    rw [readFile, getDir] at h4
    exact h4
  simp only [getRec, h1, handleReadAt, hst.hstab hid h2, h3, handleBytes,
    hgd, h5]
  rfl

/-- Rolling the merge store's active file and appending the next record
to the fresh segment, as one directory-image equation. -/
theorem mkMfs_seal_put (done : List (Nat × List (Nat × Bytes × Bytes)))
    (ast c ts : Nat) (atr : List (Nat × Bytes × Bytes)) (k v : Bytes)
    (hc : ∀ st' ∈ done.map Prod.fst ++ [ast], st' ≠ c) :
    dset (c, FKind.db) ([] ++ encRec ts k v)
        (dset (c, FKind.db) [] (mkMfs done ast atr)) =
      mkMfs (done ++ [(ast, atr)]) c [(ts, k, v)] := by
  rw [dset_dset]
  rw [dset_absent _ (mkMfs_get_none done ast atr c
    (fun st' h' => (hc st' (by simp [h'])).symm) ((hc ast (by simp)).symm))]
  simp [mkMfs, encAll]

/-- The replay loop of `merge()`: starting from the empty merge store,
replaying the sealed keydir entries succeeds and builds segment files
that decode back to exactly the replayed key/value pairs, in order. -/
theorem mergePuts_build (src : Cask) (d md T : Nat) (wb : World)
    (V : Bytes → Bytes) (hdmd : d ≠ md) :
    ∀ (kd : List (Bytes × KeyRec)) (gh : Option MGhost) (mc : Cask) (w : World),
    MPre wb md T gh mc w →
    (∀ p ∈ kd, ¬(some p.2.file_id = src.active) → SrcRead src d wb V p) →
    ∃ gh' mc' w', mergePuts src w mc kd = .ok (mc', w') ∧
      MPre wb md T gh' mc' w' ∧
      trKV gh' = trKV gh ++
        (kd.filter (fun p => !(some p.2.file_id == src.active))).map
          (fun p => (p.1, V p.1)) ∧
      w'.clock ≤ w.clock + 2 * kd.length := by
  intro kd
  induction kd with
  | nil =>
    intro gh mc w hpre _
    exact ⟨gh, mc, w, rfl, hpre, by simp, by omega⟩
  | cons p rest ih =>
    intro gh mc w hpre hsrcs
    obtain ⟨k, kr⟩ := p
    by_cases hact : some kr.file_id = src.active
    · obtain ⟨gh', mc', w', h1, h2, h3, h4⟩ := ih gh mc w hpre
        (fun q hq hs => hsrcs q (by simp [hq]) hs)
      refine ⟨gh', mc', w', ?_, h2, ?_, by simp; omega⟩
      · rw [mergePuts, if_pos hact]
        exact h1
      · rw [h3]
        simp [List.filter_cons, hact]
    · have hsrc := hsrcs (k, kr) (by simp) hact
      have hst : WStab md wb w := by
        match gh, hpre with
        | none, hpre => exact hpre.1
        | some (done, ast, atr), hpre => exact hpre.stab
      obtain ⟨-, -, -, -, -, -, -, -, -, hVpos, hVlt, hklt⟩ := id hsrc
      dsimp only at hVpos hVlt hklt
      have hVne : (V k).length ≠ 0 := by omega
      rw [mergePuts, if_neg hact,
        getRec_stable src d md wb w V (k, kr) hst hdmd hsrc]
      simp only []
      rw [putOp, if_neg hVne]
      match gh, hpre with
      | none, hpre =>
        obtain ⟨hst0, hdirn, hthr, hactive, hmdir⟩ := hpre
        rw [putRaw_rot mc w k (V k) _ _ (Or.inl hactive)
          (reactivate_spec_disk_fresh mc w md [] hdirn hactive hmdir rfl)]
        rw [putAppend_spec_disk _ _ k (V k) (stemFid w.clock) w.hnext md w.clock
          (dset (w.clock, FKind.db) [] []) []
          rfl (dget_dset_self _ _ _) (dget_dset_self _ _ _) (dget_dset_self _ _ _)
          (dget_dset_self _ _ _) rfl]
        simp only []
        have hinv2 : MPre wb md T (some ([], w.clock, [(w.clock + 1, k, V k)]))
            { mc with active := some (stemFid w.clock),
                      datadir := dset (stemFid w.clock) w.hnext mc.datadir,
                      cur := 0 + 28 + k.length + (V k).length,
                      keydir := dset k ⟨stemFid w.clock, (V k).length, 0 + 28 + k.length, w.clock + 1⟩ mc.keydir }
            { w with clock := w.clock + 1 + 1,
                     dirs := dset md (dset (w.clock, FKind.db) ([] ++ encRec (w.clock + 1) k (V k)) (dset (w.clock, FKind.db) [] [])) (dset md (dset (w.clock, FKind.db) [] []) w.dirs),
                     handles := dset w.hnext ⟨.disk md w.clock true, false⟩ w.handles,
                     hnext := w.hnext + 1 } := by
          constructor
          case stab =>
            constructor
            case hstab =>
              intro h hlt
              rw [dget_dset_ne _ _ (by have := hst0.hmono; omega)]
              exact hst0.hstab h hlt
            case dstab =>
              intro d' hd'
              rw [dget_dset_ne _ _ hd', dget_dset_ne _ _ hd']
              exact hst0.dstab d' hd'
            case hmono => have := hst0.hmono; simp; omega
            case cmono => have := hst0.cmono; simp; omega
          case dirname => exact hdirn
          case thr => exact hthr
          case act => rfl
          case cur =>
            show 0 + 28 + k.length + (V k).length = _
            simp [encAll, encRec_length]
          case handle =>
            exact ⟨w.hnext, dget_dset_self _ _ _, hst0.hmono, dget_dset_self _ _ _⟩
          case mdir =>
            show dget md (dset md _ (dset md _ w.dirs)) = _
            rw [dget_dset_self, dset_dset]
            simp [mkMfs, dset, encAll]
          case stemsNd => simp
          case stemsLt => intro st hstm; simp at hstm; subst hstm; simp; omega
          case stemsGe =>
            intro st hstm
            simp at hstm
            subst hstm
            exact hst0.cmono
          case wfTr =>
            intro t htm
            simp [flatTr] at htm
            subst htm
            refine ⟨by simp, hklt, hVpos, hVlt⟩
          case trNe => intro q hq; simp at hq
          case atrNe => simp
        obtain ⟨gh', mc', w', h1, h2, h3, h4⟩ :=
          ih _ _ _ hinv2 (fun q hq hs => hsrcs q (by simp [hq]) hs)
        refine ⟨gh', mc', w', h1, h2, ?_, ?_⟩
        · rw [h3]
          simp [trKV, flatTr, List.filter_cons, hact]
        · simp only [] at h4
          simp only [List.length_cons]
          omega
      | some (done, ast, atr), hpre =>
        have hastd : ∀ st' ∈ done.map Prod.fst, ast ≠ st' := by
          intro st' hst'
          have hnd0 := hpre.stemsNd
          rw [List.nodup_append] at hnd0
          intro he
          exact hnd0.2.2 hst' (by simp [he])
        obtain ⟨ahid, hdd, hge, hh⟩ := hpre.handle
        by_cases hcur : T < (encAll atr).length
        · -- rotation: seal the active file, append to a fresh one
          rw [putRaw_rot mc w k (V k) _ _
            (Or.inr (by rw [hpre.thr, hpre.cur]; exact hcur))
            (reactivate_spec_disk_roll mc w md (mkMfs done ast atr)
              (stemFid ast) ahid md ast (mkMfs done ast atr) (encAll atr)
              hpre.dirname hpre.act hdd hh hpre.mdir
              (mkMfs_get_active done ast atr hastd) hpre.mdir
              (mkMfs_get_none done ast atr w.clock
                (fun st' h' => by
                  have := hpre.stemsLt st' (by simp [h'])
                  omega)
                (by
                  have := hpre.stemsLt ast (by simp)
                  omega)))]
          rw [putAppend_spec_disk _ _ k (V k) (stemFid w.clock) (w.hnext + 1)
            md w.clock (dset (w.clock, FKind.db) [] (mkMfs done ast atr)) []
            rfl (dget_dset_self _ _ _) (dget_dset_self _ _ _)
            (dget_dset_self _ _ _) (dget_dset_self _ _ _) rfl]
          simp only []
          have hinv2 : MPre wb md T
              (some (done ++ [(ast, atr)], w.clock, [(w.clock + 1, k, V k)]))
              { mc with active := some (stemFid w.clock),
                        datadir := dset (stemFid w.clock) (w.hnext + 1) (dset (stemFid ast) w.hnext mc.datadir),
                        cur := 0 + 28 + k.length + (V k).length,
                        keydir := dset k ⟨stemFid w.clock, (V k).length, 0 + 28 + k.length, w.clock + 1⟩ mc.keydir }
              { w with clock := w.clock + 1 + 1,
                       dirs := dset md (dset (w.clock, FKind.db) ([] ++ encRec (w.clock + 1) k (V k)) (dset (w.clock, FKind.db) [] (mkMfs done ast atr))) (dset md (dset (w.clock, FKind.db) [] (mkMfs done ast atr)) w.dirs),
                       handles := dset (w.hnext + 1) ⟨.disk md w.clock true, false⟩ (dset w.hnext ⟨.disk md ast false, false⟩ (dset ahid ⟨.disk md ast true, true⟩ w.handles)),
                       hnext := w.hnext + 2 } := by
            constructor
            case stab =>
              constructor
              case hstab =>
                intro h hlt
                rw [dget_dset_ne _ _ (by have := hpre.stab.hmono; omega),
                  dget_dset_ne _ _ (by have := hpre.stab.hmono; omega),
                  dget_dset_ne _ _ (by omega)]
                exact hpre.stab.hstab h hlt
              case dstab =>
                intro d' hd'
                rw [dget_dset_ne _ _ hd', dget_dset_ne _ _ hd']
                exact hpre.stab.dstab d' hd'
              case hmono => have := hpre.stab.hmono; simp; omega
              case cmono => have := hpre.stab.cmono; simp; omega
            case dirname => exact hpre.dirname
            case thr => exact hpre.thr
            case act => rfl
            case cur =>
              show 0 + 28 + k.length + (V k).length = _
              simp [encAll, encRec_length]
            case handle =>
              exact ⟨w.hnext + 1, dget_dset_self _ _ _,
                by have := hpre.stab.hmono; omega, dget_dset_self _ _ _⟩
            case mdir =>
              show dget md (dset md _ (dset md _ w.dirs)) = _
              rw [dget_dset_self, mkMfs_seal_put]
              intro st' hst'
              have := hpre.stemsLt st' hst'
              omega
            case stemsNd =>
              have h0 := hpre.stemsNd
              simp only [List.map_append, List.map_cons, List.map_nil]
              rw [List.append_assoc]
              rw [List.nodup_append] at h0 ⊢
              refine ⟨h0.1, ?_, ?_⟩
              · simp only [List.nodup_append]
                refine ⟨h0.2.1, by simp, ?_⟩
                intro x hx hx2
                simp at hx hx2
                have := hpre.stemsLt ast (by simp)
                omega
              · intro x hx hx2
                rcases List.mem_append.1 hx2 with h | h
                · exact h0.2.2 hx h
                · simp at h
                  have := hpre.stemsLt x (by simp [hx])
                  omega
            case stemsLt =>
              intro st hstm
              simp only [List.map_append, List.map_cons, List.map_nil,
                List.mem_append, List.mem_singleton] at hstm
              show st < w.clock + 1 + 1
              rcases hstm with (h | h) | h
              · have := hpre.stemsLt st (by simp [h]); omega
              · have := hpre.stemsLt ast (by simp); omega
              · omega
            case stemsGe =>
              intro st hstm
              simp only [List.map_append, List.map_cons, List.map_nil,
                List.mem_append, List.mem_singleton] at hstm
              rcases hstm with (h | h) | h
              · exact hpre.stemsGe st (by simp [h])
              · rw [h]
                exact hpre.stemsGe ast (by simp)
              · rw [h]
                exact hpre.stab.cmono
            case wfTr =>
              intro t htm
              rw [flatTr_seal] at htm
              show t.1 < w.clock + 1 + 1 ∧ _
              rcases List.mem_append.1 htm with h | h
              · have := hpre.wfTr t h
                exact ⟨by omega, this.2⟩
              · rcases List.mem_singleton.1 h with h2
                subst h2
                exact ⟨by omega, hklt, hVpos, hVlt⟩
            case trNe =>
              intro q hq
              rcases List.mem_append.1 hq with h | h
              · exact hpre.trNe q h
              · rcases List.mem_singleton.1 h with h2
                subst h2
                intro he
                dsimp only at he
                rw [he] at hcur
                simp [encAll] at hcur
            case atrNe => simp
          obtain ⟨gh', mc', w', h1, h2, h3, h4⟩ :=
            ih _ _ _ hinv2 (fun q hq hs => hsrcs q (by simp [hq]) hs)
          refine ⟨gh', mc', w', h1, h2, ?_, ?_⟩
          · rw [h3]
            simp [trKV, flatTr_seal, List.filter_cons, hact]
          · simp only [] at h4
            simp only [List.length_cons]
            omega
        · -- no rotation: append to the current active file
          rw [putRaw_norot mc w k (V k) (by
            rintro (h | h)
            · rw [hpre.act] at h; cases h
            · rw [hpre.thr] at h
              rw [hpre.cur] at h
              omega)]
          rw [putAppend_spec_disk _ _ k (V k) (stemFid ast) ahid md ast
            (mkMfs done ast atr) (encAll atr)
            hpre.act hdd hh hpre.mdir (mkMfs_get_active done ast atr hastd)
            hpre.cur.symm]
          simp only []
          have hinv2 : MPre wb md T (some (done, ast, atr ++ [(w.clock, k, V k)]))
              { mc with cur := mc.cur + 28 + k.length + (V k).length,
                        keydir := dset k ⟨stemFid ast, (V k).length, mc.cur + 28 + k.length, w.clock⟩ mc.keydir }
              { w with clock := w.clock + 1,
                       dirs := dset md (dset (ast, FKind.db) (encAll atr ++ encRec w.clock k (V k)) (mkMfs done ast atr)) w.dirs } := by
            constructor
            case stab =>
              constructor
              case hstab =>
                intro h hlt
                exact hpre.stab.hstab h hlt
              case dstab =>
                intro d' hd'
                rw [dget_dset_ne _ _ hd']
                exact hpre.stab.dstab d' hd'
              case hmono => exact hpre.stab.hmono
              case cmono => have := hpre.stab.cmono; simp; omega
            case dirname => exact hpre.dirname
            case thr => exact hpre.thr
            case act => exact hpre.act
            case cur =>
              show mc.cur + 28 + k.length + (V k).length = _
              rw [hpre.cur, encAll_append]
              simp [encAll, encRec_length]
              omega
            case handle => exact ⟨ahid, hdd, hge, hh⟩
            case mdir =>
              show dget md (dset md _ w.dirs) = _
              rw [dget_dset_self,
                mkMfs_append_rec done ast atr w.clock k (V k) hastd]
            case stemsNd => exact hpre.stemsNd
            case stemsLt =>
              intro st hstm
              have := hpre.stemsLt st hstm
              show st < w.clock + 1
              omega
            case stemsGe => exact hpre.stemsGe
            case wfTr =>
              intro t htm
              rw [flatTr_snoc_atr] at htm
              show t.1 < w.clock + 1 ∧ _
              rcases List.mem_append.1 htm with h | h
              · have := hpre.wfTr t h
                exact ⟨by omega, this.2⟩
              · rcases List.mem_singleton.1 h with h2
                subst h2
                exact ⟨by omega, hklt, hVpos, hVlt⟩
            case trNe => exact hpre.trNe
            case atrNe => simp
          obtain ⟨gh', mc', w', h1, h2, h3, h4⟩ :=
            ih _ _ _ hinv2 (fun q hq hs => hsrcs q (by simp [hq]) hs)
          refine ⟨gh', mc', w', h1, h2, ?_, ?_⟩
          · rw [h3]
            simp [trKV, flatTr_snoc_atr, List.filter_cons, hact]
          · simp only [] at h4
            simp only [List.length_cons]
            omega

/-- The forced final `_reactivate` of the merge store: in both replay
outcomes (no sealed key replayed, or at least one) it yields an active
empty segment on a fresh stem, with the sealed files exactly the built
ones. -/
theorem reactivate_after_build (md T : Nat) (w1 : World) (mc2 : Cask)
    (w2 : World) (gh2 : Option MGhost) (hpre : MPre w1 md T gh2 mc2 w2) :
    ∃ doneAll astF mc3 w3 hid3,
      reactivate mc2 w2 = .ok (mc3, w3) ∧
      mc3.dirname = some (some md) ∧ mc3.active = some (stemFid astF) ∧
      dget (stemFid astF) mc3.datadir = some hid3 ∧ w1.hnext ≤ hid3 ∧
      dget hid3 w3.handles = some ⟨.disk md astF true, false⟩ ∧
      getDir w3 md = some (mkMfs doneAll astF []) ∧
      (doneAll.map Prod.fst ++ [astF]).Nodup ∧
      (∀ st ∈ doneAll.map Prod.fst ++ [astF], w1.clock ≤ st ∧ st < w3.clock) ∧
      (∀ t ∈ flatTr doneAll [], t.1 < w3.clock ∧ t.2.1.length < 2 ^ 32 ∧
        0 < t.2.2.length ∧ t.2.2.length < 2 ^ 32) ∧
      (∀ p ∈ doneAll, p.2 ≠ []) ∧
      (flatTr doneAll []).map (fun t => (t.2.1, t.2.2)) = trKV gh2 ∧
      w3.clock = w2.clock + 1 ∧
      (∀ hid, hid < w1.hnext → dget hid w3.handles = dget hid w1.handles) ∧
      (∀ d', d' ≠ md → dget d' w3.dirs = dget d' w1.dirs) ∧
      w1.hnext ≤ w3.hnext := by
  match gh2, hpre with
  | none, hpre =>
    obtain ⟨hst, hdirn, hthr, hactive, hmdir⟩ := hpre
    refine ⟨[], w2.clock, _, _, w2.hnext,
      reactivate_spec_disk_fresh mc2 w2 md [] hdirn hactive hmdir rfl,
      hdirn, rfl, dget_dset_self _ _ _, hst.hmono, dget_dset_self _ _ _,
      ?_, by simp, ?_, ?_, ?_, by simp [trKV, flatTr], rfl, ?_, ?_,
      by have := hst.hmono; simp; omega⟩
    · show dget md (dset md _ w2.dirs) = _
      rw [dget_dset_self]
      simp [mkMfs, dset, encAll]
    · intro st hstm
      simp at hstm
      subst hstm
      exact ⟨hst.cmono, Nat.lt_succ_self _⟩
    · intro t htm
      simp [flatTr] at htm
    · intro q hq
      simp at hq
    · intro hid hlt
      show dget hid (dset w2.hnext _ w2.handles) = _
      rw [dget_dset_ne _ _ (by have := hst.hmono; omega)]
      exact hst.hstab hid hlt
    · intro d' hd'
      show dget d' (dset md _ w2.dirs) = _
      rw [dget_dset_ne _ _ hd']
      exact hst.dstab d' hd'
  | some (done, ast, atr), hpre =>
    have hastd : ∀ st' ∈ done.map Prod.fst, ast ≠ st' := by
      intro st' hst'
      have hnd0 := hpre.stemsNd
      rw [List.nodup_append] at hnd0
      intro he
      exact hnd0.2.2 hst' (by simp [he])
    obtain ⟨ahid, hdd, hge, hh⟩ := hpre.handle
    refine ⟨done ++ [(ast, atr)], w2.clock, _, _, w2.hnext + 1,
      reactivate_spec_disk_roll mc2 w2 md (mkMfs done ast atr)
        (stemFid ast) ahid md ast (mkMfs done ast atr) (encAll atr)
        hpre.dirname hpre.act hdd hh hpre.mdir
        (mkMfs_get_active done ast atr hastd) hpre.mdir
        (mkMfs_get_none done ast atr w2.clock
          (fun st' h' => by have := hpre.stemsLt st' (by simp [h']); omega)
          (by have := hpre.stemsLt ast (by simp); omega)),
      hpre.dirname, rfl, dget_dset_self _ _ _,
      by have := hpre.stab.hmono; omega, dget_dset_self _ _ _,
      ?_, ?_, ?_, ?_, ?_, ?_, rfl, ?_, ?_,
      by have := hpre.stab.hmono; simp; omega⟩
    · show dget md (dset md _ w2.dirs) = _
      rw [dget_dset_self,
        mkMfs_seal done ast w2.clock atr
          (fun st' hst' => by have := hpre.stemsLt st' hst'; omega)]
    · have h0 := hpre.stemsNd
      simp only [List.map_append, List.map_cons, List.map_nil]
      rw [List.append_assoc]
      rw [List.nodup_append] at h0 ⊢
      refine ⟨h0.1, ?_, ?_⟩
      · simp only [List.nodup_append]
        refine ⟨h0.2.1, by simp, ?_⟩
        intro x hx hx2
        simp at hx hx2
        have := hpre.stemsLt ast (by simp)
        omega
      · intro x hx hx2
        rcases List.mem_append.1 hx2 with h | h
        · exact h0.2.2 hx h
        · simp at h
          have := hpre.stemsLt x (by simp [hx])
          omega
    · intro st hstm
      simp only [List.map_append, List.map_cons, List.map_nil,
        List.mem_append, List.mem_singleton] at hstm
      rcases hstm with (h | h) | h
      · exact ⟨hpre.stemsGe st (by simp [h]),
          by have := hpre.stemsLt st (by simp [h]); simp; omega⟩
      · exact ⟨by rw [h]; exact hpre.stemsGe ast (by simp),
          by have := hpre.stemsLt ast (by simp); simp; omega⟩
      · exact ⟨by rw [h]; exact hpre.stab.cmono, by rw [h]; simp⟩
    · intro t htm
      rw [flatTr_seal] at htm
      simp only [List.append_nil] at htm
      have := hpre.wfTr t htm
      exact ⟨by simp; omega, this.2⟩
    · intro q hq
      rcases List.mem_append.1 hq with h | h
      · exact hpre.trNe q h
      · rcases List.mem_singleton.1 h with h2
        subst h2
        exact hpre.atrNe
    · rw [flatTr_seal]
      simp [trKV]
    · intro hid hlt
      show dget hid (dset (w2.hnext + 1) _ (dset w2.hnext _ (dset ahid _ w2.handles))) = _
      rw [dget_dset_ne _ _ (by have := hpre.stab.hmono; omega),
        dget_dset_ne _ _ (by have := hpre.stab.hmono; omega),
        dget_dset_ne _ _ (by omega)]
      exact hpre.stab.hstab hid hlt
    · intro d' hd'
      show dget d' (dset md _ w2.dirs) = _
      rw [dget_dset_ne _ _ hd']
      exact hpre.stab.dstab d' hd'

/-- The hint of each scan entry names that entry's key. -/
theorem entriesAt_hint_keys (st : Nat) :
    ∀ (tr : List (Nat × Bytes × Bytes)) (L : Nat),
    (entriesAt st L tr).map (fun e => e.2.hint.key) =
      tr.map (fun t => t.2.1) := by
  intro tr
  induction tr with
  | nil => intro L; simp [entriesAt]
  | cons t rest ih =>
    intro L
    obtain ⟨ts, k, v⟩ := t
    simp [entriesAt, ih]

/-- The hint keys of the built groups are the replayed keys. -/
theorem hintKeysOf_groups :
    ∀ (doneAll : List (Nat × List (Nat × Bytes × Bytes))),
    hintKeysOf (doneAll.map
        (fun p => (p.1, (entriesAt p.1 0 p.2).map (fun e => e.2.hint)))) =
      (flatTr doneAll []).map (fun t => t.2.1) := by
  intro doneAll
  induction doneAll with
  | nil => simp [hintKeysOf, flatTr]
  | cons p rest ih =>
    obtain ⟨st, tr⟩ := p
    rw [List.map_cons, hintKeysOf, List.foldr_cons]
    rw [show flatTr ((st, tr) :: rest) [] = tr ++ flatTr rest [] from rfl]
    rw [List.map_append, ← ih]
    rw [hintKeysOf, List.map_map]
    congr 1
    simpa [Function.comp] using entriesAt_hint_keys st tr 0

/-- Each file's keys form a sublist of the flattened keys. -/
theorem flatTr_keys_sublist {f : Nat × Bytes × Bytes → Bytes}
    {done : List (Nat × List (Nat × Bytes × Bytes))}
    {atr : List (Nat × Bytes × Bytes)} {p : Nat × List (Nat × Bytes × Bytes)}
    (hp : p ∈ done) :
    List.Sublist (p.2.map f) ((flatTr done atr).map f) := by
  induction done with
  | nil => simp at hp
  | cons q rest ih =>
    obtain ⟨st, tr⟩ := q
    rw [show flatTr ((st, tr) :: rest) atr = tr ++ flatTr rest atr from rfl,
      List.map_append]
    rcases List.mem_cons.1 hp with h | h
    · subst h
      exact List.sublist_append_left _ _
    · exact (ih h).trans (List.sublist_append_right _ _)

/-- The file names `merge()` moves into the data directory are pairwise
distinct. -/
theorem merge_names_nodup (stems : List Nat) (astF : Nat)
    (h : (stems ++ [astF]).Nodup) :
    ((stems.map (fun st => ((st : Nat), FKind.db)) ++ [(astF, FKind.db)]) ++
      stems.map (fun st => ((st : Nat), FKind.hint))).Nodup := by
  rw [List.nodup_append]
  refine ⟨?_, ?_, ?_⟩
  · rw [show stems.map (fun st => ((st : Nat), FKind.db)) ++ [(astF, FKind.db)] =
      (stems ++ [astF]).map (fun st => ((st : Nat), FKind.db)) from by simp]
    exact h.map (fun a b he => by injection he)
  · rw [List.nodup_append] at h
    exact h.1.map (fun a b he => by injection he)
  · intro x hx hx2
    rcases List.mem_append.1 hx with h1 | h1
    · obtain ⟨a, _, he⟩ := List.mem_map.1 h1
      obtain ⟨b, _, he2⟩ := List.mem_map.1 hx2
      rw [← he2] at he
      injection he with he3 he4
      cases he4
    · obtain ⟨b, _, he2⟩ := List.mem_map.1 hx2
      rw [List.mem_singleton] at h1
      rw [← he2] at h1
      injection h1 with he3 he4
      cases he4

/-- Unpacking one keydir entry's backing chain from the store-level
hypotheses: the datadir handle, the stem, its file, and the value the
positioned read returns. -/
theorem src_entry_facts (s : Cask) (w : World) (d : Nat) (fs0 : DirFS)
    (V : Bytes → Bytes) (stemOf : Nat → Nat) (wmOf : Nat → Bool)
    (hgd : dget d w.dirs = some fs0)
    (hDD : ∀ q ∈ s.datadir, q.2 < w.hnext ∧
      dget q.2 w.handles = some ⟨.disk d (stemOf q.1) (wmOf q.1), false⟩ ∧
      (dget (stemOf q.1, FKind.db) fs0).isSome)
    (p : Bytes × KeyRec) (hVp : getRec s w p.2 = .ok (V p.1)) :
    ∃ hid f, dget p.2.file_id s.datadir = some hid ∧ hid < w.hnext ∧
      dget hid w.handles = some ⟨.disk d (stemOf p.2.file_id) (wmOf p.2.file_id), false⟩ ∧
      dget (stemOf p.2.file_id, FKind.db) fs0 = some f ∧
      padRead f p.2.value_pos p.2.value_sz = V p.1 := by
  cases hda : dget p.2.file_id s.datadir with
  | none =>
    rw [getRec, hda] at hVp
    cases hVp
  | some hid =>
    obtain ⟨hlt, hh, hf⟩ := hDD (p.2.file_id, hid) (dget_mem hda)
    obtain ⟨f, hf2⟩ := Option.isSome_iff_exists.1 hf
    dsimp only at hh hf2
    refine ⟨hid, f, rfl, hlt, hh, hf2, ?_⟩
    rw [getRec, hda] at hVp
    simp only [handleReadAt, hh, handleBytes] at hVp
    rw [show readFile w d (stemOf p.2.file_id, FKind.db) = some f from by
      rw [readFile, getDir, hgd]
      exact hf2] at hVp
    simp only [Bool.false_eq_true, if_false] at hVp
    exact Except.ok.inj hVp

/-- With unique keys, membership determines the lookup. -/
theorem dget_of_mem_nodup {K V : Type} [DecidableEq K] {k : K} {v : V} :
    ∀ {l : List (K × V)}, (l.map Prod.fst).Nodup → (k, v) ∈ l →
    dget k l = some v := by
  intro l
  induction l with
  | nil => intro _ h; simp at h
  | cons p rest ih =>
    intro hnd hm
    rw [List.map_cons, List.nodup_cons] at hnd
    rcases List.mem_cons.1 hm with h | h
    · subst h
      rw [dget, if_pos rfl]
    · have : p.1 ≠ k := by
        intro he
        exact hnd.1 (he ▸ List.mem_map.mpr ⟨(k, v), h, rfl⟩)
      rw [dget, if_neg this]
      exact ih hnd.2 h

/-- A map by a function injective on the list preserves distinctness. -/
theorem nodup_map_on {α β : Type} {f : α → β} :
    ∀ {l : List α}, (∀ x ∈ l, ∀ y ∈ l, f x = f y → x = y) → l.Nodup →
    (l.map f).Nodup := by
  intro l
  induction l with
  | nil => intro _ _; simp
  | cons a rest ih =>
    intro hinj hnd
    rw [List.nodup_cons] at hnd
    rw [List.map_cons, List.nodup_cons]
    refine ⟨?_, ih (fun x hx y hy => hinj x (by simp [hx]) y (by simp [hy])) hnd.2⟩
    intro hm
    obtain ⟨b, hb, he⟩ := List.mem_map.1 hm
    exact hnd.1 (hinj b (by simp [hb]) a (by simp) he ▸ hb)

/-- The per-key correctness of the state `merge()` hands back: keys
backed by the active segment keep their records and read through the
untouched original handle and file; merged keys read their replayed
records from the fresh merged segments. -/
theorem c5_final_get (s : Cask) (w : World) (d : Nat) (fs0 : DirFS)
    (V : Bytes → Bytes) (stemOf : Nat → Nat) (wmOf : Nat → Bool)
    (doneAll : List (Nat × List (Nat × Bytes × Bytes))) (astF : Nat)
    (groups : List (Nat × List Hint)) (w8 : World) (dd : List (Nat × Nat))
    (hgd : dget d w.dirs = some fs0)
    (hDD : ∀ q ∈ s.datadir, q.2 < w.hnext ∧
      dget q.2 w.handles = some ⟨.disk d (stemOf q.1) (wmOf q.1), false⟩ ∧
      (dget (stemOf q.1, FKind.db) fs0).isSome)
    (hfidsN : (s.datadir.map Prod.fst).Nodup)
    (hhidsN : (s.datadir.map Prod.snd).Nodup)
    (hkN : (s.keydir.map Prod.fst).Nodup)
    (hV : ∀ p ∈ s.keydir, getRec s w p.2 = .ok (V p.1))
    (hF1 : groups = doneAll.map
      (fun p => (p.1, (entriesAt p.1 0 p.2).map (fun e => e.2.hint))))
    (hF2 : (flatTr doneAll []).map (fun t => (t.2.1, t.2.2)) =
      (s.keydir.filter (fun p => !(some p.2.file_id == s.active))).map
        (fun p => (p.1, V p.1)))
    (hF4 : dd = s.datadir.filter (fun q => some q.1 == s.active))
    (hF5 : ∀ hid, hid < w.hnext →
      (∀ q ∈ s.datadir, ¬(some q.1 = s.active) → hid ≠ q.2) →
      dget hid w8.handles = dget hid w.handles)
    (hF6 : ∀ st ∈ doneAll.map Prod.fst ++ [astF],
      ∃ i, i < 2 * s.keydir.length + 1 ∧ st = w.clock + i)
    (hF7 : ∀ p ∈ doneAll, readFile w8 d (p.1, FKind.db) = some (encAll p.2))
    (hF8 : ∀ fid hidX, some fid = s.active → dget fid s.datadir = some hidX →
      ∀ f, dget (stemOf fid, FKind.db) fs0 = some f →
      readFile w8 d (stemOf fid, FKind.db) = some f)
    (hfresh2 : ∀ i j, i < 2 * s.keydir.length + 1 →
      j < 2 * s.keydir.length + 1 →
      stemFid (w.clock + i) = stemFid (w.clock + j) → i = j)
    (hfresh3 : ∀ i, i < 2 * s.keydir.length + 1 → ∀ q ∈ s.datadir,
      stemFid (w.clock + i) ≠ q.1)
    (hndStems : (doneAll.map Prod.fst ++ [astF]).Nodup)
    (hmono8 : w.hnext ≤ w8.hnext)
    (k : Bytes) (kr : KeyRec) (hk : dget k s.keydir = some kr) :
    getOp { s with keydir := owhKeys groups (dropMerged s.active s.keydir),
                   datadir := owhData w8.hnext groups dd }
          { w8 with handles := owhHandles d w8.hnext groups w8.handles,
                    hnext := w8.hnext + groups.length } k = .ok (V k) ∧
    getOp s w k = .ok (V k) := by
  have hmem : (k, kr) ∈ s.keydir := dget_mem hk
  have hVk := hV (k, kr) hmem
  obtain ⟨hidA, fA, hdaA, hltA, hhA, hfA, hpadA⟩ :=
    src_entry_facts s w d fs0 V stemOf wmOf hgd hDD (k, kr) hVk
  dsimp only at hdaA hltA hhA hfA hpadA
  have hget0 : getOp s w k = .ok (V k) := by
    rw [getOp, hk]
    exact hVk
  refine ⟨?_, hget0⟩
  have hkeysNd : ((flatTr doneAll []).map (fun t => t.2.1)).Nodup := by
    have := congrArg (List.map Prod.fst) hF2
    simp only [List.map_map] at this
    rw [show ((fun t : Nat × Bytes × Bytes => t.2.1)) =
      (Prod.fst ∘ fun t : Nat × Bytes × Bytes => (t.2.1, t.2.2)) from rfl, this]
    exact List.Nodup.sublist ((List.filter_sublist _).map _) (by
      simpa [Function.comp] using hkN)
  by_cases hactk : some kr.file_id = s.active
  · -- the entry stays in the keydir and reads through the old handle
    have hknot : ∀ g ∈ groups, ∀ h ∈ g.2, h.key ≠ k := by
      intro g hg h hh he
      have hmem2 : h.key ∈ hintKeysOf groups := mem_hintKeysOf hg hh
      rw [hF1, hintKeysOf_groups] at hmem2
      rw [he] at hmem2
      have hmk : k ∈ ((flatTr doneAll []).map
          (fun t => (t.2.1, t.2.2))).map Prod.fst := by
        rw [List.map_map]
        simpa [Function.comp] using hmem2
      rw [hF2, List.map_map] at hmk
      obtain ⟨⟨k2, kr2⟩, hm2, he2⟩ := List.mem_map.1 hmk
      dsimp only [Function.comp] at he2
      subst he2
      have hm3 := List.mem_of_mem_filter hm2
      have hm4 := dget_of_mem_nodup hkN hm3
      rw [hk] at hm4
      have hkr := Option.some.inj hm4
      subst hkr
      have hm5 := List.of_mem_filter hm2
      simp [hactk] at hm5
    have e1 : dget k (owhKeys groups (dropMerged s.active s.keydir)) =
        some kr := by
      rw [owhKeys_other k groups _ hknot]
      exact dget_filter _ hkN hk (by simp [hactk])
    have hfidne : ∀ g ∈ groups, stemFid g.1 ≠ kr.file_id := by
      intro g hg
      have hgstem : g.1 ∈ doneAll.map Prod.fst := by
        rw [hF1] at hg
        obtain ⟨p, hp, he⟩ := List.mem_map.1 hg
        rw [← he]
        exact List.mem_map.mpr ⟨p, hp, rfl⟩
      obtain ⟨i, hi, he⟩ := hF6 g.1 (by simp [hgstem])
      rw [he]
      exact hfresh3 i hi (kr.file_id, hidA) (dget_mem hdaA)
    have e2 : dget kr.file_id (owhData w8.hnext groups dd) = some hidA := by
      rw [owhData_other kr.file_id groups w8.hnext dd hfidne, hF4]
      exact dget_filter _ hfidsN hdaA (by simp [hactk])
    have e3 : dget hidA (owhHandles d w8.hnext groups w8.handles) =
        some ⟨.disk d (stemOf kr.file_id) (wmOf kr.file_id), false⟩ := by
      rw [owhHandles_lt d groups w8.hnext hidA w8.handles (by omega),
        hF5 hidA hltA (by
          intro q hq hs he
          have hne : (kr.file_id, hidA) ≠ q := by
            intro he2
            rw [← he2] at hs
            exact hs hactk
          exact nodup_map_ne hhidsN (dget_mem hdaA) hq hne he)]
      exact hhA
    have e4 := hF8 kr.file_id hidA hactk hdaA fA hfA
    rw [readFile, getDir] at e4
    simp only [getOp, e1, getRec, e2, handleReadAt, e3, handleBytes,
      readFile, getDir, e4, Bool.false_eq_true, if_false]
    rw [hpadA]
  · -- a merged key: read the replayed record from the fresh segment
    have hmemF : (k, V k) ∈ (flatTr doneAll []).map (fun t => (t.2.1, t.2.2)) := by
      rw [hF2]
      exact List.mem_map.mpr ⟨(k, kr),
        List.mem_filter.mpr ⟨hmem, by simp [hactk]⟩, rfl⟩
    obtain ⟨t, htm, hte⟩ := List.mem_map.1 hmemF
    obtain ⟨ts, tk, tv⟩ := t
    dsimp only at hte
    injection hte with hte1 hte2
    rw [hte1, hte2] at htm
    rcases flatTr_mem.1 htm with ⟨p, hpD, htp⟩ | hbad
    swap
    · simp at hbad
    have hnodupP : (p.2.map (fun t => t.2.1)).Nodup :=
      List.Nodup.sublist (flatTr_keys_sublist hpD) hkeysNd
    obtain ⟨pos, hgetE, hpadE⟩ :=
      entriesAt_lookup p.1 p.2 [] ts k (V k) htp hnodupP
    simp only [List.length_nil] at hgetE
    have hhint : (⟨ts, k.length, (V k).length, pos, k⟩ : Hint) ∈
        (entriesAt p.1 0 p.2).map (fun e => e.2.hint) :=
      List.mem_map.mpr ⟨(k, ⟨ts, false, p.1, ⟨ts, k.length, (V k).length, pos, k⟩⟩),
        dget_mem hgetE, rfl⟩
    have hginG : (p.1, (entriesAt p.1 0 p.2).map (fun e => e.2.hint)) ∈ groups := by
      rw [hF1]
      exact List.mem_map.mpr ⟨p, hpD, rfl⟩
    have hKnodup : (hintKeysOf groups).Nodup := by
      rw [hF1, hintKeysOf_groups]
      exact hkeysNd
    have e1 : dget k (owhKeys groups (dropMerged s.active s.keydir)) =
        some ⟨stemFid p.1, (V k).length, pos, ts⟩ :=
      owhKeys_hit groups _ _ _ hginG hhint hKnodup
    have hstemsNd2 : (doneAll.map Prod.fst).Nodup :=
      (List.nodup_append.1 hndStems).1
    have hfidnd : (groups.map (fun x => stemFid x.1)).Nodup := by
      have hinj : ((doneAll.map Prod.fst).map stemFid).Nodup := by
        refine nodup_map_on ?_ hstemsNd2
        intro x hx y hy he
        obtain ⟨i, hi, hei⟩ := hF6 x (by simp only [List.mem_append]; exact Or.inl hx)
        obtain ⟨j, hj, hej⟩ := hF6 y (by simp only [List.mem_append]; exact Or.inl hy)
        have hij : i = j := hfresh2 i j hi hj (by rw [← hei, ← hej]; exact he)
        rw [hei, hej, hij]
      rw [hF1, List.map_map]
      rw [List.map_map] at hinj
      exact hinj
    obtain ⟨j, hdataJ, hhandJ⟩ :=
      owhData_hit d groups w8.hnext dd _ hginG hfidnd
    dsimp only at hdataJ
    have e3 := hhandJ w8.handles
    dsimp only at e3
    have e4 := hF7 p hpD
    rw [readFile, getDir] at e4
    simp only [getOp, e1, getRec, hdataJ, handleReadAt, e3, handleBytes,
      readFile, getDir, e4, Bool.false_eq_true, if_false]
    rw [show padRead (encAll p.2) pos (V k).length = V k from by
      simpa using hpadE]

/-- C5: on a well-formed persistent store, `merge()` succeeds and `get`
returns the same bytes as before for every key present in the keydir,
whether backed by the active segment or by a sealed one. -/
theorem c5_merge_preserves_get
    (s : Cask) (w : World) (d : Nat) (fs0 : DirFS) (V : Bytes → Bytes)
    (stemOf : Nat → Nat) (wmOf : Nat → Bool)
    (hdir : s.dirname = some (some d))
    (hgd : dget d w.dirs = some fs0)
    (hmd : dget w.dnext w.dirs = none)
    (hDD : ∀ q ∈ s.datadir, q.2 < w.hnext ∧
      dget q.2 w.handles = some ⟨.disk d (stemOf q.1) (wmOf q.1), false⟩ ∧
      (dget (stemOf q.1, FKind.db) fs0).isSome)
    (hfidsN : (s.datadir.map Prod.fst).Nodup)
    (hhidsN : (s.datadir.map Prod.snd).Nodup)
    (hstemsN : (s.datadir.map (fun q => stemOf q.1)).Nodup)
    (hkN : (s.keydir.map Prod.fst).Nodup)
    (hV : ∀ p ∈ s.keydir, getRec s w p.2 = .ok (V p.1))
    (hVb : ∀ p ∈ s.keydir, 0 < (V p.1).length ∧ (V p.1).length < 2 ^ 32 ∧
      p.1.length < 2 ^ 32)
    (hfresh1 : ∀ i, i < 2 * s.keydir.length + 1 → ∀ kind,
      dget (w.clock + i, kind) fs0 = none)
    (hfresh2 : ∀ i j, i < 2 * s.keydir.length + 1 →
      j < 2 * s.keydir.length + 1 →
      stemFid (w.clock + i) = stemFid (w.clock + j) → i = j)
    (hfresh3 : ∀ i, i < 2 * s.keydir.length + 1 → ∀ q ∈ s.datadir,
      stemFid (w.clock + i) ≠ q.1)
    (hcap : w.clock + 2 * s.keydir.length + 1 < 2 ^ 128) :
    ∃ s' w', mergeOp s w = .ok (true, s', w') ∧
      ∀ k kr, dget k s.keydir = some kr →
        getOp s' w' k = .ok (V k) ∧ getOp s w k = .ok (V k) := by
  have hdmd : d ≠ w.dnext := by
    intro he
    rw [he, hmd] at hgd
    cases hgd
  have hsrcs : ∀ p ∈ s.keydir, ¬(some p.2.file_id = s.active) →
      SrcRead s d { w with dirs := dset w.dnext [] w.dirs, dnext := w.dnext + 1 } V p := by
    intro p hp _
    obtain ⟨hid, f, h1, h2, h3, h4, h5⟩ :=
      src_entry_facts s w d fs0 V stemOf wmOf hgd hDD p (hV p hp)
    obtain ⟨hb1, hb2, hb3⟩ := hVb p hp
    refine ⟨hid, stemOf p.2.file_id, wmOf p.2.file_id, f, h1, h2, h3, ?_, h5,
      hb1, hb2, hb3⟩
    show Option.bind (dget d (dset w.dnext [] w.dirs)) _ = _
    rw [dget_dset_ne _ _ hdmd, hgd]
    exact h4
  simp only [mergeOp, hdir]
  rw [openOp_empty_dir s.threshold _ w.dnext (dget_dset_self _ _ _)]
  simp only []
  obtain ⟨gh2, mc2, w2, hMP, hInv2, hKV2, hclk2⟩ :=
    mergePuts_build s d w.dnext s.threshold
      { w with dirs := dset w.dnext [] w.dirs, dnext := w.dnext + 1 } V
      hdmd s.keydir none
      { mkCask s.threshold with dirname := some (some w.dnext) }
      { w with dirs := dset w.dnext [] w.dirs, dnext := w.dnext + 1 }
      ⟨⟨fun _ _ => rfl, fun _ _ => rfl, Nat.le_refl _, Nat.le_refl _⟩,
        rfl, rfl, rfl, dget_dset_self _ _ _⟩
      hsrcs
  rw [hMP]
  simp only []
  obtain ⟨doneAll, astF, mc3, w3, hid3, hre, hdirn3, hact3, hdd3, hge3, hh3,
    hmdir3, hnd3, hrange3, hwf3, hne3, hkv3, hclk3, hstab3, hdstab3, hmono3⟩ :=
    reactivate_after_build w.dnext s.threshold
      { w with dirs := dset w.dnext [] w.dirs, dnext := w.dnext + 1 }
      mc2 w2 gh2 hInv2
  rw [hre]
  simp only []
  -- ranges and key correspondences
  have hB : w3.clock ≤ w.clock + 2 * s.keydir.length + 1 := by
    have h1 : w2.clock ≤ w.clock + 2 * s.keydir.length := hclk2
    omega
  have hstemRange : ∀ st ∈ doneAll.map Prod.fst ++ [astF],
      ∃ i, i < 2 * s.keydir.length + 1 ∧ st = w.clock + i := by
    intro st hstm
    obtain ⟨hge, hlt⟩ := hrange3 st hstm
    have hge2 : w.clock ≤ st := hge
    exact ⟨st - w.clock, by omega, by omega⟩
  have hKVall : (flatTr doneAll []).map (fun t => (t.2.1, t.2.2)) =
      (s.keydir.filter (fun p => !(some p.2.file_id == s.active))).map
        (fun p => (p.1, V p.1)) := by
    rw [hkv3, hKV2]
    simp [trKV]
  have hkeysNd : ((flatTr doneAll []).map (fun t => t.2.1)).Nodup := by
    have h := congrArg (List.map Prod.fst) hKVall
    simp only [List.map_map] at h
    rw [show (fun t : Nat × Bytes × Bytes => t.2.1) =
      (Prod.fst ∘ fun t : Nat × Bytes × Bytes => (t.2.1, t.2.2)) from rfl, h]
    exact List.Nodup.sublist ((List.filter_sublist _).map _) (by
      simpa [Function.comp] using hkN)
  have hstsNd : (doneAll.map Prod.fst).Nodup := (List.nodup_append.1 hnd3).1
  have hastnd : ∀ st' ∈ doneAll.map Prod.fst, astF ≠ st' := by
    intro st' h' he
    exact (List.nodup_append.1 hnd3).2.2 h' (by simp [he])
  have hfreshName : ∀ st kind, st ∈ doneAll.map Prod.fst ++ [astF] →
      dget (st, kind) fs0 = none := by
    intro st kind hstm
    obtain ⟨i, hi, he⟩ := hstemRange st hstm
    rw [he]
    exact hfresh1 i hi kind
  have hnewOld : ∀ st, st ∈ doneAll.map Prod.fst ++ [astF] →
      ∀ q ∈ s.datadir, st ≠ stemOf q.1 := by
    intro st hstm q hq he
    have h1 := hfreshName st FKind.db hstm
    obtain ⟨-, -, hf⟩ := hDD q hq
    rw [he] at h1
    rw [h1] at hf
    cases hf
  -- recovery of the merge directory
  have hrh : readHintsOp mc3 w3 = .ok (some (doneAll.map
      (fun p => (p.1, (entriesAt p.1 0 p.2).map (fun e => e.2.hint))))) := by
    rw [readHintsOp, hdirn3]
    simp only []
    rw [show getDir w3 w.dnext = some (mkMfs doneAll astF []) from hmdir3]
    simp only []
    rw [show (mkMfs doneAll astF []).map Prod.fst =
      doneAll.map (fun p => (p.1, FKind.db)) ++ [(astF, FKind.db)] from by
      simp [mkMfs]]
    rw [readHintsList_mfs (mkMfs doneAll astF []) doneAll [] astF
      (fun p hp => ⟨mkMfs_get_done doneAll astF [] p hp hstsNd hastnd, hne3 p hp⟩)
      (by simpa [encAll] using mkMfs_get_active doneAll astF [] hastnd)
      (fun st => mkMfs_no_hints doneAll astF [] st)
      (by
        intro p hp t ht
        obtain ⟨h1, h2, h3, h4⟩ := hwf3 t (flatTr_mem.2 (Or.inl ⟨p, hp, ht⟩))
        exact ⟨by omega, h2, h3, h4⟩)
      (fun p hp t ht => rfl)
      hkeysNd]
    simp only [List.nil_append]
    rw [groupHints_eq_foldl,
      gstep_blocks doneAll [] (fun p hp => hne3 p hp) (fun p hp => rfl) hstsNd]
    simp
  rw [hrh]
  simp only []
  set GRP := doneAll.map
    (fun p => (p.1, (entriesAt p.1 0 p.2).map (fun e => e.2.hint))) with hGRP
  have hGf : GRP.map Prod.fst = doneAll.map Prod.fst := by
    rw [hGRP, List.map_map]
    rfl
  -- hint files appended in the merge directory
  have hwhs := writeHintFiles_stable w.dnext GRP w3
  have hwhdir := writeHintFiles_dir w.dnext GRP w3 (mkMfs doneAll astF [])
    hmdir3 (fun g hg => mkMfs_no_hints doneAll astF [] g.1)
    (by rw [hGf]; exact hstsNd)
  set w4 := writeHintFiles w3 w.dnext GRP with hw4
  -- close the merge store's empty active segment
  have hh4 : dget hid3 w4.handles = some ⟨.disk w.dnext astF true, false⟩ := by
    rw [hw4, (writeHintFiles_stable w.dnext GRP w3).1]
    exact hh3
  rw [closeOp_spec mc3 w4 (stemFid astF) hid3 ⟨.disk w.dnext astF true, false⟩
    hact3 hdd3 hh4]
  simp only []
  have hch : closeHandle w4 hid3 =
      { w4 with handles := dset hid3 ⟨.disk w.dnext astF true, true⟩ w4.handles } := by
    rw [closeHandle, hh4]
  rw [hch]
  set fsM2 : DirFS := mkMfs doneAll astF [] ++
    GRP.map (fun g => ((g.1, FKind.hint), hintImage g)) with hfsM2
  have hgd5md : getDir { w4 with
      handles := dset hid3 ⟨.disk w.dnext astF true, true⟩ w4.handles } w.dnext =
      some fsM2 := by
    show getDir w4 w.dnext = _
    rw [hw4]
    exact hwhdir
  rw [hgd5md]
  simp only []
  set w5 : World :=
    { w4 with handles := dset hid3 ⟨.disk w.dnext astF true, true⟩ w4.handles } with hw5
  -- move the merge output over
  have hnamesEq : fsM2.map Prod.fst =
      ((doneAll.map Prod.fst).map (fun st => ((st : Nat), FKind.db)) ++
        [(astF, FKind.db)]) ++
      (doneAll.map Prod.fst).map (fun st => ((st : Nat), FKind.hint)) := by
    rw [hfsM2, hGRP]
    simp only [mkMfs, List.map_append, List.map_map, List.map_cons,
      List.map_nil, List.cons_append, List.nil_append]
    rfl
  have habs : ∀ nm ∈ fsM2.map Prod.fst, dget nm fs0 = none := by
    intro nm hnm
    rw [hnamesEq] at hnm
    rcases List.mem_append.1 hnm with h | h
    · rcases List.mem_append.1 h with h2 | h2
      · obtain ⟨st, hst, he⟩ := List.mem_map.1 h2
        rw [← he]
        exact hfreshName st FKind.db (by simp [hst])
      · rw [List.mem_singleton] at h2
        rw [h2]
        exact hfreshName astF FKind.db (by simp)
    · obtain ⟨st, hst, he⟩ := List.mem_map.1 h
      rw [← he]
      exact hfreshName st FKind.hint (by simp [hst])
  have hnodupNames : (fsM2.map Prod.fst).Nodup := by
    rw [hnamesEq]
    exact merge_names_nodup (doneAll.map Prod.fst) astF hnd3
  have hgd5d : getDir w5 d = some fs0 := by
    show getDir w4 d = _
    rw [hw4]
    show dget d (writeHintFiles w3 w.dnext GRP).dirs = _
    rw [hwhs.2.2.2.2 d hdmd, hdstab3 d hdmd]
    show dget d (dset w.dnext [] w.dirs) = _
    rw [dget_dset_ne _ _ hdmd]
    exact hgd
  obtain ⟨hmv1, hmv2, hmv3, hmv4, hmv5⟩ :=
    moveFiles_spec d fsM2 w5 fs0 hgd5d habs hnodupNames
  set w6 := moveFiles w5 d fsM2 with hw6
  set w7 : World := { w6 with dirs := ddel w.dnext w6.dirs } with hw7
  -- files and handles visible after the sweep
  have hread7 : ∀ nm : FName, readFile w7 d nm = dget nm (fs0 ++ fsM2) := by
    intro nm
    show Option.bind (dget d (ddel w.dnext w6.dirs)) _ = _
    rw [dget_ddel _ hdmd,
      show dget d w6.dirs = some (fs0 ++ fsM2) from hmv1]
    rfl
  have hhand7 : ∀ hid, hid < w.hnext → dget hid w7.handles = dget hid w.handles := by
    intro hid hlt
    show dget hid w6.handles = _
    rw [hmv2]
    show dget hid (dset hid3 _ w4.handles) = _
    rw [dget_dset_ne _ _ (by
      have hge2 : w.hnext ≤ hid3 := hge3
      omega)]
    rw [hw4, (writeHintFiles_stable w.dnext GRP w3).1, hstab3 hid hlt]
  have hdropH : ∀ q ∈ s.datadir, ¬(some q.1 = s.active) →
      dget q.2 w7.handles = some ⟨.disk d (stemOf q.1) (wmOf q.1), false⟩ ∧
      (readFile w7 d (stemOf q.1, FKind.db)).isSome := by
    intro q hq _
    obtain ⟨hlt, hh, hf⟩ := hDD q hq
    obtain ⟨f, hf2⟩ := Option.isSome_iff_exists.1 hf
    refine ⟨?_, ?_⟩
    · rw [hhand7 q.2 hlt]
      exact hh
    · rw [hread7, dget_append_left _ hf2]
      rfl
  obtain ⟨w8, hdf1, hdf2, hdf3, hdf4, hdf5, hdf6, hdf7⟩ :=
    dropFiles_spec d s.active stemOf wmOf s.datadir w7 hdropH hhidsN hstemsN
  rw [hdf1]
  simp only []
  -- facts about the swept state
  have hmono8 : w.hnext ≤ w8.hnext := by
    rw [hdf6]
    show w.hnext ≤ w6.hnext
    rw [hmv4]
    show w.hnext ≤ w4.hnext
    rw [hw4, hwhs.2.2.1]
    exact hmono3
  have hF5 : ∀ hid, hid < w.hnext →
      (∀ q ∈ s.datadir, ¬(some q.1 = s.active) → hid ≠ q.2) →
      dget hid w8.handles = dget hid w.handles := by
    intro hid hlt hne
    rw [hdf4 hid hne]
    exact hhand7 hid hlt
  have hF7 : ∀ p ∈ doneAll, readFile w8 d (p.1, FKind.db) = some (encAll p.2) := by
    intro p hp
    rw [hdf2 (p.1, FKind.db) (by
      intro q hq _
      exact hnewOld p.1 (by
        simp only [List.mem_append]
        exact Or.inl (List.mem_map.mpr ⟨p, hp, rfl⟩)) q hq)]
    rw [hread7, dget_append_right _ (hfreshName p.1 FKind.db (by
      simp only [List.mem_append]
      exact Or.inl (List.mem_map.mpr ⟨p, hp, rfl⟩))),
      hfsM2, dget_append_left _ (mkMfs_get_done doneAll astF [] p hp hstsNd hastnd)]
  have hF8 : ∀ fid hidX, some fid = s.active → dget fid s.datadir = some hidX →
      ∀ f, dget (stemOf fid, FKind.db) fs0 = some f →
      readFile w8 d (stemOf fid, FKind.db) = some f := by
    intro fid hidX hfid hda f hf
    rw [hdf2 (stemOf fid, FKind.db) (by
      intro q hq hs he
      have hne : (fid, hidX) ≠ q := by
        intro he2
        rw [← he2] at hs
        exact hs hfid
      exact hs (by
        rw [← hfid]
        exact absurd he (by
          exact nodup_map_ne hstemsN (dget_mem hda) hq hne)))]
    rw [hread7, dget_append_left _ hf]
  have hfiles9 : ∀ g ∈ GRP, (readFile w8 d (g.1, FKind.db)).isSome := by
    intro g hg
    rw [hGRP] at hg
    obtain ⟨p, hp, he⟩ := List.mem_map.1 hg
    rw [← he]
    rw [show ((p.1, (entriesAt p.1 0 p.2).map (fun e => e.2.hint)) :
      Nat × List Hint).1 = p.1 from rfl, hF7 p hp]
    rfl
  rw [openWithHints_spec d GRP
    { threshold := s.threshold, dirname := some (some d), active := s.active,
      keydir := dropMerged s.active s.keydir,
      datadir := List.filter (fun q => some q.1 == s.active) s.datadir,
      cur := s.cur, iterState := s.iterState } w8 rfl hfiles9]
  simp only []
  refine ⟨_, _, rfl, ?_⟩
  intro k kr hk
  rw [show (some (some d) : Option (Option Nat)) = s.dirname from hdir.symm]
  exact c5_final_get s w d fs0 V stemOf wmOf doneAll astF GRP w8
    (s.datadir.filter (fun q => some q.1 == s.active))
    hgd hDD hfidsN hhidsN hkN hV hGRP hKVall rfl hF5 hstemRange hF7 hF8
    hfresh2 hfresh3 hnd3 hmono8 k kr hk

/-- A store for exercising `merge()`: threshold 10 forces the first
record (key `[1]`) into a sealed segment while key `[2]` lives in the
active one. -/
def c5State : Cask × World :=
  runOut
    (do
      let (_, s, w) ← openOp (mkCask 10) baseWorld (some 0)
      let (s, w) ← putOp s w [1] [7, 7]
      putOp s w [2] [8, 8, 8])
    (mkCask 0, baseWorld)

/-- The data directory of `c5State`. -/
def c5Fs : DirFS := (getDir c5State.2 0).getD []

/-- The values `get` returns on `c5State` before the merge. -/
def c5V : Bytes → Bytes := fun k => if k = [1] then [7, 7] else [8, 8, 8]

/-- The stem of each of `c5State`'s segments. -/
def c5StemOf : Nat → Nat := fun fid => if fid = stemFid 100 then 100 else 102

/-- The open mode of each of `c5State`'s segment handles. -/
def c5WmOf : Nat → Bool := fun fid => !(fid = stemFid 100)

theorem c5_witness :
    c5State.1.dirname = some (some 0) ∧
    dget 0 c5State.2.dirs = some c5Fs ∧
    dget c5State.2.dnext c5State.2.dirs = none ∧
    (∀ q ∈ c5State.1.datadir, q.2 < c5State.2.hnext ∧
      dget q.2 c5State.2.handles =
        some ⟨.disk 0 (c5StemOf q.1) (c5WmOf q.1), false⟩ ∧
      (dget (c5StemOf q.1, FKind.db) c5Fs).isSome) ∧
    (∀ p ∈ c5State.1.keydir, getRec c5State.1 c5State.2 p.2 = .ok (c5V p.1)) ∧
    (∃ s' w', mergeOp c5State.1 c5State.2 = .ok (true, s', w') ∧
      ∀ k kr, dget k c5State.1.keydir = some kr →
        getOp s' w' k = .ok (c5V k) ∧ getOp c5State.1 c5State.2 k = .ok (c5V k)) :=
  ⟨by decide, by decide, by decide, by decide, by decide,
    c5_merge_preserves_get c5State.1 c5State.2 0 c5Fs c5V c5StemOf c5WmOf
      (by decide) (by decide) (by decide) (by decide) (by decide) (by decide)
      (by decide) (by decide) (by decide) (by decide)
      (by
        intro i hi kind
        cases kind <;> revert i hi <;> decide)
      (by
        have h : ∀ i, i < 2 * c5State.1.keydir.length + 1 →
            ∀ j, j < 2 * c5State.1.keydir.length + 1 →
            stemFid (c5State.2.clock + i) = stemFid (c5State.2.clock + j) →
            i = j := by decide
        intro i j hi hj he
        exact h i hi j hj he)
      (by decide) (by decide)⟩

end PyBitcask
